import Mathlib

/-! # Price tracker: price normalisation, enrichment and ranking

A shallow embedding of `cmd/main.go`:

* `parsePrice` (the locale heuristic on price strings),
* `scrapeProductData` (the enrichment of one product from a fetched page),
* the per-category `sort.Slice` call of `main`.

Go strings are modelled as lists of Unicode code points (`List Char`), that is as
valid UTF-8 text.  Every pattern the program searches for is ASCII or a single code
point, so byte-wise and code-point-wise searches find the same occurrences; indices are
counted in code points, and the program only compares two indices of one string and
slices at one, which is the same in either counting.

`float64` is modelled by `F64`, an IEEE-754 binary64 value with round-to-nearest-even
arithmetic, each operation rounded on its own.
-/

namespace PriceTracker

/-! ## The Go `strings` functions the program calls -/

namespace strings

/-- White space as `unicode.IsSpace` defines it. -/
def isSpace (c : Char) : Bool :=
  let n := c.toNat
  (0x09 ≤ n && n ≤ 0x0D) || n == 0x20 || n == 0x85 || n == 0xA0 || n == 0x1680 ||
  (0x2000 ≤ n && n ≤ 0x200A) || n == 0x2028 || n == 0x2029 || n == 0x202F ||
  n == 0x205F || n == 0x3000

/-- Go `strings.TrimSpace`: the text without its leading and trailing white space. -/
def TrimSpace (s : List Char) : List Char :=
  (s.dropWhile isSpace).rdropWhile isSpace

/-- Scanning loop of `strings.ReplaceAll` for a non-empty `old`: `skip` counts the
characters of a match that are still to be passed over. -/
def replaceFrom (old new : List Char) : Nat → List Char → List Char
  | _, [] => []
  | skip + 1, _ :: cs => replaceFrom old new skip cs
  | 0, c :: cs =>
    if old.isPrefixOf (c :: cs) then new ++ replaceFrom old new (old.length - 1) cs
    else c :: replaceFrom old new 0 cs

/-- Go `strings.ReplaceAll`: every non-overlapping occurrence of `old`, leftmost first,
is replaced by `new`; an empty `old` matches before every character and at the end. -/
def ReplaceAll (s old new : List Char) : List Char :=
  if old.isEmpty then new ++ s.flatMap (fun c => c :: new) else replaceFrom old new 0 s

/-- Go `strings.Contains`. -/
def Contains : List Char → List Char → Bool
  | [], sub => sub.isEmpty
  | c :: cs, sub => sub.isPrefixOf (c :: cs) || Contains cs sub

/-- Go `strings.LastIndex`: the index of the last occurrence of `sub`, or `-1`. -/
def LastIndex : List Char → List Char → Int
  | [], sub => if sub.isEmpty then 0 else -1
  | c :: cs, sub =>
    let r := LastIndex cs sub
    if 0 ≤ r then r + 1 else if sub.isPrefixOf (c :: cs) then 0 else -1

/-- Scanning loop of `strings.Count` for a non-empty `sub`. -/
def countFrom (sub : List Char) : Nat → List Char → Nat
  | _, [] => 0
  | skip + 1, _ :: cs => countFrom sub skip cs
  | 0, c :: cs =>
    if sub.isPrefixOf (c :: cs) then 1 + countFrom sub (sub.length - 1) cs
    else countFrom sub 0 cs

/-- Go `strings.Count`: the number of non-overlapping occurrences of `sub`. -/
def Count (s sub : List Char) : Nat :=
  if sub.isEmpty then s.length + 1 else countFrom sub 0 s

/-- ASCII lower-casing of one character, the first branch of `unicode.ToLower`. -/
def lowerASCII (c : Char) : Char :=
  if 'A' ≤ c ∧ c ≤ 'Z' then Char.ofNat (c.toNat + 32) else c

/-- Go `strings.ToLower`.  ASCII letters are mapped here; `lowerOther` is the Unicode
case table `unicode.ToLower` consults for the characters outside ASCII. -/
def ToLower (lowerOther : Char → Char) (s : List Char) : List Char :=
  s.map (fun c => if c.toNat < 128 then lowerASCII c else lowerOther c)

/-- Go `strings.TrimSuffix`. -/
def TrimSuffix (s suffix : List Char) : List Char :=
  if suffix.isSuffixOf s then s.take (s.length - suffix.length) else s

end strings

/-- Go slice expression `s[:i]`; `none` is the run-time panic of an index out of range. -/
def sliceTo (s : List Char) (i : Int) : Option (List Char) :=
  if 0 ≤ i ∧ i ≤ (s.length : Int) then some (s.take i.toNat) else none

/-- Go slice expression `s[i:]`; `none` is the run-time panic of an index out of range. -/
def sliceFrom (s : List Char) (i : Int) : Option (List Char) :=
  if 0 ≤ i ∧ i ≤ (s.length : Int) then some (s.drop i.toNat) else none

/-! ## `float64` -/

/-- An IEEE-754 binary64 value: not-a-number, an infinity, or the finite number
`(-1)^neg * m * 2^e`.  Arithmetic yields finite values with `m` odd, and zero as
`m = 0`, `e = 0`, so that equal numbers of equal sign are equal terms. -/
inductive F64 where
  | nan : F64
  | inf (neg : Bool) : F64
  | fin (neg : Bool) (m : Nat) (e : Int) : F64
  deriving DecidableEq, Repr

namespace F64

/-- The zero value of a Go `float64`. -/
def zero : F64 := .fin false 0 0

instance : Inhabited F64 := ⟨zero⟩

/-- Number of binary digits of `n`, on `fuel` steps. -/
def bitLenAux : Nat → Nat → Nat
  | 0, _ => 0
  | fuel + 1, n => if n = 0 then 0 else 1 + bitLenAux fuel (n / 2)

/-- Number of binary digits of `n` (`bits.Len`). -/
def bitLen (n : Nat) : Nat := bitLenAux n n

/-- The power of two `2^k` for `k ≥ 0`, and `1` for a negative `k`. -/
def pow2 (k : Int) : Nat := 1 <<< k.toNat

/-- Drops the trailing zero bits of a mantissa, on `fuel` steps. -/
def stripZeros : Nat → Nat → Int → Nat × Int
  | 0, m, e => (m, e)
  | fuel + 1, m, e => if m ≠ 0 ∧ m % 2 = 0 then stripZeros fuel (m / 2) (e + 1) else (m, e)

/-- The finite value `(-1)^neg * m * 2^e` in its reduced form. -/
def mk (neg : Bool) (m : Nat) (e : Int) : F64 :=
  if m = 0 then .fin neg 0 0 else
  let r := stripZeros 64 m e
  .fin neg r.1 r.2

/-- The binary64 nearest to `(-1)^neg * n / d`, ties to the even mantissa, and whether
the magnitude overflowed (the result is then the infinity of that sign).  Mantissas have
53 bits; below `2^-1022` the exponent stays at `-1074` (subnormal numbers). -/
def roundRatio (neg : Bool) (n d : Nat) : F64 × Bool :=
  if n = 0 ∨ d = 0 then (.fin neg 0 0, false) else
  let l : Int := (bitLen n : Int) - (bitLen d : Int)
  let lg : Int := if n * pow2 (-l) < d * pow2 l then l - 1 else l
  let e : Int := max (lg - 52) (-1074)
  let num := n * pow2 (-e)
  let den := d * pow2 e
  let q := num / den
  let r := num % den
  let m := if den < 2 * r ∨ (2 * r = den ∧ q % 2 = 1) then q + 1 else q
  if 971 < e ∨ (e = 971 ∧ pow2 53 ≤ m) then (.inf neg, true) else (mk neg m e, false)

/-- The binary64 nearest to `(-1)^neg * m * 2^e`. -/
def roundDyadic (neg : Bool) (m : Nat) (e : Int) : F64 × Bool :=
  roundRatio neg (m * pow2 e) (pow2 (-e))

/-- The `float64` a Go constant `n/d` denotes. -/
def lit (n d : Nat) : F64 := (roundRatio false n d).1

/-- Unary minus. -/
def neg : F64 → F64
  | nan => nan
  | inf s => inf (!s)
  | fin s m e => fin (!s) m e

/-- Go `x + y` on `float64`. -/
def add : F64 → F64 → F64
  | nan, _ => nan
  | _, nan => nan
  | inf s, inf t => if s = t then inf s else nan
  | inf s, fin _ _ _ => inf s
  | fin _ _ _, inf t => inf t
  | fin s m e, fin t m' e' =>
    let k := min e e'
    let x : Int := (if s then -1 else 1) * ((m * pow2 (e - k) : Nat) : Int)
    let y : Int := (if t then -1 else 1) * ((m' * pow2 (e' - k) : Nat) : Int)
    let z := x + y
    if z = 0 then fin (s && t) 0 0 else (roundDyadic (decide (z < 0)) z.natAbs k).1

/-- Go `x - y` on `float64`. -/
def sub (x y : F64) : F64 := add x (neg y)

/-- Go `x * y` on `float64`. -/
def mul : F64 → F64 → F64
  | nan, _ => nan
  | _, nan => nan
  | inf s, inf t => inf (xor s t)
  | inf s, fin t m _ => if m = 0 then nan else inf (xor s t)
  | fin s m _, inf t => if m = 0 then nan else inf (xor s t)
  | fin s m e, fin t m' e' => (roundDyadic (xor s t) (m * m') (e + e')).1

/-- Go `x / y` on `float64`. -/
def div : F64 → F64 → F64
  | nan, _ => nan
  | _, nan => nan
  | inf _, inf _ => nan
  | inf s, fin t _ _ => inf (xor s t)
  | fin s _ _, inf t => fin (xor s t) 0 0
  | fin s m e, fin t m' e' =>
    if m' = 0 then (if m = 0 then nan else inf (xor s t))
    else (roundRatio (xor s t) (m * pow2 (e - e')) (m' * pow2 (e' - e))).1

/-- Go `x > y` on `float64`: false whenever an operand is not a number. -/
def gt : F64 → F64 → Bool
  | nan, _ => false
  | _, nan => false
  | inf s, inf t => !s && t
  | inf s, fin _ _ _ => !s
  | fin _ _ _, inf t => t
  | fin s m e, fin t m' e' =>
    let k := min e e'
    let x : Int := (if s then -1 else 1) * ((m * pow2 (e - k) : Nat) : Int)
    let y : Int := (if t then -1 else 1) * ((m' * pow2 (e' - k) : Nat) : Int)
    decide (y < x)

/-- Go `x >= y` on `float64`: false whenever an operand is not a number. -/
def ge : F64 → F64 → Bool
  | nan, _ => false
  | _, nan => false
  | x, y => !gt y x

/-- Go `x == y` on `float64`: a not-a-number equals nothing, the two zeros are equal. -/
def eq (x y : F64) : Bool := ge x y && ge y x

/-- Whether the value is a not-a-number. -/
def isNaN : F64 → Bool
  | nan => true
  | _ => false

end F64

/-! ## `strconv.ParseFloat` -/

namespace strconv

/-- The two errors of `strconv.ParseFloat`. -/
inductive NumError where
  | ErrSyntax : NumError
  | ErrRange : NumError
  deriving DecidableEq, Repr

/-- Go `lower(c) == x` of package `strconv` for a lower-case ASCII letter `x`: the
character is `x` in either case. -/
def lowerIs (c x : Char) : Bool := c == x || c.toNat + 32 == x.toNat

/-- Whether `c` is a decimal digit. -/
def isDigit (c : Char) : Bool := decide ('0' ≤ c ∧ c ≤ '9')

/-- Whether `c` is one of the hexadecimal digits `a`-`f`, in either case. -/
def isHexLetter (c : Char) : Bool :=
  decide (('a' ≤ c ∧ c ≤ 'f') ∨ ('A' ≤ c ∧ c ≤ 'F'))

/-- Value of a hexadecimal digit `a`-`f`, in either case. -/
def hexLetterVal (c : Char) : Nat :=
  if 'a' ≤ c then c.toNat - 97 + 10 else c.toNat - 65 + 10

/-- Go `commonPrefixLenIgnoreCase`: length of the longest common prefix of `s` and the
lower-case `pre`, upper-case ASCII letters of `s` counting as their lower case. -/
def commonPrefixLenIgnoreCase : List Char → List Char → Nat
  | c :: cs, p :: ps =>
    if strings.lowerASCII c = p then 1 + commonPrefixLenIgnoreCase cs ps else 0
  | _, _ => 0

/-- The branch of `special` for an infinity: `t` is the text after the sign, `nsign` the
length of the sign. -/
def specialInf (neg : Bool) (nsign : Nat) (t : List Char) : Option (F64 × Nat) :=
  let n := commonPrefixLenIgnoreCase t "infinity".toList
  let n := if 3 < n ∧ n < 8 then 3 else n
  if n = 3 ∨ n = 8 then some (F64.inf neg, nsign + n) else none

/-- Go `special`: a leading, possibly signed `inf` or `infinity` or an unsigned `nan`,
in any case, with the number of characters it takes. -/
def special (s : List Char) : Option (F64 × Nat) :=
  match s with
  | [] => none
  | c :: cs =>
    if c = '+' then specialInf false 1 cs
    else if c = '-' then specialInf true 1 cs
    else if c = 'i' ∨ c = 'I' then specialInf false 0 s
    else if c = 'n' ∨ c = 'N' then
      if commonPrefixLenIgnoreCase s "nan".toList = 3 then some (F64.nan, 3) else none
    else none

/-- The variables of the mantissa loop of `readFloat`. -/
structure Mantissa where
  sawdot : Bool := false
  sawdigits : Bool := false
  underscores : Bool := false
  nd : Nat := 0
  dp : Int := 0
  mantissa : Nat := 0

/-- The mantissa loop of `readFloat`: digits, at most one point, underscores; returns
the variables and the text left.  The source keeps the first 19 digits (16 in base 16)
and a flag for dropped non-zero digits, and its conversion is correctly rounded with
respect to all the digits; here `mantissa` holds all of them. -/
def scanMantissa (hex : Bool) : Mantissa → List Char → Mantissa × List Char
  | st, [] => (st, [])
  | st, c :: cs =>
    if c = '_' then scanMantissa hex { st with underscores := true } cs
    else if c = '.' then
      if st.sawdot then (st, c :: cs)
      else scanMantissa hex { st with sawdot := true, dp := st.nd } cs
    else if isDigit c then
      if c = '0' ∧ st.nd = 0 then
        scanMantissa hex { st with sawdigits := true, dp := st.dp - 1 } cs
      else
        let m := st.mantissa * (if hex then 16 else 10) + (c.toNat - 48)
        scanMantissa hex { st with sawdigits := true, nd := st.nd + 1, mantissa := m } cs
    else if hex ∧ isHexLetter c then
      let m := st.mantissa * 16 + hexLetterVal c
      scanMantissa hex { st with sawdigits := true, nd := st.nd + 1, mantissa := m } cs
    else (st, c :: cs)

/-- The exponent loop of `readFloat`: digits and underscores; the exponent stops
growing once it has reached 10000. -/
def scanExponent : Nat → Bool → List Char → Nat × Bool × List Char
  | e, us, [] => (e, us, [])
  | e, us, c :: cs =>
    if c = '_' then scanExponent e true cs
    else if isDigit c then scanExponent (if e < 10000 then e * 10 + (c.toNat - 48) else e) us cs
    else (e, us, c :: cs)

/-- The loop of `underscoreOK`; `saw` is the class of the last character seen. -/
def underscoreLoop (hex : Bool) : Char → List Char → Bool
  | saw, [] => saw != '_'
  | saw, c :: cs =>
    if isDigit c || (hex && isHexLetter c) then underscoreLoop hex '0' cs
    else if c = '_' then
      if saw != '0' then false else underscoreLoop hex '_' cs
    else if saw = '_' then false
    else underscoreLoop hex '!' cs

/-- Go `underscoreOK`: underscores stand only between digits, or between a base prefix
and a digit. -/
def underscoreOK (s : List Char) : Bool :=
  let s := match s with
    | c :: cs => if c = '-' ∨ c = '+' then cs else s
    | [] => s
  match s with
  | c :: d :: rest =>
    if c = '0' ∧ (lowerIs d 'b' ∨ lowerIs d 'o' ∨ lowerIs d 'x') then
      underscoreLoop (lowerIs d 'x') '0' rest
    else underscoreLoop false '^' s
  | _ => underscoreLoop false '^' s

/-- What `readFloat` returns when it succeeds: the number is
`(-1)^neg * mantissa * base^exp` with base 2 for `hex` and 10 otherwise, and `rest` is
the text it did not read. -/
structure Reading where
  neg : Bool
  hex : Bool
  mantissa : Nat
  exp : Int
  rest : List Char

/-- Go `readFloat`; `none` is its `ok == false`. -/
def readFloat (s : List Char) : Option Reading :=
  match s with
  | [] => none
  | c :: cs =>
    let neg := decide (c = '-')
    let s1 := if c = '+' ∨ c = '-' then cs else s
    let hex := match s1 with
      | z :: x :: _ :: _ => decide (z = '0') && lowerIs x 'x'
      | _ => false
    let s2 := if hex then s1.drop 2 else s1
    let (st, s3) := scanMantissa hex {} s2
    if !st.sawdigits then none else
    let dp : Int := if st.sawdot then st.dp else st.nd
    let dp : Int := if hex then dp * 4 else dp
    let ndMant : Int := if hex then st.nd * 4 else st.nd
    let finish (dp : Int) (underscores : Bool) (rest : List Char) : Option Reading :=
      let exp : Int := if st.mantissa ≠ 0 then dp - ndMant else 0
      if underscores && !underscoreOK (s.take (s.length - rest.length)) then none
      else some { neg := neg, hex := hex, mantissa := st.mantissa, exp := exp, rest := rest }
    match s3 with
    | x :: s4 =>
      if lowerIs x (if hex then 'p' else 'e') then
        match s4 with
        | [] => none
        | y :: s5 =>
          let esign : Int := if y = '-' then -1 else 1
          let s6 := if y = '+' ∨ y = '-' then s5 else s4
          match s6 with
          | [] => none
          | z :: _ =>
            if !isDigit z then none else
            let (e, us, rest) := scanExponent 0 st.underscores s6
            finish (dp + e * esign) us rest
      else if hex then none
      else finish dp st.underscores s3
    | [] => if hex then none else finish dp st.underscores s3

/-- Go `strconv.ParseFloat(s, 64)`: the special names, else the decimal or hexadecimal
floating-point number `s` spells out, rounded to the nearest `float64`.  The whole of
`s` has to be read; a magnitude beyond the largest `float64` is a range error. -/
def ParseFloat (s : List Char) : Except NumError F64 :=
  match special s with
  | some (v, n) => if n = s.length then .ok v else .error .ErrSyntax
  | none =>
    match readFloat s with
    | none => .error .ErrSyntax
    | some r =>
      if r.rest ≠ [] then .error .ErrSyntax else
      let v := if r.hex then F64.roundDyadic r.neg r.mantissa r.exp
        else F64.roundRatio r.neg (r.mantissa * 10 ^ r.exp.toNat) (10 ^ (-r.exp).toNat)
      if v.2 then .error .ErrRange else .ok v.1

end strconv

/-! ## `parsePrice` -/

/-- The text `parsePrice` hands to `strconv.ParseFloat`: the currency signs removed,
the white space around trimmed, the separators rewritten by the position of the last
one.  `none` is a run-time panic of a slice expression. -/
def parsePriceText (price : List Char) : Option (List Char) :=
  let price := strings.ReplaceAll price "€".toList []
  let price := strings.ReplaceAll price "£".toList []
  let price := strings.TrimSpace price
  if strings.Contains price ",".toList && strings.Contains price ".".toList then
    if strings.LastIndex price ",".toList > strings.LastIndex price ".".toList then
      let price := strings.ReplaceAll price ".".toList []
      some (strings.ReplaceAll price ",".toList ".".toList)
    else
      some (strings.ReplaceAll price ",".toList [])
  else if strings.Contains price ",".toList then
    some (strings.ReplaceAll price ",".toList ".".toList)
  else if strings.Count price ".".toList > 1 then
    let lastDot := strings.LastIndex price ".".toList
    match sliceTo price lastDot, sliceFrom price lastDot with
    | some before, some after => some (strings.ReplaceAll before ".".toList [] ++ after)
    | _, _ => none
  else some price

/-- The last two statements of `parsePrice`: the parsed value, and `0.0` when
`strconv.ParseFloat` returns an error. -/
def parseOrZero (text : List Char) : F64 :=
  match strconv.ParseFloat text with
  | .ok val => val
  | .error _ => F64.zero

/-- Go `parsePrice`; `none` is a run-time panic.  The log line is not modelled. -/
def parsePrice (price : List Char) : Option F64 :=
  (parsePriceText price).map parseOrZero

/-! ## Products and their enrichment -/

/-- Go `Product`. -/
structure Product where
  URL : List Char
  FromPrice : List Char
  Name : List Char
  ImageURL : List Char
  PriceTrend : List Char
  FromPriceVal : F64
  PriceTrendVal : F64
  ChangePercent : F64
  deriving DecidableEq, Repr

/-- The zero value of a Go `Product`. -/
instance : Inhabited Product := ⟨⟨[], [], [], [], [], F64.zero, F64.zero, F64.zero⟩⟩

/-- What the `goquery` selections of `scrapeProductData` read off a parsed page. -/
structure Document where
  /-- `doc.Find("title").First().Text()`. -/
  title : List Char
  /-- For each `dt` element in document order: `s.Text()` and
  `s.Next().Find("span").Text()`. -/
  dt : List (List Char × List Char)
  /-- For each `img` element in document order: its `src` and its `alt` attribute, the
  empty string when the attribute is absent. -/
  img : List (List Char × List Char)

/-- What fetching and parsing a product page comes to. -/
inductive Fetched where
  /-- `fetchWithChrome` returned an error. -/
  | fetchError : Fetched
  /-- `goquery.NewDocumentFromReader` returned an error. -/
  | parseError : Fetched
  /-- The page was fetched and parsed. -/
  | page (doc : Document) : Fetched

/-- What the program reads from outside its source text. -/
structure Env where
  /-- The package variable `euroToGBP`, set once by `init`. -/
  euroToGBP : F64
  /-- The Unicode case table of `unicode.ToLower` outside ASCII. -/
  lowerOther : Char → Char
  /-- The page `fetchWithChrome` and `goquery` produce for a URL. -/
  fetch : List Char → Fetched

/-- The body of the `dt` callback of `scrapeProductData`; `none` is a run-time panic. -/
def priceTrendStep (env : Env) (p : Product) (s : List Char × List Char) : Option Product :=
  if strings.TrimSpace s.1 = "Price Trend".toList then
    let eur := strings.TrimSpace s.2
    match parsePrice eur with
    | none => none
    | some val =>
      let p := { p with PriceTrend := eur, PriceTrendVal := F64.mul val env.euroToGBP }
      if F64.gt p.FromPriceVal (F64.lit 0 1) then
        let change := F64.mul
          (F64.div (F64.sub p.PriceTrendVal p.FromPriceVal) p.FromPriceVal) (F64.lit 100 1)
        some { p with ChangePercent := change }
      else some p
  else some p

/-- The body of the `img` callback of `scrapeProductData`. -/
def imageStep (p : Product) (s : List Char × List Char) : Product :=
  let src := s.1
  let alt := s.2
  if strings.Contains alt "Elite Trainer Box".toList then { p with ImageURL := src } else p

/-- Go `scrapeProductData`, on the product `p` with the outcome `fetched` of fetching and
parsing `p.URL`; the result is the product after the call, `none` a run-time panic. -/
def scrapeProductDataOn (env : Env) (fetched : Fetched) (p : Product) : Option Product :=
  match fetched with
  | .fetchError => some p
  | .parseError => some p
  | .page doc =>
    let title := doc.title
    if strings.Contains (strings.ToLower env.lowerOther title) "just a moment".toList then
      some { p with Name := "Blocked or loading issue".toList }
    else
      let p := { p with Name := strings.TrimSuffix title " | Cardmarket".toList }
      match doc.dt.foldlM (priceTrendStep env) p with
      | none => none
      | some p => some (doc.img.foldl imageStep p)

/-- Go `scrapeProductData`. -/
def scrapeProductData (env : Env) (p : Product) : Option Product :=
  scrapeProductDataOn env (env.fetch p.URL) p

/-- The body of the product loop of `main`: the baseline price is parsed, then the
product is enriched. -/
def enrich (env : Env) (p : Product) : Option Product :=
  match parsePrice p.FromPrice with
  | none => none
  | some val => scrapeProductData env { p with FromPriceVal := val }

/-! ## `sort.Slice` -/

namespace sort

variable {α : Type} [Inhabited α]

/-- The element `data[k]` of a slice; every index the sort reads is within the slice. -/
def elem (data : List α) (k : Nat) : α := data.getD k default

/-- `data.Swap(i, j)`, the swap `reflectlite.Swapper` gives: the elements at `i` and `j`
change places. -/
def Swap (data : List α) (i j : Nat) : List α :=
  (data.set i (elem data j)).set j (elem data i)

/-- Inner loop of `insertionSort_func`, `for j := i; j > a && Less(j, j-1); j--`,
started at `j`. -/
def insertionInner (less : α → α → Bool) (a : Nat) : Nat → (List α) → (List α)
  | 0, data => data
  | j + 1, data =>
    if a < j + 1 ∧ less (elem data (j + 1)) (elem data j) then
      insertionInner less a j (Swap data (j + 1) j)
    else data

/-- Go `insertionSort_func`: sorts `data[a:b]` by insertion. -/
def insertionSort_func (less : α → α → Bool) (data : List α) (a b : Nat) : List α :=
  (List.range' (a + 1) (b - (a + 1))).foldl (fun data i => insertionInner less a i data) data

/-- Go `siftDown_func`, its loop started at `root`; `none` when `fuel` iterations did not
end it. -/
def siftDown_func (less : α → α → Bool) (hi first : Nat) :
    Nat → Nat → (List α) → Option (List α)
  | 0, _, _ => none
  | fuel + 1, root, data =>
    let child := 2 * root + 1
    if hi ≤ child then some data else
    let child :=
      if child + 1 < hi ∧ less (elem data (first + child)) (elem data (first + child + 1)) then child + 1
      else child
    if !less (elem data (first + root)) (elem data (first + child)) then some data else
    siftDown_func less hi first fuel child (Swap data (first + root) (first + child))

/-- Go `heapSort_func`: sorts `data[a:b]` with a heap. -/
def heapSort_func (less : α → α → Bool) (data : List α) (a b : Nat) : Option (List α) :=
  let first := a
  let lo := 0
  let hi := b - a
  match (List.range ((hi - 1) / 2 + 1)).reverse.foldlM
      (fun data i => siftDown_func less hi first (hi + 1) i data) data with
  | none => none
  | some data =>
    (List.range hi).reverse.foldlM
      (fun data i => siftDown_func less i first (hi + 1) lo (Swap data first (first + i))) data

/-- The loop `for i <= j && cond(i) { i++ }` over the indices `i, i+1, ...` listed in
`idx`: the first index at which `cond` fails, or `stop` when there is none. -/
def scanUp (cond : Nat → Bool) (stop : Nat) : List Nat → Nat
  | [] => stop
  | i :: idx => if cond i then scanUp cond stop idx else i

/-- The loop `for i <= j && cond(j) { j-- }`, started at `j`, for `i ≥ 1`. -/
def scanDown (cond : Nat → Bool) (i : Nat) : Nat → Nat
  | 0 => 0
  | j + 1 => if i ≤ j + 1 ∧ cond (j + 1) then scanDown cond i j else j + 1

/-- The main loop of `partition_func`, with the slice and the bounds `i`, `j` as its state;
returns the final `j` and slice, `none` when `fuel` iterations did not end it. -/
def partitionLoop (less : α → α → Bool) (a : Nat) :
    Nat → Nat → Nat → (List α) → Option (Nat × (List α))
  | 0, _, _, _ => none
  | fuel + 1, i, j, data =>
    let i := scanUp (fun k => less (elem data k) (elem data a)) (j + 1) (List.range' i (j + 1 - i))
    let j := scanDown (fun k => !less (elem data k) (elem data a)) i j
    if j < i then some (j, data)
    else partitionLoop less a fuel (i + 1) (j - 1) (Swap data i j)

/-- Go `partition_func`: partitions `data[a:b]` around `data[pivot]`; returns the slice, the
new index of the pivot and whether the slice was already partitioned. -/
def partition_func (less : α → α → Bool) (data : List α) (a b pivot : Nat) :
    Option ((List α) × Nat × Bool) :=
  let data := Swap data a pivot
  let i := a + 1
  let j := b - 1
  let i := scanUp (fun k => less (elem data k) (elem data a)) (j + 1) (List.range' i (j + 1 - i))
  let j := scanDown (fun k => !less (elem data k) (elem data a)) i j
  if j < i then some (Swap data j a, j, true)
  else
    let data := Swap data i j
    match partitionLoop less a (b - a) (i + 1) (j - 1) data with
    | none => none
    | some (j, data) => some (Swap data j a, j, false)

/-- The loop of `partitionEqual_func`; returns the final `i` and slice, `none` when
`fuel` iterations did not end it. -/
def partitionEqualLoop (less : α → α → Bool) (a : Nat) :
    Nat → Nat → Nat → (List α) → Option (Nat × (List α))
  | 0, _, _, _ => none
  | fuel + 1, i, j, data =>
    let i := scanUp (fun k => !less (elem data a) (elem data k)) (j + 1) (List.range' i (j + 1 - i))
    let j := scanDown (fun k => less (elem data a) (elem data k)) i j
    if j < i then some (i, data)
    else partitionEqualLoop less a fuel (i + 1) (j - 1) (Swap data i j)

/-- Go `partitionEqual_func`: partitions `data[a:b]` into the elements equal to
`data[pivot]` and the elements greater; returns the slice and the index of the first
greater one. -/
def partitionEqual_func (less : α → α → Bool) (data : List α) (a b pivot : Nat) :
    Option ((List α) × Nat) :=
  let data := Swap data a pivot
  match partitionEqualLoop less a (b - a + 1) (a + 1) (b - 1) data with
  | none => none
  | some (i, data) => some (data, i)

/-- The first shifting loop of `partialInsertionSort_func`,
`for j := i - 1; j >= 1; j--`, started at `j`. -/
def shiftLeft (less : α → α → Bool) : Nat → (List α) → (List α)
  | 0, data => data
  | j + 1, data =>
    if !less (elem data (j + 1)) (elem data j) then data
    else shiftLeft less j (Swap data (j + 1) j)

/-- The second shifting loop of `partialInsertionSort_func`,
`for j := i + 1; j < b; j++`, over the indices listed in `idx`. -/
def shiftRight (less : α → α → Bool) : List Nat → (List α) → (List α)
  | [], data => data
  | j :: idx, data =>
    if !less (elem data j) (elem data (j - 1)) then data
    else shiftRight less idx (Swap data j (j - 1))

/-- The loop of `partialInsertionSort_func` with `steps` iterations left, at index `i`. -/
def partialInsertionLoop (less : α → α → Bool) (a b : Nat) :
    Nat → Nat → (List α) → (List α) × Bool
  | 0, _, data => (data, false)
  | steps + 1, i, data =>
    let i := scanUp (fun k => !less (elem data k) (elem data (k - 1))) b (List.range' i (b - i))
    if i = b then (data, true)
    else if b - a < 50 then (data, false)
    else
      let data := Swap data i (i - 1)
      let data := if 2 ≤ i - a then shiftLeft less (i - 1) data else data
      let data :=
        if 2 ≤ b - i then shiftRight less (List.range' (i + 1) (b - (i + 1))) data else data
      partialInsertionLoop less a b steps i data

/-- Go `partialInsertionSort_func`: sorts `data[a:b]` if a few shifts suffice, and
reports whether the slice is sorted at the end. -/
def partialInsertionSort_func (less : α → α → Bool) (data : List α) (a b : Nat) :
    (List α) × Bool :=
  partialInsertionLoop less a b 5 (a + 1) data

/-- Go `(*xorshift).Next` of package `sort`: the step of its pseudo-random generator on the
64-bit state `r`; the new state is also the number drawn. -/
def xorshift_Next (r : Nat) : Nat :=
  let r := r ^^^ ((r <<< 13) % 2 ^ 64)
  let r := r ^^^ (r >>> 7)
  let r := r ^^^ ((r <<< 17) % 2 ^ 64)
  r

/-- Go `breakPatterns_func`: swaps the three elements at `idx`, `idx + 1`, `idx + 2`, in
the middle of `data[a:b]`, with pseudo-random ones.  `next` is the step of the generator,
`xorshift_Next` in package `sort`; the state starts at the length of the range. -/
def breakPatterns_func (next : Nat → Nat) (data : List α) (a b : Nat) : List α :=
  let length := b - a
  if 8 ≤ length then
    let modulus := 1 <<< F64.bitLen length
    let idx := a + (length / 4) * 2 - 1
    ([0, 1, 2].foldl (fun (st : (List α) × Nat) i =>
      let random := next st.2
      let other := random &&& (modulus - 1)
      let other := if length ≤ other then other - length else other
      (Swap st.1 (idx + i) (a + other), random)) (data, length)).1
  else data

/-- Go `reverseRange_func`: reverses `data[a:b]`. -/
def reverseRange_func (data : List α) (a b : Nat) : List α :=
  ((List.range' a (b - a)).foldl (fun (st : (List α) × Nat) i =>
    if i < st.2 then (Swap st.1 i st.2, st.2 - 1) else st) (data, b - 1)).1

/-- Go `order2_func`: the two indices in the order of their elements, and the count of
swaps. -/
def order2_func (less : α → α → Bool) (data : List α) (a b swaps : Nat) : Nat × Nat × Nat :=
  if less (elem data b) (elem data a) then (b, a, swaps + 1) else (a, b, swaps)

/-- Go `median_func`: the index of the median of three elements, and the count of
swaps. -/
def median_func (less : α → α → Bool) (data : List α) (a b c swaps : Nat) : Nat × Nat :=
  let (a, b, swaps) := order2_func less data a b swaps
  let (b, _, swaps) := order2_func less data b c swaps
  let (_, b, swaps) := order2_func less data a b swaps
  (b, swaps)

/-- Go `medianAdjacent_func`. -/
def medianAdjacent_func (less : α → α → Bool) (data : List α) (a swaps : Nat) : Nat × Nat :=
  median_func less data (a - 1) a (a + 1) swaps

/-- Go `sortedHint`. -/
inductive sortedHint where
  | unknownHint : sortedHint
  | increasingHint : sortedHint
  | decreasingHint : sortedHint
  deriving DecidableEq, Repr

/-- Go `choosePivot_func`: a pivot index in `data[a:b]` and a hint on the order found. -/
def choosePivot_func (less : α → α → Bool) (data : List α) (a b : Nat) : Nat × sortedHint :=
  let l := b - a
  let i := a + l / 4 * 1
  let j := a + l / 4 * 2
  let k := a + l / 4 * 3
  let (j, swaps) :=
    if 8 ≤ l then
      let (i, j, k, swaps) :=
        if 50 ≤ l then
          let (i, swaps) := medianAdjacent_func less data i 0
          let (j, swaps) := medianAdjacent_func less data j swaps
          let (k, swaps) := medianAdjacent_func less data k swaps
          (i, j, k, swaps)
        else (i, j, k, 0)
      median_func less data i j k swaps
    else (j, 0)
  if swaps = 0 then (j, .increasingHint)
  else if swaps = 12 then (j, .decreasingHint)
  else (j, .unknownHint)

/-- The variables of an iteration of `pdqsort_func` when it reaches the partitioning. -/
structure Prepared (α : Type) where
  data : List α
  limit : Nat
  pivot : Nat
  sorted : Bool

/-- An iteration of the loop of `pdqsort_func` on a slice of more than 12 elements with
`limit > 0`, from `breakPatterns_func` to `partialInsertionSort_func`; `sorted` tells that
the latter returned `true`, on which `pdqsort_func` returns. -/
def pdqsortPrepare (next : Nat → Nat) (less : α → α → Bool) (data : List α)
    (a b limit : Nat) (wasBalanced wasPartitioned : Bool) : Prepared α :=
  let data := if !wasBalanced then breakPatterns_func next data a b else data
  let limit := if !wasBalanced then limit - 1 else limit
  let chosen := choosePivot_func less data a b
  let reversed := decide (chosen.2 = .decreasingHint)
  let data := if reversed then reverseRange_func data a b else data
  let pivot := if reversed then (b - 1) - (chosen.1 - a) else chosen.1
  let hint := if reversed then .increasingHint else chosen.2
  let tried :=
    if wasBalanced && wasPartitioned && decide (hint = .increasingHint) then
      partialInsertionSort_func less data a b
    else (data, false)
  { data := tried.1, limit := limit, pivot := pivot, sorted := tried.2 }

/-- Go `pdqsort_func`: sorts `data[a:b]`.  One unfolding is one iteration of its loop;
`wasBalanced` and `wasPartitioned` are its two loop variables.  `none` when `fuel`
unfoldings did not end it. -/
def pdqsort_func (next : Nat → Nat) (less : α → α → Bool) :
    Nat → (List α) → Nat → Nat → Nat → Bool → Bool → Option (List α)
  | 0, _, _, _, _, _, _ => none
  | fuel + 1, data, a, b, limit, wasBalanced, wasPartitioned =>
    if b - a ≤ 12 then some (insertionSort_func less data a b)
    else if limit = 0 then heapSort_func less data a b
    else
      let st := pdqsortPrepare next less data a b limit wasBalanced wasPartitioned
      if st.sorted then some st.data
      else if 0 < a ∧ !less (elem st.data (a - 1)) (elem st.data st.pivot) then
        (partitionEqual_func less st.data a b st.pivot).bind fun r =>
          pdqsort_func next less fuel r.1 r.2 b st.limit wasBalanced wasPartitioned
      else
        (partition_func less st.data a b st.pivot).bind fun r =>
          let mid := r.2.1
          let leftLen := mid - a
          let rightLen := b - mid
          let balanceThreshold := (b - a) / 8
          if leftLen < rightLen then
            (pdqsort_func next less fuel r.1 a mid st.limit true true).bind fun data =>
              pdqsort_func next less fuel data (mid + 1) b st.limit
                (decide (balanceThreshold ≤ leftLen)) r.2.2
          else
            (pdqsort_func next less fuel r.1 (mid + 1) b st.limit true true).bind fun data =>
              pdqsort_func next less fuel data a mid st.limit
                (decide (balanceThreshold ≤ rightLen)) r.2.2

/-- Go `sort.Slice(x, less)`, where `less(i, j)` compares the elements at `i` and `j`;
returns the slice after the call. -/
def Slice (next : Nat → Nat) (less : α → α → Bool) (x : List α) :
    Option (List α) :=
  let length := x.length
  let limit := F64.bitLen length
  pdqsort_func next less (length + 1) x 0 length limit true true

end sort

/-- The comparison `main` hands to `sort.Slice`:
`products[i].ChangePercent > products[j].ChangePercent`. -/
def lessChangePercent (p q : Product) : Bool := F64.gt p.ChangePercent q.ChangePercent

/-- The `sort.Slice` call of `main` on the products of one category. -/
def sortProducts (next : Nat → Nat) (products : List Product) : Option (List Product) :=
  sort.Slice next lessChangePercent products

/-- The body of the category loop of `main`: every product of the category is enriched in
turn, then the list is sorted. -/
def mainCategory (env : Env) (next : Nat → Nat) (products : List Product) :
    Option (List Product) :=
  (products.mapM (enrich env)).bind (sortProducts next)

/-! ## The wording of the specification -/

/-- Spec: the raw text with every euro and pound sign removed and the surrounding white
space trimmed. -/
def specStripped (raw : List Char) : List Char :=
  strings.TrimSpace ((raw.filter (fun c => c != '€')).filter (fun c => c != '£'))

/-- Spec: the last separator, comma or dot, of a text. -/
def specLastSeparator (t : List Char) : Option Char :=
  (t.filter (fun c => c == ',' || c == '.')).getLast?

/-- Spec, European style: all dots removed, the comma replaced by a dot. -/
def specEuropean (t : List Char) : List Char :=
  (t.filter (fun c => c != '.')).map (fun c => if c = ',' then '.' else c)

/-- Spec, US style: all commas removed, the dots kept. -/
def specUS (t : List Char) : List Char :=
  t.filter (fun c => c != ',')

/-- Spec, a comma and no dot: the comma replaced by a dot. -/
def specDecimalComma (t : List Char) : List Char :=
  t.map (fun c => if c = ',' then '.' else c)

/-- The names `strconv.ParseFloat` reads as an infinity or as not-a-number: `inf` and
`infinity`, with or without a sign, and `nan`, in any letter case. -/
def specIsSpecialName (t : List Char) : Bool :=
  let l := t.map strings.lowerASCII
  l == "inf".toList || l == "+inf".toList || l == "-inf".toList || l == "infinity".toList ||
  l == "+infinity".toList || l == "-infinity".toList || l == "nan".toList

/-- The number a string of decimal digits spells. -/
def specDigitsValue (ds : List Char) : Nat :=
  ds.foldl (fun n c => n * 10 + (c.toNat - 48)) 0

/-- The `float64` of the decimal number with integer digits `a` and fraction digits `b`:
the nearest binary64, and whether the number is beyond the `float64` range. -/
def specDecimalValue (a b : List Char) : F64 × Bool :=
  F64.roundRatio false (specDigitsValue (a ++ b)) (10 ^ b.length)

/-- Spec: the page is a blocked one, its lower-cased title contains `just a moment`. -/
def specBlocked (env : Env) (doc : Document) : Bool :=
  strings.Contains (strings.ToLower env.lowerOther doc.title) "just a moment".toList

/-- Spec: the label/value pairs of the page whose trimmed label is `Price Trend`, in
document order. -/
def specTrendLabels (doc : Document) : List (List Char × List Char) :=
  doc.dt.filter (fun s => decide (strings.TrimSpace s.1 = "Price Trend".toList))

/-- Spec: `((trend - baseline) / baseline) * 100`. -/
def specChangePercent (trend baseline : F64) : F64 :=
  F64.mul (F64.div (F64.sub trend baseline) baseline) (F64.lit 100 1)

/-- Spec: the images of the page whose `alt` text contains `Elite Trainer Box`, in
document order. -/
def specBoxImages (doc : Document) : List (List Char × List Char) :=
  doc.img.filter (fun s => strings.Contains s.2 "Elite Trainer Box".toList)

/-! ## Scenarios -/

/-- A product as the catalogue file gives it: a URL and a baseline price text, the other
fields at their zero values. -/
def scenarioProduct (url fromPrice : List Char) : Product :=
  { URL := url, FromPrice := fromPrice, Name := [], ImageURL := [], PriceTrend := [],
    FromPriceVal := F64.zero, PriceTrendVal := F64.zero, ChangePercent := F64.zero }

/-- A product page with the given title, one `Price Trend` entry with the given value text,
and the given images. -/
def scenarioPage (title trend : List Char) (img : List (List Char × List Char)) : Document :=
  { title := title, dt := [("Price Trend".toList, trend)], img := img }

/-- An environment with the given exchange rate in which every URL leads to `doc`. -/
def scenarioEnv (rate : F64) (doc : Document) : Env :=
  { euroToGBP := rate, lowerOther := fun c => c, fetch := fun _ => .page doc }

/-- An environment with the given exchange rate in which each URL listed in `pages` leads
to its page and any other URL fails to load. -/
def scenarioSite (rate : F64) (pages : List (List Char × Document)) : Env :=
  { euroToGBP := rate, lowerOther := fun c => c,
    fetch := fun url => match pages.lookup url with
      | some doc => .page doc
      | none => .fetchError }

/-- A product after enrichment, with the given URL and `ChangePercent`. -/
def scenarioChanged (url : List Char) (change : F64) : Product :=
  { URL := url, FromPrice := [], Name := [], ImageURL := [], PriceTrend := [],
    FromPriceVal := F64.zero, PriceTrendVal := F64.zero, ChangePercent := change }

/-- Thirteen products: twelve with `ChangePercent` 0, then one with `ChangePercent` 5; the
URL of each is its index. -/
def scenarioThirteen : List Product :=
  [scenarioChanged "0".toList F64.zero, scenarioChanged "1".toList F64.zero,
   scenarioChanged "2".toList F64.zero, scenarioChanged "3".toList F64.zero,
   scenarioChanged "4".toList F64.zero, scenarioChanged "5".toList F64.zero,
   scenarioChanged "6".toList F64.zero, scenarioChanged "7".toList F64.zero,
   scenarioChanged "8".toList F64.zero, scenarioChanged "9".toList F64.zero,
   scenarioChanged "10".toList F64.zero, scenarioChanged "11".toList F64.zero,
   scenarioChanged "12".toList (F64.lit 5 1)]

/-! ## Notions the statements about the sort are written with -/

namespace sort

variable {α : Type} [Inhabited α]

/-- The relation `less` is a strict weak order on the elements that satisfy `S`: it is
asymmetric, and "not less" is transitive. -/
structure StrictWeak (less : α → α → Bool) (S : α → Prop) : Prop where
  asymm : ∀ x y, S x → S y → less x y = true → less y x = false
  trans : ∀ x y z, S x → S y → S z → less y x = false → less z y = false → less z x = false

/-- The slice `data'` is `data` with the elements of index in `[a, b)` permuted: same
length, and a permutation of the indices that moves none outside `[a, b)` carries one to the
other. -/
def RangePerm (a b : Nat) (data data' : List α) : Prop :=
  data'.length = data.length ∧
  ∃ σ : Equiv.Perm Nat, (∀ k, ¬ (a ≤ k ∧ k < b) → σ k = k) ∧
    ∀ k, elem data' k = elem data (σ k)

/-- The elements of index in `[a, b)` are in order: none is less than one before it. -/
def SortedOn (less : α → α → Bool) (data : List α) (a b : Nat) : Prop :=
  ∀ i j, a ≤ i → i < j → j < b → less (elem data j) (elem data i) = false

/-- Every element of index below `n` satisfies `S`. -/
def AllIn (S : α → Prop) (data : List α) (n : Nat) : Prop :=
  ∀ k, k < n → S (elem data k)

/-- What `pdqsort_func` relies on at the left end of `data[a:b]`: when `a > 0`, no element
of the range is less than `data[a-1]`. -/
def LeftBound (less : α → α → Bool) (data : List α) (a b : Nat) : Prop :=
  0 < a → ∀ k, a ≤ k → k < b → less (elem data k) (elem data (a - 1)) = false

/-- In the heap laid out in `data[first : first+hi]`, the node `r` is not less than its
children. -/
def HeapNode (less : α → α → Bool) (data : List α) (first hi r : Nat) : Prop :=
  ∀ c, (c = 2 * r + 1 ∨ c = 2 * r + 2) → c < hi →
    less (elem data (first + r)) (elem data (first + c)) = false

end sort

/-! ## Notions the statements about the order of `float64` are written with -/

namespace F64

/-- The rational number a finite value stands for, `0` for the others. -/
def toRat : F64 → ℚ
  | fin s m e => (if s then -1 else 1) * (m : ℚ) * (2 : ℚ) ^ e
  | _ => 0

/-- The rank of a value among the infinities: `-1` for the negative infinity, `1` for the
positive one, `0` for the others. -/
def rank : F64 → Int
  | inf true => -1
  | inf false => 1
  | _ => 0

/-- The place of a value that is a number in the order of `float64`: by rank, then by the
number it stands for. -/
def key (x : F64) : Lex (Int × ℚ) := toLex (rank x, toRat x)

end F64

/-- The `ChangePercent` of a product is a number. -/
def Product.hasNumber (p : Product) : Prop := p.ChangePercent.isNaN = false

instance (p : Product) : Decidable p.hasNumber :=
  inferInstanceAs (Decidable (p.ChangePercent.isNaN = false))

/-- Spec: the products of a list whose `ChangePercent` equals `c`, in the order of the
list. -/
def specTies (c : F64) (products : List Product) : List Product :=
  products.filter (fun p => F64.eq p.ChangePercent c)

end PriceTracker

/-! # Properties -/

namespace PriceTracker

/-! ## Lemmas on the string functions -/

namespace strings

theorem isPrefixOf_single (x c : Char) (cs : List Char) :
    [x].isPrefixOf (c :: cs) = (x == c) := by
  simp [List.isPrefixOf]

theorem replaceFrom_single (x : Char) (new s : List Char) :
    replaceFrom [x] new 0 s = s.flatMap (fun c => if c = x then new else [c]) := by
  induction s with
  | nil => simp [replaceFrom]
  | cons c cs ih =>
    by_cases h : x = c
    · subst h
      simp [replaceFrom, isPrefixOf_single, ih]
    · have h' : ¬ c = x := fun e => h e.symm
      simp [replaceFrom, isPrefixOf_single, ih, h, h']

theorem ReplaceAll_delete (s : List Char) (x : Char) :
    ReplaceAll s [x] [] = s.filter (fun c => c != x) := by
  unfold ReplaceAll
  simp only [List.isEmpty_cons, Bool.false_eq_true, if_false, replaceFrom_single]
  induction s with
  | nil => simp
  | cons c cs ih =>
    by_cases h : c = x
    · simp [h, List.flatMap_cons, ih]
    · simp [h, List.flatMap_cons, ih]

theorem ReplaceAll_subst (s : List Char) (x y : Char) :
    ReplaceAll s [x] [y] = s.map (fun c => if c = x then y else c) := by
  unfold ReplaceAll
  simp only [List.isEmpty_cons, Bool.false_eq_true, if_false, replaceFrom_single]
  induction s with
  | nil => simp
  | cons c cs ih =>
    by_cases h : c = x
    · simp [h, List.flatMap_cons, ih]
    · simp [h, List.flatMap_cons, ih]

theorem Contains_single (s : List Char) (x : Char) : Contains s [x] = true ↔ x ∈ s := by
  induction s with
  | nil => simp [Contains]
  | cons c cs ih => simp [Contains, isPrefixOf_single, ih]

theorem Count_single (s : List Char) (x : Char) : Count s [x] = s.count x := by
  unfold Count
  simp only [List.isEmpty_cons, Bool.false_eq_true, if_false]
  induction s with
  | nil => simp [countFrom]
  | cons c cs ih =>
    by_cases h : x = c
    · subst h
      simp [countFrom, isPrefixOf_single, ih, Nat.add_comm]
    · have h' : ¬ c = x := fun e => h e.symm
      simp [countFrom, isPrefixOf_single, ih, h, List.count_cons, h']

theorem LastIndex_cons (c x : Char) (cs : List Char) :
    LastIndex (c :: cs) [x] =
      if 0 ≤ LastIndex cs [x] then LastIndex cs [x] + 1 else if x = c then 0 else -1 := by
  simp [LastIndex, isPrefixOf_single]

theorem LastIndex_ge (s : List Char) (x : Char) : -1 ≤ LastIndex s [x] := by
  induction s with
  | nil => simp [LastIndex]
  | cons c cs ih =>
    rw [LastIndex_cons]
    split_ifs <;> omega

theorem LastIndex_nonneg_iff (s : List Char) (x : Char) : 0 ≤ LastIndex s [x] ↔ x ∈ s := by
  induction s with
  | nil => simp [LastIndex]
  | cons c cs ih =>
    rw [LastIndex_cons]
    by_cases h : 0 ≤ LastIndex cs [x]
    · have := ih.1 h
      simp [h, this]
      omega
    · have hn : x ∉ cs := fun hm => h (ih.2 hm)
      by_cases hx : x = c
      · subst hx
        simp [h]
      · simp [h, hx, hn]

/-- The last occurrence of `x` splits the text, and `LastIndex` is where. -/
theorem LastIndex_split (s : List Char) (x : Char) (h : x ∈ s) :
    ∃ pre post, s = pre ++ x :: post ∧ x ∉ post ∧ LastIndex s [x] = (pre.length : Int) := by
  induction s with
  | nil => simp at h
  | cons c cs ih =>
    rw [LastIndex_cons]
    by_cases hm : x ∈ cs
    · obtain ⟨pre, post, hs, hp, hl⟩ := ih hm
      refine ⟨c :: pre, post, by simp [hs], hp, ?_⟩
      have : 0 ≤ LastIndex cs [x] := (LastIndex_nonneg_iff cs x).2 hm
      simp [this, hl]
    · have hx : x = c := by
        rcases List.mem_cons.1 h with h | h
        · exact h
        · exact absurd h hm
      subst hx
      have : ¬ 0 ≤ LastIndex cs [x] := fun h0 => hm ((LastIndex_nonneg_iff cs x).1 h0)
      refine ⟨[], cs, by simp, hm, ?_⟩
      simp [this]

end strings

open strings

/-! ## `parsePrice`: the text that is parsed -/

theorem specLastSeparator_cons (c : Char) (cs : List Char) :
    specLastSeparator (c :: cs) =
      if ',' ∈ cs ∨ '.' ∈ cs then specLastSeparator cs
      else if c = ',' ∨ c = '.' then some c else none := by
  unfold specLastSeparator
  by_cases h : ',' ∈ cs ∨ '.' ∈ cs
  · have hne : cs.filter (fun c => c == ',' || c == '.') ≠ [] := by
      intro he
      rcases h with h | h
      · have : ',' ∈ cs.filter (fun c => c == ',' || c == '.') := by simp [List.mem_filter, h]
        simp [he] at this
      · have : '.' ∈ cs.filter (fun c => c == ',' || c == '.') := by simp [List.mem_filter, h]
        simp [he] at this
    rw [if_pos h, List.filter_cons]
    split_ifs
    · obtain ⟨b, l, hl⟩ := List.exists_cons_of_ne_nil hne
      rw [hl, List.getLast?_cons_cons]
    · rfl
  · have he : cs.filter (fun c => c == ',' || c == '.') = [] := by
      rw [List.filter_eq_nil_iff]
      intro a ha
      push_neg at h
      have h1 : a ≠ ',' := fun e => h.1 (e ▸ ha)
      have h2 : a ≠ '.' := fun e => h.2 (e ▸ ha)
      simp [h1, h2]
    rw [if_neg h, List.filter_cons, he]
    by_cases hc : c = ',' ∨ c = '.'
    · have : (c == ',' || c == '.') = true := by simpa using hc
      simp [this, hc]
    · have : ¬ (c == ',' || c == '.') = true := by simpa using hc
      simp [this, hc]

theorem comma_after_dot_iff (s : List Char) :
    LastIndex s ['.'] < LastIndex s [','] ↔ specLastSeparator s = some ',' := by
  induction s with
  | nil => simp [LastIndex, specLastSeparator]
  | cons c cs ih =>
    rw [LastIndex_cons, LastIndex_cons, specLastSeparator_cons]
    have hc := LastIndex_nonneg_iff cs ','
    have hd := LastIndex_nonneg_iff cs '.'
    have gc := LastIndex_ge cs ','
    have gd := LastIndex_ge cs '.'
    by_cases h1 : ',' ∈ cs <;> by_cases h2 : '.' ∈ cs
    · have a1 := hc.2 h1
      have a2 := hd.2 h2
      simp only [a1, a2, h1, h2, if_true, true_or, ← ih]
      omega
    · have a1 := hc.2 h1
      have a2 : ¬ 0 ≤ LastIndex cs ['.'] := fun h => h2 (hd.1 h)
      simp only [a1, a2, h1, h2, if_true, if_false, true_or, ← ih]
      constructor
      · intro _; omega
      · intro _; split_ifs <;> omega
    · have a1 : ¬ 0 ≤ LastIndex cs [','] := fun h => h1 (hc.1 h)
      have a2 := hd.2 h2
      simp only [a1, a2, h1, h2, if_true, if_false, or_true, ← ih]
      constructor
      · intro h; split_ifs at h <;> omega
      · intro h; omega
    · have a1 : ¬ 0 ≤ LastIndex cs [','] := fun h => h1 (hc.1 h)
      have a2 : ¬ 0 ≤ LastIndex cs ['.'] := fun h => h2 (hd.1 h)
      simp only [a1, a2, h1, h2, if_false, or_self]
      by_cases e1 : c = ','
      · subst e1; simp
      · by_cases e2 : c = '.'
        · subst e2; simp
        · have e1' : ¬ ',' = c := fun e => e1 e.symm
          have e2' : ¬ '.' = c := fun e => e2 e.symm
          simp [e1, e2, e1', e2']

theorem stripped_eq (raw : List Char) :
    strings.TrimSpace (ReplaceAll (ReplaceAll raw "€".toList []) "£".toList []) =
      specStripped raw := by
  have e1 : "€".toList = ['€'] := rfl
  have e2 : "£".toList = ['£'] := rfl
  rw [e1, e2, ReplaceAll_delete, ReplaceAll_delete]
  rfl

/-- The branches of `parsePriceText`, on the stripped text. -/
theorem parsePriceText_eq (raw : List Char) :
    parsePriceText raw =
      if ',' ∈ specStripped raw ∧ '.' ∈ specStripped raw then
        (if LastIndex (specStripped raw) ['.'] < LastIndex (specStripped raw) [','] then
          some (specEuropean (specStripped raw)) else some (specUS (specStripped raw)))
      else if ',' ∈ specStripped raw then some (specDecimalComma (specStripped raw))
      else if 1 < (specStripped raw).count '.' then
        match sliceTo (specStripped raw) (LastIndex (specStripped raw) ['.']),
          sliceFrom (specStripped raw) (LastIndex (specStripped raw) ['.']) with
        | some before, some after => some (before.filter (fun c => c != '.') ++ after)
        | _, _ => none
      else some (specStripped raw) := by
  have e1 : ",".toList = [','] := rfl
  have e2 : ".".toList = ['.'] := rfl
  unfold parsePriceText
  simp only [stripped_eq, e1, e2]
  generalize specStripped raw = t
  by_cases hc : ',' ∈ t <;> by_cases hd : '.' ∈ t
  · have c1 := (Contains_single t ',').2 hc
    have c2 := (Contains_single t '.').2 hd
    simp only [c1, c2, hc, hd, Bool.and_self, if_true, and_self, gt_iff_lt, ReplaceAll_delete,
      ReplaceAll_subst]
    rfl
  · have c1 := (Contains_single t ',').2 hc
    have c2 : ¬ Contains t ['.'] = true := fun h => hd ((Contains_single t '.').1 h)
    simp only [c1, c2, hc, hd, Bool.and_false, Bool.false_eq_true, if_false, if_true, and_false,
      ReplaceAll_subst]
    simp [specDecimalComma]
  · have c1 : ¬ Contains t [','] = true := fun h => hc ((Contains_single t ',').1 h)
    have c2 := (Contains_single t '.').2 hd
    simp only [c1, c2, hc, hd, if_false, false_and, Count_single, gt_iff_lt]
    simp only [Bool.not_eq_true] at c1
    simp only [c1, Bool.false_and, Bool.false_eq_true, if_false]
    split_ifs
    · cases sliceTo t (LastIndex t ['.']) <;> cases sliceFrom t (LastIndex t ['.']) <;>
        simp [ReplaceAll_delete]
    · rfl
  · have c1 : ¬ Contains t [','] = true := fun h => hc ((Contains_single t ',').1 h)
    have c2 : ¬ Contains t ['.'] = true := fun h => hd ((Contains_single t '.').1 h)
    simp only [Bool.not_eq_true] at c1 c2
    have h0 : t.count '.' = 0 := List.count_eq_zero_of_not_mem hd
    simp [c1, c2, hc, hd, Count_single, h0]

theorem sliceTo_length (pre post : List Char) :
    sliceTo (pre ++ post) (pre.length : Int) = some pre := by
  simp [sliceTo]

theorem sliceFrom_length (pre post : List Char) :
    sliceFrom (pre ++ post) (pre.length : Int) = some post := by
  simp [sliceFrom]

/-- With more than one dot and no comma, the text splits at its last dot. -/
theorem parsePriceText_dots (raw : List Char) (hc : ',' ∉ specStripped raw)
    (hd : 1 < (specStripped raw).count '.') :
    ∃ pre post, specStripped raw = pre ++ '.' :: post ∧ '.' ∉ post ∧
      parsePriceText raw = some (pre.filter (fun c => c != '.') ++ '.' :: post) := by
  have hm : '.' ∈ specStripped raw := List.count_pos_iff.1 (by omega)
  obtain ⟨pre, post, hs, hp, hl⟩ := LastIndex_split _ _ hm
  refine ⟨pre, post, hs, hp, ?_⟩
  rw [parsePriceText_eq, if_neg (fun h => hc h.1), if_neg hc, if_pos hd, hl]
  rw [hs, sliceTo_length, sliceFrom_length]

/-- The slices `parsePrice` takes are in bounds: the text to parse is always there. -/
theorem parsePriceText_isSome (raw : List Char) : ∃ text, parsePriceText raw = some text := by
  by_cases hc : ',' ∈ specStripped raw
  · rw [parsePriceText_eq]
    by_cases hd : '.' ∈ specStripped raw
    · rw [if_pos ⟨hc, hd⟩]
      split_ifs <;> exact ⟨_, rfl⟩
    · rw [if_neg (fun h => hd h.2), if_pos hc]
      exact ⟨_, rfl⟩
  · by_cases hd : 1 < (specStripped raw).count '.'
    · obtain ⟨pre, post, -, -, h⟩ := parsePriceText_dots raw hc hd
      exact ⟨_, h⟩
    · rw [parsePriceText_eq, if_neg (fun h => hc h.1), if_neg hc, if_neg hd]
      exact ⟨_, rfl⟩

/-! ## `strconv.ParseFloat`: what it rejects -/

namespace strconv

theorem scanMantissa_sawdigits (s : List Char) (st : Mantissa)
    (h : ∀ c ∈ s, isDigit c = false) :
    (scanMantissa false st s).1.sawdigits = st.sawdigits := by
  induction s generalizing st with
  | nil => simp [scanMantissa]
  | cons c cs ih =>
    have hc : isDigit c = false := h c (List.mem_cons_self _ _)
    have hcs : ∀ d ∈ cs, isDigit d = false := fun d hd => h d (List.mem_cons_of_mem _ hd)
    rw [scanMantissa]
    simp only [hc, Bool.false_eq_true, if_false, false_and]
    split_ifs
    · rw [ih _ hcs]
    · rfl
    · rw [ih _ hcs]
    · rfl

/-- A text without a decimal digit is not read as a number. -/
theorem readFloat_no_digit (s : List Char) (h : ∀ c ∈ s, isDigit c = false) :
    readFloat s = none := by
  cases s with
  | nil => rfl
  | cons c cs =>
    have hsub : ∀ d ∈ (if c = '+' ∨ c = '-' then cs else c :: cs), isDigit d = false := by
      intro d hd
      split_ifs at hd
      · exact h d (List.mem_cons_of_mem _ hd)
      · exact h d hd
    have hhex : (match (if c = '+' ∨ c = '-' then cs else c :: cs) with
        | z :: x :: _ :: _ => decide (z = '0') && lowerIs x 'x'
        | _ => false) = false := by
      split
      · rename_i z x y r heq
        have hz : isDigit z = false := hsub z (by rw [heq]; exact List.mem_cons_self _ _)
        have : z ≠ '0' := by
          intro e
          rw [e] at hz
          revert hz
          decide
        simp [this]
      · rfl
    simp only [readFloat, hhex, Bool.false_eq_true, if_false]
    rw [scanMantissa_sawdigits _ _ hsub]
    rfl

theorem commonPrefixLen_le (s p : List Char) : commonPrefixLenIgnoreCase s p ≤ s.length := by
  induction s generalizing p with
  | nil => simp [commonPrefixLenIgnoreCase]
  | cons c cs ih =>
    cases p with
    | nil => simp [commonPrefixLenIgnoreCase]
    | cons q ps =>
      simp only [commonPrefixLenIgnoreCase, List.length_cons]
      split_ifs
      · have := ih ps
        omega
      · omega

theorem commonPrefixLen_full (s p : List Char)
    (h : commonPrefixLenIgnoreCase s p = s.length) :
    s.map strings.lowerASCII = p.take s.length := by
  induction s generalizing p with
  | nil => simp
  | cons c cs ih =>
    cases p with
    | nil => simp [commonPrefixLenIgnoreCase] at h
    | cons q ps =>
      simp only [commonPrefixLenIgnoreCase, List.length_cons] at h
      split_ifs at h with hq
      have h' : commonPrefixLenIgnoreCase cs ps = cs.length := by omega
      simp [hq, ih ps h']

theorem specialInf_whole (neg : Bool) (nsign : Nat) (t : List Char) (w : F64)
    (ht : specialInf neg nsign t = some (w, nsign + t.length)) :
    t.map strings.lowerASCII = "inf".toList ∨
      t.map strings.lowerASCII = "infinity".toList := by
  unfold specialInf at ht
  simp only at ht
  have hle := commonPrefixLen_le t "infinity".toList
  split_ifs at ht with h1 h2 h2
  · simp only [Option.some.injEq, Prod.mk.injEq] at ht
    omega
  · simp only [Option.some.injEq, Prod.mk.injEq] at ht
    have hl : commonPrefixLenIgnoreCase t "infinity".toList = t.length := by omega
    have := commonPrefixLen_full t _ hl
    rcases h2 with h2 | h2
    · left
      rw [this, ← hl, h2]
      rfl
    · right
      rw [this, ← hl, h2]
      rfl

/-- What `special` reads whole is one of the special names. -/
theorem special_whole (s : List Char) (v : F64) (h : special s = some (v, s.length)) :
    specIsSpecialName s = true := by
  cases s with
  | nil => simp [special] at h
  | cons c cs =>
    simp only [special] at h
    split_ifs at h with h1 h2 h3 h4 h5
    · have := specialInf_whole false 1 cs v (by rw [h, List.length_cons, Nat.add_comm])
      subst h1
      rcases this with e | e
      · simp only [specIsSpecialName, List.map_cons, e]; decide
      · simp only [specIsSpecialName, List.map_cons, e]; decide
    · have := specialInf_whole true 1 cs v (by rw [h, List.length_cons, Nat.add_comm])
      subst h2
      rcases this with e | e
      · simp only [specIsSpecialName, List.map_cons, e]; decide
      · simp only [specIsSpecialName, List.map_cons, e]; decide
    · have := specialInf_whole false 0 (c :: cs) v (by rw [h, Nat.zero_add])
      rcases this with e | e
      · simp only [specIsSpecialName, e]; decide
      · simp only [specIsSpecialName, e]; decide
    · simp only [Option.some.injEq, Prod.mk.injEq] at h
      have hl : commonPrefixLenIgnoreCase (c :: cs) "nan".toList = (c :: cs).length := by
        rw [h5]; exact h.2
      have := commonPrefixLen_full (c :: cs) _ hl
      have e : (c :: cs).map strings.lowerASCII = "nan".toList := by
        rw [this, ← h.2]; rfl
      simp only [specIsSpecialName, e]; decide

/-- `ParseFloat` rejects a text without a decimal digit that is not a special name. -/
theorem ParseFloat_no_digit (s : List Char) (h : ∀ c ∈ s, isDigit c = false)
    (hs : specIsSpecialName s = false) : ParseFloat s = .error .ErrSyntax := by
  unfold ParseFloat
  rw [readFloat_no_digit s h]
  cases hsp : special s with
  | none => rfl
  | some r =>
    obtain ⟨v, n⟩ := r
    by_cases hn : n = s.length
    · subst hn
      rw [special_whole s v hsp] at hs
      cases hs
    · simp [hn]

end strconv

/-! ## `strconv.ParseFloat`: decimal numbers -/

namespace strconv

theorem isDigit_ne (c x : Char) (hc : isDigit c = true) (hx : isDigit x = false) : c ≠ x := by
  intro e
  rw [e, hx] at hc
  cases hc

/-- The mantissa loop over a run of digits. -/
theorem scanMantissa_digits (ds rest : List Char) (st : Mantissa)
    (hd : ∀ c ∈ ds, isDigit c = true) (hinv : st.nd = 0 → st.mantissa = 0) :
    ∃ st' : Mantissa, scanMantissa false st (ds ++ rest) = scanMantissa false st' rest ∧
      st'.sawdot = st.sawdot ∧ st'.underscores = st.underscores ∧
      st'.sawdigits = (st.sawdigits || !ds.isEmpty) ∧
      st'.mantissa = ds.foldl (fun n c => n * 10 + (c.toNat - 48)) st.mantissa ∧
      st'.dp - st'.nd = st.dp - st.nd - ds.length ∧
      (st'.nd = 0 → st'.mantissa = 0) := by
  induction ds generalizing st with
  | nil => exact ⟨st, by simp, rfl, rfl, by simp, by simp, by simp, hinv⟩
  | cons c cs ih =>
    have hc : isDigit c = true := hd c (List.mem_cons_self _ _)
    have hcs : ∀ d ∈ cs, isDigit d = true := fun d h => hd d (List.mem_cons_of_mem _ h)
    have n1 : c ≠ '_' := isDigit_ne c '_' hc (by decide)
    have n2 : c ≠ '.' := isDigit_ne c '.' hc (by decide)
    rw [List.cons_append, scanMantissa]
    simp only [n1, n2, hc, if_true, if_false, Bool.false_eq_true, false_and]
    by_cases hz : c = '0' ∧ st.nd = 0
    · rw [if_pos hz]
      obtain ⟨st', h1, h2, h3, h4, h5, h6, h7⟩ :=
        ih { st with sawdigits := true, dp := st.dp - 1 } hcs hinv
      refine ⟨st', h1, h2, h3, ?_, ?_, ?_, h7⟩
      · simp [h4]
      · rw [h5]
        have : st.mantissa = 0 := hinv hz.2
        simp [List.foldl_cons, this, hz.1]
      · rw [h6]
        simp only [List.length_cons]
        push_cast
        omega
    · rw [if_neg hz]
      have hinv' : st.nd + 1 = 0 → st.mantissa * 10 + (c.toNat - 48) = 0 := by omega
      obtain ⟨st', h1, h2, h3, h4, h5, h6, h7⟩ :=
        ih ⟨st.sawdot, true, st.underscores, st.nd + 1, st.dp,
          st.mantissa * 10 + (c.toNat - 48)⟩ hcs hinv'
      refine ⟨st', h1, h2, h3, ?_, ?_, ?_, h7⟩
      · simp [h4]
      · rw [h5]
        simp [List.foldl_cons]
      · rw [h6]
        simp only [List.length_cons]
        push_cast
        omega

/-- `readFloat` on a text the mantissa loop reads whole, with a point and digits, no sign, no
base prefix and no underscore. -/
theorem readFloat_of_scan (c : Char) (cs : List Char) (st : Mantissa)
    (hc1 : c ≠ '+') (hc2 : c ≠ '-')
    (hhex : ∀ x ∈ cs.head?, lowerIs x 'x' = false)
    (hscan : scanMantissa false {} (c :: cs) = (st, []))
    (hdig : st.sawdigits = true) (hdot : st.sawdot = true) (hus : st.underscores = false) :
    readFloat (c :: cs) =
      some ⟨false, false, st.mantissa, if st.mantissa ≠ 0 then st.dp - st.nd else 0, []⟩ := by
  have h1 : (if c = '+' ∨ c = '-' then cs else c :: cs) = c :: cs := by simp [hc1, hc2]
  have h2 : (match c :: cs with
      | z :: x :: _ :: _ => decide (z = '0') && lowerIs x 'x'
      | _ => false) = false := by
    cases cs with
    | nil => rfl
    | cons x r =>
      cases r with
      | nil => rfl
      | cons y r => simp [hhex x (by simp)]
  simp only [readFloat, h1, h2, Bool.false_eq_true, if_false, hscan, hdig, hdot, hus,
    Bool.not_true, if_true, Bool.false_and]
  simp [hc2]

theorem lowerIs_x_false (c : Char) (h1 : c ≠ 'x') (h2 : c ≠ 'X') : lowerIs c 'x' = false := by
  unfold lowerIs
  have h3 : ¬ c.toNat = 88 := by
    intro h
    apply h2
    rw [← Char.ofNat_toNat c, h]
  simp [h1, h3]

/-- The mantissa loop on digits, a point, digits. -/
theorem scanMantissa_decimal (a b : List Char) (ha : ∀ c ∈ a, isDigit c = true)
    (hb : ∀ c ∈ b, isDigit c = true) :
    ∃ st : Mantissa, scanMantissa false {} (a ++ '.' :: b) = (st, []) ∧
      st.sawdot = true ∧ st.underscores = false ∧
      st.sawdigits = (!a.isEmpty || !b.isEmpty) ∧
      st.mantissa = specDigitsValue (a ++ b) ∧ st.dp - st.nd = -(b.length : Int) := by
  obtain ⟨st1, e1, d1, u1, g1, m1, p1, i1⟩ :=
    scanMantissa_digits a ('.' :: b) {} ha (fun _ => rfl)
  have hd1 : st1.sawdot = false := d1
  have e2 : scanMantissa false st1 ('.' :: b) =
      scanMantissa false ⟨true, st1.sawdigits, st1.underscores, st1.nd, st1.nd, st1.mantissa⟩
        (b ++ []) := by
    rw [scanMantissa]
    simp [hd1]
  obtain ⟨st3, e3, d3, u3, g3, m3, p3, i3⟩ :=
    scanMantissa_digits b []
      ⟨true, st1.sawdigits, st1.underscores, st1.nd, st1.nd, st1.mantissa⟩ hb i1
  refine ⟨st3, ?_, d3, ?_, ?_, ?_, ?_⟩
  · rw [e1, e2, e3]
    simp [scanMantissa]
  · rw [u3]
    exact u1
  · rw [g3]
    simp only
    rw [g1]
    rfl
  · rw [m3]
    simp only
    rw [m1, specDigitsValue, List.foldl_append]
  · rw [p3]
    simp

/-- `ParseFloat` on digits, a point, digits: the nearest `float64` of the decimal number, a
range error beyond the `float64` range. -/
theorem ParseFloat_decimal (a b : List Char) (ha : ∀ c ∈ a, isDigit c = true)
    (hb : ∀ c ∈ b, isDigit c = true) (hne : a ≠ [] ∨ b ≠ []) :
    ParseFloat (a ++ '.' :: b) =
      if (specDecimalValue a b).2 then .error .ErrRange else .ok (specDecimalValue a b).1 := by
  obtain ⟨st, hscan, hdot, hus, hdig, hm, hp⟩ := scanMantissa_decimal a b ha hb
  have hdig' : st.sawdigits = true := by
    rw [hdig]
    rcases hne with h | h
    · cases a with
      | nil => exact absurd rfl h
      | cons _ _ => rfl
    · cases b with
      | nil => exact absurd rfl h
      | cons _ _ => simp
  have hplain : ∀ c ∈ a ++ '.' :: b, isDigit c = true ∨ c = '.' := by
    intro c hc
    rcases List.mem_append.1 hc with h | h
    · exact Or.inl (ha c h)
    · rcases List.mem_cons.1 h with h | h
      · exact Or.inr h
      · exact Or.inl (hb c h)
  have hno : ∀ c ∈ a ++ '.' :: b, ∀ x : Char, isDigit x = false → x ≠ '.' → c ≠ x := by
    intro c hc x hx hx'
    rcases hplain c hc with h | h
    · exact isDigit_ne c x h hx
    · rw [h]
      exact fun e => hx' e.symm
  obtain ⟨c, cs, hs⟩ : ∃ c cs, a ++ '.' :: b = c :: cs := by
    cases a with
    | nil => exact ⟨_, _, rfl⟩
    | cons c a' => exact ⟨_, _, rfl⟩
  rw [hs] at hscan hno
  have hc := hno c (List.mem_cons_self _ _)
  have hread := readFloat_of_scan c cs st (hc '+' (by decide) (by decide))
    (hc '-' (by decide) (by decide))
    (by
      intro x hx
      have hx' : x ∈ c :: cs := by
        cases cs with
        | nil => simp at hx
        | cons y r =>
          simp only [List.head?_cons, Option.mem_def, Option.some.injEq] at hx
          simp [hx]
      exact lowerIs_x_false x (hno x hx' 'x' (by decide) (by decide))
        (hno x hx' 'X' (by decide) (by decide)))
    hscan hdig' hdot hus
  have hspecial : special (c :: cs) = none := by
    simp [special, hc '+' (by decide) (by decide), hc '-' (by decide) (by decide),
      hc 'i' (by decide) (by decide), hc 'I' (by decide) (by decide),
      hc 'n' (by decide) (by decide), hc 'N' (by decide) (by decide)]
  rw [hs]
  unfold ParseFloat
  rw [hspecial, hread]
  simp only [ne_eq, not_true_eq_false, if_false, Bool.false_eq_true]
  have hv : F64.roundRatio false
      (st.mantissa * 10 ^ (if st.mantissa ≠ 0 then st.dp - st.nd else 0).toNat)
      (10 ^ (-(if st.mantissa ≠ 0 then st.dp - st.nd else 0)).toNat) =
      specDecimalValue a b := by
    unfold specDecimalValue
    rw [← hm]
    by_cases h0 : st.mantissa = 0
    · simp [h0, F64.roundRatio]
    · simp [h0, hp]
  rw [hv]

end strconv

theorem isDigit_toNat (c : Char) (h : strconv.isDigit c = true) :
    48 ≤ c.toNat ∧ c.toNat ≤ 57 := by
  unfold strconv.isDigit at h
  simp only [decide_eq_true_eq] at h
  obtain ⟨h1, h2⟩ := h
  have a1 : '0'.toNat ≤ c.toNat := h1
  have a2 : c.toNat ≤ '9'.toNat := h2
  exact ⟨a1, a2⟩

theorem isSpace_digit (c : Char) (h : strconv.isDigit c = true) : isSpace c = false := by
  obtain ⟨h1, h2⟩ := isDigit_toNat c h
  unfold isSpace
  simp only [Bool.or_eq_false_iff, Bool.and_eq_false_iff, decide_eq_false_iff_not,
    beq_eq_false_iff_ne, ne_eq]
  omega

theorem TrimSpace_id (s : List Char) (h : ∀ c ∈ s, isSpace c = false) : TrimSpace s = s := by
  unfold TrimSpace
  have h1 : s.dropWhile isSpace = s := by
    cases s with
    | nil => rfl
    | cons c cs => simp [List.dropWhile, h c (List.mem_cons_self _ _)]
  rw [h1, List.rdropWhile_eq_self_iff]
  intro hne
  simp [h _ (List.getLast_mem hne)]

/-- Digits around one separator are left as they are by the stripping. -/
theorem specStripped_digits (a b : List Char) (x : Char) (hx : x = ',' ∨ x = '.')
    (ha : ∀ c ∈ a, strconv.isDigit c = true) (hb : ∀ c ∈ b, strconv.isDigit c = true) :
    specStripped (a ++ x :: b) = a ++ x :: b := by
  have hall : ∀ c ∈ a ++ x :: b, strconv.isDigit c = true ∨ c = x := by
    intro c hc
    rcases List.mem_append.1 hc with h | h
    · exact Or.inl (ha c h)
    · rcases List.mem_cons.1 h with h | h
      · exact Or.inr h
      · exact Or.inl (hb c h)
  have hx1 : x ≠ '€' := by rcases hx with h | h <;> rw [h] <;> decide
  have hx2 : x ≠ '£' := by rcases hx with h | h <;> rw [h] <;> decide
  have hx3 : isSpace x = false := by rcases hx with h | h <;> rw [h] <;> decide
  unfold specStripped
  have f1 : (a ++ x :: b).filter (fun c => c != '€') = a ++ x :: b := by
    rw [List.filter_eq_self]
    intro c hc
    rcases hall c hc with h | h
    · simpa using strconv.isDigit_ne c '€' h (by decide)
    · simpa [h] using hx1
  have f2 : (a ++ x :: b).filter (fun c => c != '£') = a ++ x :: b := by
    rw [List.filter_eq_self]
    intro c hc
    rcases hall c hc with h | h
    · simpa using strconv.isDigit_ne c '£' h (by decide)
    · simpa [h] using hx2
  rw [f1, f2]
  apply TrimSpace_id
  intro c hc
  rcases hall c hc with h | h
  · exact isSpace_digit c h
  · rw [h]; exact hx3

/-! ## Claims on `parsePrice` -/

/-- C1: when the stripped text holds both a comma and a dot, `parsePrice` goes by the last
separator.  If it is a comma the text parsed is the stripped text with all dots removed and
the commas turned into dots (European style), otherwise the stripped text with all commas
removed (US style); the value returned is what the parse step makes of that text.  The
three examples of the specification evaluate to 1046.5, which is `2093 * 2^-1`. -/
theorem C1_parsePrice_last_separator :
    (∀ raw : List Char, ',' ∈ specStripped raw → '.' ∈ specStripped raw →
      parsePriceText raw =
        some (if specLastSeparator (specStripped raw) = some ','
          then specEuropean (specStripped raw) else specUS (specStripped raw)) ∧
      parsePrice raw =
        some (parseOrZero (if specLastSeparator (specStripped raw) = some ','
          then specEuropean (specStripped raw) else specUS (specStripped raw)))) ∧
    parsePriceText "1.046,50".toList = some "1046.50".toList ∧
    parsePriceText "1,046.50".toList = some "1046.50".toList ∧
    parsePriceText " €1,046.50 ".toList = some "1046.50".toList ∧
    parsePrice "1.046,50".toList = some (F64.fin false 2093 (-1)) ∧
    parsePrice "1,046.50".toList = some (F64.fin false 2093 (-1)) ∧
    parsePrice " €1,046.50 ".toList = some (F64.fin false 2093 (-1)) := by
  refine ⟨?_, by decide, by decide, by decide, by decide, by decide, by decide⟩
  intro raw hc hd
  have h : parsePriceText raw =
      some (if specLastSeparator (specStripped raw) = some ','
        then specEuropean (specStripped raw) else specUS (specStripped raw)) := by
    rw [parsePriceText_eq, if_pos ⟨hc, hd⟩]
    by_cases hl : specLastSeparator (specStripped raw) = some ','
    · rw [if_pos ((comma_after_dot_iff _).2 hl), if_pos hl]
    · rw [if_neg (fun h => hl ((comma_after_dot_iff _).1 h)), if_neg hl]
  exact ⟨h, by rw [parsePrice, h]; rfl⟩

/-- C1 at the raw text `1.046,50`: comma and dot are there, the last separator is the
comma. -/
theorem C1_parsePrice_last_separator_witness :
    (',' ∈ specStripped "1.046,50".toList ∧ '.' ∈ specStripped "1.046,50".toList) ∧
    parsePriceText "1.046,50".toList =
      some (if specLastSeparator (specStripped "1.046,50".toList) = some ','
        then specEuropean (specStripped "1.046,50".toList)
        else specUS (specStripped "1.046,50".toList)) :=
  ⟨by decide, (C1_parsePrice_last_separator.1 "1.046,50".toList (by decide) (by decide)).1⟩

/-- C2: when the stripped text holds a comma and no dot, the text parsed is the stripped
text with the commas turned into dots, and the value returned is what the parse step makes
of it.  For digit strings `a` and `b` the input `a,b` therefore gives what `a.b` gives: the
`float64` nearest to the decimal number `a.b` (and `0.0` past the `float64` range, where
`strconv.ParseFloat` reports a range error).  `445,62` gives the `float64` of 445.62. -/
theorem C2_parsePrice_decimal_comma :
    (∀ raw : List Char, ',' ∈ specStripped raw → '.' ∉ specStripped raw →
      parsePriceText raw = some (specDecimalComma (specStripped raw)) ∧
      parsePrice raw = some (parseOrZero (specDecimalComma (specStripped raw)))) ∧
    (∀ a b : List Char, (∀ c ∈ a, strconv.isDigit c = true) →
      (∀ c ∈ b, strconv.isDigit c = true) →
      parsePriceText (a ++ ',' :: b) = some (a ++ '.' :: b) ∧
      parsePrice (a ++ ',' :: b) = parsePrice (a ++ '.' :: b) ∧
      parsePrice (a ++ ',' :: b) =
        some (if (specDecimalValue a b).2 then F64.zero else (specDecimalValue a b).1)) ∧
    parsePriceText "445,62".toList = some "445.62".toList ∧
    parsePrice "445,62".toList = some (F64.lit 44562 100) := by
  have key : ∀ raw : List Char, ',' ∈ specStripped raw → '.' ∉ specStripped raw →
      parsePriceText raw = some (specDecimalComma (specStripped raw)) := by
    intro raw hc hd
    rw [parsePriceText_eq, if_neg (fun h => hd h.2), if_pos hc]
  refine ⟨fun raw hc hd => ⟨key raw hc hd, by rw [parsePrice, key raw hc hd]; rfl⟩, ?_,
    by decide, by decide⟩
  intro a b ha hb
  have hmap : ∀ l : List Char, (∀ c ∈ l, strconv.isDigit c = true) →
      l.map (fun c => if c = ',' then '.' else c) = l := by
    intro l hl
    induction l with
    | nil => rfl
    | cons c cs ih =>
      have hc : c ≠ ',' := strconv.isDigit_ne c ',' (hl c (List.mem_cons_self _ _)) (by decide)
      rw [List.map_cons, ih (fun d hd => hl d (List.mem_cons_of_mem _ hd)), if_neg hc]
  have hnd : ∀ l : List Char, (∀ c ∈ l, strconv.isDigit c = true) → ∀ x : Char,
      strconv.isDigit x = false → x ∉ l := by
    intro l hl x hx hm
    exact strconv.isDigit_ne x x (hl x hm) hx rfl
  have t1 : parsePriceText (a ++ ',' :: b) = some (a ++ '.' :: b) := by
    have hs := specStripped_digits a b ',' (Or.inl rfl) ha hb
    have hc : ',' ∈ specStripped (a ++ ',' :: b) := by rw [hs]; simp
    have hd : '.' ∉ specStripped (a ++ ',' :: b) := by
      rw [hs]
      simp only [List.mem_append, List.mem_cons, not_or]
      exact ⟨hnd a ha '.' (by decide), by decide, hnd b hb '.' (by decide)⟩
    rw [key _ hc hd, hs, specDecimalComma, List.map_append, List.map_cons, hmap a ha,
      hmap b hb]
    rfl
  have t2 : parsePriceText (a ++ '.' :: b) = some (a ++ '.' :: b) := by
    have hs := specStripped_digits a b '.' (Or.inr rfl) ha hb
    have hc : ',' ∉ specStripped (a ++ '.' :: b) := by
      rw [hs]
      simp only [List.mem_append, List.mem_cons, not_or]
      exact ⟨hnd a ha ',' (by decide), by decide, hnd b hb ',' (by decide)⟩
    have hd : ¬ 1 < (specStripped (a ++ '.' :: b)).count '.' := by
      rw [hs, List.count_append, List.count_cons_self,
        List.count_eq_zero_of_not_mem (hnd a ha '.' (by decide)),
        List.count_eq_zero_of_not_mem (hnd b hb '.' (by decide))]
      omega
    rw [parsePriceText_eq, if_neg (fun h => hc h.1), if_neg hc, if_neg hd, hs]
  have t3 : parseOrZero (a ++ '.' :: b) =
      if (specDecimalValue a b).2 then F64.zero else (specDecimalValue a b).1 := by
    by_cases hne : a ≠ [] ∨ b ≠ []
    · unfold parseOrZero
      rw [strconv.ParseFloat_decimal a b ha hb hne]
      split_ifs <;> rfl
    · have ha' : a = [] := by
        by_contra h
        exact hne (Or.inl h)
      have hb' : b = [] := by
        by_contra h
        exact hne (Or.inr h)
      subst ha'
      subst hb'
      decide
  refine ⟨t1, ?_, ?_⟩
  · rw [parsePrice, parsePrice, t1, t2]
  · rw [parsePrice, t1, ← t3]
    rfl

/-- C2 at the raw text `445,62`: a comma and no dot. -/
theorem C2_parsePrice_decimal_comma_witness :
    (',' ∈ specStripped "445,62".toList ∧ '.' ∉ specStripped "445,62".toList) ∧
    parsePriceText "445,62".toList = some (specDecimalComma (specStripped "445,62".toList)) :=
  ⟨by decide, (C2_parsePrice_decimal_comma.1 "445,62".toList (by decide) (by decide)).1⟩

/-- C4: when the stripped text holds no comma and more than one dot, the text parsed is the
stripped text without its dots but the last: the stripped text splits at its last dot into
`pre`, the dot and `post`; the text parsed is `pre` with its dots deleted, the dot, and
`post` unchanged; it holds exactly one dot.  `1.046.50` gives 1046.5. -/
theorem C4_parsePrice_many_dots :
    (∀ raw : List Char, ',' ∉ specStripped raw → 1 < (specStripped raw).count '.' →
      ∃ pre post, specStripped raw = pre ++ '.' :: post ∧ '.' ∉ post ∧
        parsePriceText raw = some (pre.filter (fun c => c != '.') ++ '.' :: post) ∧
        (pre.filter (fun c => c != '.') ++ '.' :: post).count '.' = 1 ∧
        parsePrice raw =
          some (parseOrZero (pre.filter (fun c => c != '.') ++ '.' :: post))) ∧
    parsePriceText "1.046.50".toList = some "1046.50".toList ∧
    parsePrice "1.046.50".toList = some (F64.fin false 2093 (-1)) := by
  refine ⟨?_, by decide, by decide⟩
  intro raw hc hd
  obtain ⟨pre, post, hs, hp, ht⟩ := parsePriceText_dots raw hc hd
  refine ⟨pre, post, hs, hp, ht, ?_, by rw [parsePrice, ht]; rfl⟩
  have h1 : (pre.filter (fun c => c != '.')).count '.' = 0 := by
    apply List.count_eq_zero_of_not_mem
    simp [List.mem_filter]
  rw [List.count_append, List.count_cons_self, h1, List.count_eq_zero_of_not_mem hp]

/-- C4 at the raw text `1.046.50`: no comma, two dots. -/
theorem C4_parsePrice_many_dots_witness :
    (',' ∉ specStripped "1.046.50".toList ∧ 1 < (specStripped "1.046.50".toList).count '.') ∧
    ∃ pre post, specStripped "1.046.50".toList = pre ++ '.' :: post ∧ '.' ∉ post ∧
      parsePriceText "1.046.50".toList = some (pre.filter (fun c => c != '.') ++ '.' :: post) :=
  ⟨by decide, by
    obtain ⟨pre, post, h1, h2, h3, -, -⟩ :=
      C4_parsePrice_many_dots.1 "1.046.50".toList (by decide) (by decide)
    exact ⟨pre, post, h1, h2, h3⟩⟩

/-- C3, as the specification states it, fails: the text `Infinity` holds no decimal digit,
so it is no base-10 decimal number, and `parsePrice` returns the positive infinity, which
is not `0.0`. -/
theorem C3_parsePrice_unparseable_counterexample :
    (∀ c ∈ "Infinity".toList, strconv.isDigit c = false) ∧
    parsePriceText "Infinity".toList = some "Infinity".toList ∧
    parsePrice "Infinity".toList = some (F64.inf false) ∧
    F64.eq (F64.inf false) F64.zero = false ∧
    parsePrice "NaN".toList = some F64.nan ∧
    parsePrice "0x1p4".toList = some (F64.fin false 1 4) := by
  decide

/-- C3, amended: `parsePrice` never panics, the slices of its multi-dot branch being in
bounds, and returns a value on every input; it returns exactly `0.0` whenever
`strconv.ParseFloat` rejects the normalised text, which it does for every text without a
decimal digit other than the names `inf`, `infinity` and `nan`.  `n/a` and the empty
string give `0.0`. -/
theorem C3_parsePrice_total :
    (∀ raw : List Char, ∃ text, parsePriceText raw = some text ∧
      parsePrice raw = some (parseOrZero text)) ∧
    (∀ raw text : List Char, parsePriceText raw = some text →
      (∀ v, strconv.ParseFloat text ≠ .ok v) → parsePrice raw = some F64.zero) ∧
    (∀ raw text : List Char, parsePriceText raw = some text →
      (∀ c ∈ text, strconv.isDigit c = false) → specIsSpecialName text = false →
      parsePrice raw = some F64.zero) ∧
    parsePrice "n/a".toList = some F64.zero ∧
    parsePrice "".toList = some F64.zero := by
  refine ⟨?_, ?_, ?_, by decide, by decide⟩
  · intro raw
    obtain ⟨text, h⟩ := parsePriceText_isSome raw
    exact ⟨text, h, by rw [parsePrice, h]; rfl⟩
  · intro raw text h hv
    rw [parsePrice, h]
    simp only [Option.map_some', parseOrZero]
    cases hp : strconv.ParseFloat text with
    | ok v => exact absurd hp (hv v)
    | error e => rfl
  · intro raw text h hd hs
    rw [parsePrice, h]
    simp only [Option.map_some', parseOrZero, strconv.ParseFloat_no_digit text hd hs]

/-- C3 (amended) at the raw text `n/a`: no digit, not a special name. -/
theorem C3_parsePrice_total_witness :
    (parsePriceText "n/a".toList = some "n/a".toList ∧
      (∀ c ∈ "n/a".toList, strconv.isDigit c = false) ∧
      specIsSpecialName "n/a".toList = false) ∧
    parsePrice "n/a".toList = some F64.zero :=
  ⟨by decide, C3_parsePrice_total.2.2.1 "n/a".toList "n/a".toList (by decide) (by decide)
    (by decide)⟩

/-! ## Enrichment of a product -/

theorem parsePrice_isSome (raw : List Char) : ∃ v, parsePrice raw = some v := by
  obtain ⟨text, h⟩ := parsePriceText_isSome raw
  exact ⟨parseOrZero text, by rw [parsePrice, h]; rfl⟩

/-- The `dt` callback on a `Price Trend` label. -/
theorem priceTrendStep_label (env : Env) (p : Product) (s : List Char × List Char)
    (h : strings.TrimSpace s.1 = "Price Trend".toList) :
    ∃ v, parsePrice (strings.TrimSpace s.2) = some v ∧
      priceTrendStep env p s = some { p with
        PriceTrend := strings.TrimSpace s.2
        PriceTrendVal := F64.mul v env.euroToGBP
        ChangePercent :=
          if F64.gt p.FromPriceVal (F64.lit 0 1) = true then
            specChangePercent (F64.mul v env.euroToGBP) p.FromPriceVal
          else p.ChangePercent } := by
  obtain ⟨v, hv⟩ := parsePrice_isSome (strings.TrimSpace s.2)
  refine ⟨v, hv, ?_⟩
  unfold priceTrendStep
  rw [if_pos h]
  simp only [hv]
  split_ifs <;> rfl

/-- The `dt` callback on another label. -/
theorem priceTrendStep_other (env : Env) (p : Product) (s : List Char × List Char)
    (h : ¬ strings.TrimSpace s.1 = "Price Trend".toList) :
    priceTrendStep env p s = some p := by
  unfold priceTrendStep
  rw [if_neg h]

/-- The `dt` loop: it ends, touches the trend fields only, and what it leaves is decided by
the last `Price Trend` label. -/
theorem foldlM_priceTrendStep (env : Env) (dt : List (List Char × List Char)) (p : Product) :
    ∃ q, dt.foldlM (priceTrendStep env) p = some q ∧
      q.URL = p.URL ∧ q.FromPrice = p.FromPrice ∧ q.Name = p.Name ∧
      q.ImageURL = p.ImageURL ∧ q.FromPriceVal = p.FromPriceVal ∧
      match (dt.filter
          (fun s => decide (strings.TrimSpace s.1 = "Price Trend".toList))).getLast? with
      | none => q = p
      | some s => ∃ v, parsePrice (strings.TrimSpace s.2) = some v ∧
          q.PriceTrend = strings.TrimSpace s.2 ∧
          q.PriceTrendVal = F64.mul v env.euroToGBP ∧
          q.ChangePercent =
            if F64.gt p.FromPriceVal (F64.lit 0 1) = true then
              specChangePercent (F64.mul v env.euroToGBP) p.FromPriceVal
            else p.ChangePercent := by
  induction dt using List.reverseRecOn with
  | nil => exact ⟨p, rfl, rfl, rfl, rfl, rfl, rfl, rfl⟩
  | append_singleton l s ih =>
    obtain ⟨q1, h1, a1, a2, a3, a4, a5, a6⟩ := ih
    have hfold : (l ++ [s]).foldlM (priceTrendStep env) p = priceTrendStep env q1 s := by
      rw [List.foldlM_append, h1]
      simp
    rw [hfold, List.filter_append]
    by_cases hs : strings.TrimSpace s.1 = "Price Trend".toList
    · obtain ⟨v, hv, hstep⟩ := priceTrendStep_label env q1 s hs
      have hf : [s].filter (fun s => decide (strings.TrimSpace s.1 = "Price Trend".toList))
          = [s] := by
        rw [List.filter_cons, List.filter_nil]
        simp only [hs, decide_True, if_true]
      rw [hstep, hf, List.getLast?_append, List.getLast?_singleton]
      refine ⟨_, rfl, a1, a2, a3, a4, a5, ?_⟩
      refine ⟨v, hv, rfl, rfl, ?_⟩
      show (if q1.FromPriceVal.gt (F64.lit 0 1) = true then
          specChangePercent (v.mul env.euroToGBP) q1.FromPriceVal else q1.ChangePercent) = _
      rw [a5]
      split_ifs with hg
      · rfl
      · revert a6
        cases (l.filter
          (fun s => decide (strings.TrimSpace s.1 = "Price Trend".toList))).getLast? with
        | none => intro a6; rw [a6]
        | some s' =>
          rintro ⟨v', -, -, -, h⟩
          rw [h, if_neg hg]
    · have hf : [s].filter (fun s => decide (strings.TrimSpace s.1 = "Price Trend".toList))
          = [] := by
        rw [List.filter_cons, List.filter_nil]
        simp only [hs, decide_False, Bool.false_eq_true, if_false]
      rw [priceTrendStep_other env q1 s hs, hf, List.append_nil]
      exact ⟨q1, rfl, a1, a2, a3, a4, a5, a6⟩

/-- The `img` loop: the image URL is the `src` of the last image whose `alt` text contains
`Elite Trainer Box`, nothing else changes. -/
theorem foldl_imageStep (img : List (List Char × List Char)) (p : Product) :
    img.foldl imageStep p = { p with
      ImageURL :=
        match (img.filter
            (fun s => strings.Contains s.2 "Elite Trainer Box".toList)).getLast? with
        | none => p.ImageURL
        | some s => s.1 } := by
  induction img using List.reverseRecOn with
  | nil => rfl
  | append_singleton l s ih =>
    rw [List.foldl_append, ih, List.filter_append]
    simp only [List.foldl_cons, List.foldl_nil, imageStep]
    by_cases hs : strings.Contains s.2 "Elite Trainer Box".toList = true
    · have hf : [s].filter (fun s => strings.Contains s.2 "Elite Trainer Box".toList) = [s] := by
        rw [List.filter_cons, List.filter_nil, if_pos hs]
      rw [if_pos hs, hf, List.getLast?_append, List.getLast?_singleton]
      rfl
    · have hf : [s].filter (fun s => strings.Contains s.2 "Elite Trainer Box".toList) = [] := by
        rw [List.filter_cons, List.filter_nil, if_neg hs]
      rw [if_neg hs, hf, List.append_nil]

/-- `scrapeProductData` on a fetched page that is not blocked: it returns, and its result
is the product after the `dt` loop and the `img` loop. -/
theorem scrapeProductDataOn_page (env : Env) (p : Product) (doc : Document)
    (hb : specBlocked env doc = false) :
    ∃ q1, doc.dt.foldlM (priceTrendStep env)
        { p with Name := strings.TrimSuffix doc.title " | Cardmarket".toList } = some q1 ∧
      scrapeProductDataOn env (.page doc) p = some (doc.img.foldl imageStep q1) := by
  obtain ⟨q1, h1, -⟩ := foldlM_priceTrendStep env doc.dt
    { p with Name := strings.TrimSuffix doc.title " | Cardmarket".toList }
  refine ⟨q1, h1, ?_⟩
  unfold specBlocked at hb
  simp only [scrapeProductDataOn, hb, Bool.false_eq_true, if_false, h1]

theorem F64_gt_of_eq_zero (x : F64) (h : F64.eq x F64.zero = true) :
    F64.gt x (F64.lit 0 1) = false := by
  have hz : F64.lit 0 1 = F64.zero := by decide
  rw [hz]
  unfold F64.eq at h
  simp only [Bool.and_eq_true] at h
  have h2 := h.2
  cases x with
  | nan => rfl
  | inf s => cases s <;> simp [F64.ge, F64.zero, F64.gt] at h2 ⊢
  | fin s m e =>
    simp only [F64.ge, F64.zero, Bool.not_eq_true'] at h2
    exact h2

/-- C5: on a fetched, non-blocked page with a `Price Trend` label (the last one counts, its
trimmed value text being the trend text), `scrapeProductData` returns with
`PriceTrendVal = parsePrice(trend text) * euroToGBP`; `ChangePercent` is
`((PriceTrendVal - FromPriceVal) / FromPriceVal) * 100` when `FromPriceVal > 0` and is
left as it was otherwise, in particular when `FromPriceVal == 0`.  With rate 1.0 the
baselines `€100,00` and `€50,00` with the trends `€120,00` and `€40,00` give 20 and -20
(`5 * 2^2` and `-5 * 2^2`). -/
theorem C5_scrapeProductData_change_percent :
    (∀ (env : Env) (p : Product) (doc : Document) (s : List Char × List Char),
      env.fetch p.URL = .page doc → specBlocked env doc = false →
      (specTrendLabels doc).getLast? = some s →
      ∃ q v, scrapeProductData env p = some q ∧
        parsePrice (strings.TrimSpace s.2) = some v ∧
        q.PriceTrend = strings.TrimSpace s.2 ∧
        q.PriceTrendVal = F64.mul v env.euroToGBP ∧
        q.FromPriceVal = p.FromPriceVal ∧
        (F64.gt p.FromPriceVal (F64.lit 0 1) = true →
          q.ChangePercent = specChangePercent q.PriceTrendVal q.FromPriceVal) ∧
        (F64.gt p.FromPriceVal (F64.lit 0 1) = false → q.ChangePercent = p.ChangePercent) ∧
        (F64.eq p.FromPriceVal F64.zero = true → q.ChangePercent = p.ChangePercent)) ∧
    (enrich (scenarioEnv (F64.lit 1 1) (scenarioPage "A".toList "€120,00".toList []))
        (scenarioProduct "a".toList "€100,00".toList)).map (fun q => q.ChangePercent) =
      some (F64.fin false 5 2) ∧
    (enrich (scenarioEnv (F64.lit 1 1) (scenarioPage "B".toList "€40,00".toList []))
        (scenarioProduct "b".toList "€50,00".toList)).map (fun q => q.ChangePercent) =
      some (F64.fin true 5 2) := by
  refine ⟨?_, by decide, by decide⟩
  intro env p doc s hf hb hs
  obtain ⟨q1, h1, hq⟩ := scrapeProductDataOn_page env p doc hb
  obtain ⟨q1', h1', -, -, -, -, a5, a6⟩ := foldlM_priceTrendStep env doc.dt
    { p with Name := strings.TrimSuffix doc.title " | Cardmarket".toList }
  rw [h1] at h1'
  cases h1'
  unfold specTrendLabels at hs
  rw [hs] at a6
  obtain ⟨v, hv, b1, b2, b3⟩ := a6
  have hi := foldl_imageStep doc.img q1
  refine ⟨doc.img.foldl imageStep q1, v, ?_, hv, ?_, ?_, ?_, ?_, ?_, ?_⟩
  · rw [scrapeProductData, hf, hq]
  · rw [hi]; exact b1
  · rw [hi]; exact b2
  · rw [hi]; exact a5
  · intro hg
    rw [hi]
    show q1.ChangePercent = specChangePercent q1.PriceTrendVal q1.FromPriceVal
    rw [b3, b2, a5]
    exact if_pos hg
  · intro hg
    rw [hi]
    show q1.ChangePercent = p.ChangePercent
    rw [b3]
    simp [hg]
  · intro hz
    rw [hi]
    show q1.ChangePercent = p.ChangePercent
    rw [b3]
    simp [F64_gt_of_eq_zero _ hz]

/-- C5 at the first product of the end-to-end scenario, before its baseline is parsed. -/
theorem C5_scrapeProductData_change_percent_witness :
    ((scenarioEnv (F64.lit 1 1) (scenarioPage "A".toList "€120,00".toList [])).fetch
        (scenarioProduct "a".toList "€100,00".toList).URL =
        .page (scenarioPage "A".toList "€120,00".toList []) ∧
      specBlocked (scenarioEnv (F64.lit 1 1) (scenarioPage "A".toList "€120,00".toList []))
        (scenarioPage "A".toList "€120,00".toList []) = false ∧
      (specTrendLabels (scenarioPage "A".toList "€120,00".toList [])).getLast? =
        some ("Price Trend".toList, "€120,00".toList)) ∧
    ∃ q v, scrapeProductData
        (scenarioEnv (F64.lit 1 1) (scenarioPage "A".toList "€120,00".toList []))
        (scenarioProduct "a".toList "€100,00".toList) = some q ∧
      parsePrice "€120,00".toList = some v ∧
      q.PriceTrendVal = F64.mul v (F64.lit 1 1) :=
  ⟨⟨rfl, by decide, by decide⟩, by
    obtain ⟨q, v, h1, h2, -, h4, -⟩ := C5_scrapeProductData_change_percent.1
      (scenarioEnv (F64.lit 1 1) (scenarioPage "A".toList "€120,00".toList []))
      (scenarioProduct "a".toList "€100,00".toList)
      (scenarioPage "A".toList "€120,00".toList [])
      ("Price Trend".toList, "€120,00".toList) rfl (by decide) (by decide)
    exact ⟨q, v, h1, h2, h4⟩⟩

/-- C6 on the code: a product with baseline `€100,00`, `ChangePercent` 0 before the call,
and a page whose `Price Trend` label has an empty value text, or the text `n/a`, comes out
with `ChangePercent` -100 (`-25 * 2^2`), computed from the trend value `0.0` that
`parsePrice` returns for a text it cannot parse.  On a page without the label
`ChangePercent` is left as it was. -/
theorem C6_unparsed_trend_is_computed :
    (scenarioProduct "a".toList "€100,00".toList).ChangePercent = F64.zero ∧
    (enrich (scenarioEnv (F64.lit 1 1) (scenarioPage "A".toList "".toList []))
        (scenarioProduct "a".toList "€100,00".toList)).map
          (fun q => (q.PriceTrend, q.PriceTrendVal, q.ChangePercent)) =
      some ([], F64.zero, F64.fin true 25 2) ∧
    (enrich (scenarioEnv (F64.lit 1 1) (scenarioPage "A".toList "n/a".toList []))
        (scenarioProduct "a".toList "€100,00".toList)).map
          (fun q => (q.PriceTrend, q.PriceTrendVal, q.ChangePercent)) =
      some ("n/a".toList, F64.zero, F64.fin true 25 2) ∧
    (enrich (scenarioEnv (F64.lit 85 100) (scenarioPage "A".toList "".toList []))
        (scenarioProduct "a".toList "€100,00".toList)).map (fun q => q.ChangePercent) =
      some (F64.fin true 25 2) ∧
    (∀ (env : Env) (p : Product) (doc : Document),
      env.fetch p.URL = .page doc → specBlocked env doc = false → specTrendLabels doc = [] →
      ∃ q, scrapeProductData env p = some q ∧ q.ChangePercent = p.ChangePercent ∧
        q.PriceTrend = p.PriceTrend ∧ q.PriceTrendVal = p.PriceTrendVal) := by
  refine ⟨rfl, by decide, by decide, by decide, ?_⟩
  intro env p doc hf hb hs
  obtain ⟨q1, h1, hq⟩ := scrapeProductDataOn_page env p doc hb
  obtain ⟨q1', h1', -, -, -, -, -, a6⟩ := foldlM_priceTrendStep env doc.dt
    { p with Name := strings.TrimSuffix doc.title " | Cardmarket".toList }
  rw [h1] at h1'
  cases h1'
  unfold specTrendLabels at hs
  rw [hs] at a6
  have a6' : q1 = { p with Name := strings.TrimSuffix doc.title " | Cardmarket".toList } := a6
  refine ⟨doc.img.foldl imageStep q1, ?_, ?_, ?_, ?_⟩
  · rw [scrapeProductData, hf, hq]
  · rw [foldl_imageStep, a6']
  · rw [foldl_imageStep, a6']
  · rw [foldl_imageStep, a6']

/-- C9: on a fetched page whose lower-cased title contains `just a moment`,
`scrapeProductData` sets `Name` to `Blocked or loading issue` and leaves every other field
of the product as it was.  A title of ASCII characters that reads `just a moment...` in
some letter case is such a title. -/
theorem C9_scrapeProductData_blocked :
    (∀ (env : Env) (p : Product) (doc : Document),
      env.fetch p.URL = .page doc → specBlocked env doc = true →
      ∃ q, scrapeProductData env p = some q ∧
        q.Name = "Blocked or loading issue".toList ∧
        q.PriceTrend = p.PriceTrend ∧ q.PriceTrendVal = p.PriceTrendVal ∧
        q.ImageURL = p.ImageURL ∧ q.ChangePercent = p.ChangePercent ∧
        q.URL = p.URL ∧ q.FromPrice = p.FromPrice ∧ q.FromPriceVal = p.FromPriceVal) ∧
    (∀ (env : Env) (doc : Document), (∀ c ∈ doc.title, c.toNat < 128) →
      doc.title.map strings.lowerASCII = "just a moment...".toList →
      specBlocked env doc = true) ∧
    specBlocked (scenarioEnv (F64.lit 1 1)
        (scenarioPage "Just a moment...".toList "€120,00".toList []))
      (scenarioPage "Just a moment...".toList "€120,00".toList []) = true ∧
    specBlocked (scenarioEnv (F64.lit 1 1)
        (scenarioPage "JUST A MOMENT...".toList "€120,00".toList []))
      (scenarioPage "JUST A MOMENT...".toList "€120,00".toList []) = true := by
  refine ⟨?_, ?_, by decide, by decide⟩
  · intro env p doc hf hb
    refine ⟨{ p with Name := "Blocked or loading issue".toList }, ?_, rfl, rfl, rfl, rfl, rfl,
      rfl, rfl, rfl⟩
    unfold specBlocked at hb
    simp only [scrapeProductData, hf, scrapeProductDataOn, hb, if_true]
  · intro env doc hascii hlow
    unfold specBlocked strings.ToLower
    have : doc.title.map
        (fun c => if c.toNat < 128 then strings.lowerASCII c else env.lowerOther c) =
        doc.title.map strings.lowerASCII := by
      apply List.map_congr_left
      intro c hc
      rw [if_pos (hascii c hc)]
    rw [this, hlow]
    decide

/-- C9 at the page titled `Just a moment...`. -/
theorem C9_scrapeProductData_blocked_witness :
    ((scenarioEnv (F64.lit 1 1)
        (scenarioPage "Just a moment...".toList "€120,00".toList [])).fetch
        (scenarioProduct "a".toList "€100,00".toList).URL =
        .page (scenarioPage "Just a moment...".toList "€120,00".toList []) ∧
      specBlocked (scenarioEnv (F64.lit 1 1)
          (scenarioPage "Just a moment...".toList "€120,00".toList []))
        (scenarioPage "Just a moment...".toList "€120,00".toList []) = true) ∧
    ∃ q, scrapeProductData (scenarioEnv (F64.lit 1 1)
        (scenarioPage "Just a moment...".toList "€120,00".toList []))
        (scenarioProduct "a".toList "€100,00".toList) = some q ∧
      q.Name = "Blocked or loading issue".toList ∧ q.ChangePercent = F64.zero :=
  ⟨⟨rfl, by decide⟩, by
    obtain ⟨q, h1, h2, -, -, -, h6, -⟩ := C9_scrapeProductData_blocked.1
      (scenarioEnv (F64.lit 1 1) (scenarioPage "Just a moment...".toList "€120,00".toList []))
      (scenarioProduct "a".toList "€100,00".toList)
      (scenarioPage "Just a moment...".toList "€120,00".toList []) rfl (by decide)
    exact ⟨q, h1, h2, h6⟩⟩

/-- C10, as the specification states it, fails: on a page with two images whose `alt` text
contains `Elite Trainer Box`, the first with `src` `first.jpg` and the second with `src`
`second.jpg`, the product comes out with the image URL `second.jpg`. -/
theorem C10_first_image_counterexample :
    (specBoxImages (scenarioPage "A".toList "€120,00".toList
        [("first.jpg".toList, "Elite Trainer Box front".toList),
         ("second.jpg".toList, "Elite Trainer Box back".toList)])).head? =
      some ("first.jpg".toList, "Elite Trainer Box front".toList) ∧
    (scrapeProductData
        (scenarioEnv (F64.lit 1 1) (scenarioPage "A".toList "€120,00".toList
          [("first.jpg".toList, "Elite Trainer Box front".toList),
           ("second.jpg".toList, "Elite Trainer Box back".toList)]))
        (scenarioProduct "a".toList "€100,00".toList)).map (fun q => q.ImageURL) =
      some "second.jpg".toList := by
  decide

/-- C10, amended: on a fetched, non-blocked page `scrapeProductData` returns, and the image
URL of the product is the `src` of the last image, in document order, whose `alt` text
contains `Elite Trainer Box`; when no image has such an `alt` text it is left as it
was. -/
theorem C10_scrapeProductData_image :
    ∀ (env : Env) (p : Product) (doc : Document),
      env.fetch p.URL = .page doc → specBlocked env doc = false →
      ∃ q, scrapeProductData env p = some q ∧
        q.ImageURL =
          match (specBoxImages doc).getLast? with
          | none => p.ImageURL
          | some s => s.1 := by
  intro env p doc hf hb
  obtain ⟨q1, h1, hq⟩ := scrapeProductDataOn_page env p doc hb
  obtain ⟨q1', h1', -, -, -, a4, -, -⟩ := foldlM_priceTrendStep env doc.dt
    { p with Name := strings.TrimSuffix doc.title " | Cardmarket".toList }
  rw [h1] at h1'
  cases h1'
  refine ⟨doc.img.foldl imageStep q1, ?_, ?_⟩
  · rw [scrapeProductData, hf, hq]
  · rw [foldl_imageStep]
    show (match (doc.img.filter
        (fun s => strings.Contains s.2 "Elite Trainer Box".toList)).getLast? with
      | none => q1.ImageURL
      | some s => s.1) = _
    rw [a4]
    rfl

/-- C10 (amended) at the page with the two box images. -/
theorem C10_scrapeProductData_image_witness :
    ((scenarioEnv (F64.lit 1 1) (scenarioPage "A".toList "€120,00".toList
          [("first.jpg".toList, "Elite Trainer Box front".toList),
           ("second.jpg".toList, "Elite Trainer Box back".toList)])).fetch
        (scenarioProduct "a".toList "€100,00".toList).URL =
        .page (scenarioPage "A".toList "€120,00".toList
          [("first.jpg".toList, "Elite Trainer Box front".toList),
           ("second.jpg".toList, "Elite Trainer Box back".toList)]) ∧
      specBlocked (scenarioEnv (F64.lit 1 1) (scenarioPage "A".toList "€120,00".toList
          [("first.jpg".toList, "Elite Trainer Box front".toList),
           ("second.jpg".toList, "Elite Trainer Box back".toList)]))
        (scenarioPage "A".toList "€120,00".toList
          [("first.jpg".toList, "Elite Trainer Box front".toList),
           ("second.jpg".toList, "Elite Trainer Box back".toList)]) = false) ∧
    ∃ q, scrapeProductData
        (scenarioEnv (F64.lit 1 1) (scenarioPage "A".toList "€120,00".toList
          [("first.jpg".toList, "Elite Trainer Box front".toList),
           ("second.jpg".toList, "Elite Trainer Box back".toList)]))
        (scenarioProduct "a".toList "€100,00".toList) = some q ∧
      q.ImageURL = "second.jpg".toList :=
  ⟨⟨rfl, by decide⟩, by
    obtain ⟨q, h1, h2⟩ := C10_scrapeProductData_image
      (scenarioEnv (F64.lit 1 1) (scenarioPage "A".toList "€120,00".toList
        [("first.jpg".toList, "Elite Trainer Box front".toList),
         ("second.jpg".toList, "Elite Trainer Box back".toList)]))
      (scenarioProduct "a".toList "€100,00".toList)
      (scenarioPage "A".toList "€120,00".toList
        [("first.jpg".toList, "Elite Trainer Box front".toList),
         ("second.jpg".toList, "Elite Trainer Box back".toList)]) rfl (by decide)
    exact ⟨q, h1, by rw [h2]; decide⟩⟩

namespace sort

variable {α : Type} [Inhabited α]

/-! ## The sort: slices, swaps and permutations of a range -/

theorem length_Swap (data : List α) (i j : Nat) : (Swap data i j).length = data.length := by
  simp [Swap]

theorem elem_Swap (data : List α) (i j k : Nat) (hi : i < data.length) (hj : j < data.length) :
    elem (Swap data i j) k =
      if k = j then elem data i else if k = i then elem data j else elem data k := by
  unfold Swap elem
  simp only [List.getD_eq_getElem?_getD, List.getElem?_set, List.length_set]
  by_cases h1 : k = j
  · subst h1
    simp [hj]
  · by_cases h2 : k = i
    · subst h2
      have : ¬ j = k := fun e => h1 e.symm
      simp [h1, this, hi]
    · have a1 : ¬ j = k := fun e => h1 e.symm
      have a2 : ¬ i = k := fun e => h2 e.symm
      simp [h1, h2, a1, a2]

theorem elem_Swap_perm (data : List α) (i j k : Nat) (hi : i < data.length)
    (hj : j < data.length) :
    elem (Swap data i j) k = elem data (Equiv.swap i j k) := by
  rw [elem_Swap data i j k hi hj, Equiv.swap_apply_def]
  by_cases h1 : k = j
  · subst h1
    by_cases h2 : k = i
    · subst h2; simp
    · simp [h2]
  · by_cases h2 : k = i
    · subst h2; simp [h1]
    · simp [h1, h2]

theorem RangePerm.refl (a b : Nat) (data : List α) : RangePerm a b data data :=
  ⟨rfl, 1, fun _ _ => rfl, fun _ => rfl⟩

theorem RangePerm.trans {a b : Nat} {d1 d2 d3 : List α} (h1 : RangePerm a b d1 d2)
    (h2 : RangePerm a b d2 d3) : RangePerm a b d1 d3 := by
  obtain ⟨l1, σ, hσ, e1⟩ := h1
  obtain ⟨l2, τ, hτ, e2⟩ := h2
  refine ⟨l2.trans l1, τ.trans σ, ?_, ?_⟩
  · intro k hk
    simp [hτ k hk, hσ k hk]
  · intro k
    rw [e2, e1]
    rfl

theorem RangePerm.mono {a b a' b' : Nat} {d1 d2 : List α} (h : RangePerm a b d1 d2)
    (ha : a' ≤ a) (hb : b ≤ b') : RangePerm a' b' d1 d2 := by
  obtain ⟨l1, σ, hσ, e1⟩ := h
  exact ⟨l1, σ, fun k hk => hσ k (fun h => hk ⟨by omega, by omega⟩), e1⟩

theorem RangePerm.swap (a b : Nat) (data : List α) (i j : Nat) (hi : a ≤ i ∧ i < b)
    (hj : a ≤ j ∧ j < b) (hb : b ≤ data.length) : RangePerm a b data (Swap data i j) := by
  refine ⟨length_Swap data i j, Equiv.swap i j, ?_, ?_⟩
  · intro k hk
    apply Equiv.swap_apply_of_ne_of_ne
    · intro e; subst e; exact hk hi
    · intro e; subst e; exact hk hj
  · intro k
    exact elem_Swap_perm data i j k (by omega) (by omega)

theorem RangePerm.length_eq {a b : Nat} {d1 d2 : List α} (h : RangePerm a b d1 d2) :
    d2.length = d1.length := h.1

/-- Outside the range nothing moves. -/
theorem RangePerm.outside {a b : Nat} {d1 d2 : List α} (h : RangePerm a b d1 d2) (k : Nat)
    (hk : k < a ∨ b ≤ k) : elem d2 k = elem d1 k := by
  obtain ⟨-, σ, hσ, e⟩ := h
  rw [e, hσ k (by omega)]

/-- Inside the range every element comes from the range. -/
theorem RangePerm.inside {a b : Nat} {d1 d2 : List α} (h : RangePerm a b d1 d2) (k : Nat)
    (hk : a ≤ k ∧ k < b) : ∃ k', (a ≤ k' ∧ k' < b) ∧ elem d2 k = elem d1 k' := by
  obtain ⟨-, σ, hσ, e⟩ := h
  refine ⟨σ k, ?_, e k⟩
  by_contra hc
  have h1 : σ (σ k) = σ k := hσ (σ k) hc
  have h2 : σ k = k := σ.injective h1
  rw [h2] at hc
  exact hc hk

/-- Inside the range every element goes somewhere in the range. -/
theorem RangePerm.inside' {a b : Nat} {d1 d2 : List α} (h : RangePerm a b d1 d2) (k : Nat)
    (hk : a ≤ k ∧ k < b) : ∃ k', (a ≤ k' ∧ k' < b) ∧ elem d2 k' = elem d1 k := by
  obtain ⟨-, σ, hσ, e⟩ := h
  refine ⟨σ.symm k, ?_, by rw [e]; simp⟩
  by_contra hc
  have h1 : σ (σ.symm k) = σ.symm k := hσ _ hc
  rw [Equiv.apply_symm_apply] at h1
  rw [← h1] at hc
  exact hc hk

/-- A property of all the elements of a range goes over to the permuted slice. -/
theorem RangePerm.forall_range {a b : Nat} {d1 d2 : List α} (h : RangePerm a b d1 d2)
    (P : α → Prop) (hP : ∀ k, a ≤ k → k < b → P (elem d1 k)) :
    ∀ k, a ≤ k → k < b → P (elem d2 k) := by
  intro k h1 h2
  obtain ⟨k', hk', e⟩ := h.inside k ⟨h1, h2⟩
  rw [e]
  exact hP k' hk'.1 hk'.2

theorem AllIn.of_rangePerm {S : α → Prop} {a b n : Nat} {d1 d2 : List α}
    (hS : AllIn S d1 n) (h : RangePerm a b d1 d2) (hb : b ≤ n) : AllIn S d2 n := by
  intro k hk
  by_cases hr : a ≤ k ∧ k < b
  · obtain ⟨k', hk', e⟩ := h.inside k hr
    rw [e]
    exact hS k' (by omega)
  · rw [h.outside k (by omega)]
    exact hS k hk

theorem LeftBound.transport {less : α → α → Bool} {a b : Nat} {d1 d2 : List α}
    (hL : LeftBound less d1 a b) (h : RangePerm a b d1 d2) : LeftBound less d2 a b := by
  intro ha k h1 h2
  rw [h.outside (a - 1) (by omega)]
  exact h.forall_range (fun x => less x (elem d1 (a - 1)) = false) (hL ha) k h1 h2

theorem elem_eq_getElem (data : List α) (k : Nat) (hk : k < data.length) :
    elem data k = data[k] := by
  simp [elem, List.getD_eq_getElem?_getD, hk]

/-- A permutation of the whole slice is a permutation of the list. -/
theorem RangePerm.perm {d1 d2 : List α} (h : RangePerm 0 d1.length d1 d2) : d2.Perm d1 := by
  obtain ⟨hl, σ, hσ, e⟩ := h
  have hlt : ∀ k, k < d1.length ↔ σ k < d1.length := by
    intro k
    constructor
    · intro hk
      by_contra hc
      have h1 : σ (σ k) = σ k := hσ _ (by omega)
      have h2 : σ k = k := σ.injective h1
      omega
    · intro hk
      by_contra hc
      have h1 : σ k = k := hσ _ (by omega)
      omega
  let τ : Equiv.Perm (Fin d1.length) :=
    { toFun := fun i => ⟨σ i, (hlt i).1 i.2⟩
      invFun := fun i => ⟨σ.symm i, by
        have := (hlt (σ.symm i)).2 (by simp)
        exact this⟩
      left_inv := fun i => by simp
      right_inv := fun i => by simp }
  have h1 : d1 = List.ofFn (fun i : Fin d1.length => elem d1 i) := by
    apply List.ext_getElem
    · simp
    · intro n h1 h2
      simp [elem_eq_getElem d1 n h1]
  have h2 : d2 = List.ofFn ((fun i : Fin d1.length => elem d1 i) ∘ τ) := by
    apply List.ext_getElem
    · simp [hl]
    · intro n h1 h2
      have := e n
      rw [elem_eq_getElem d2 n h1] at this
      simp [this, τ]
  rw [h2]
  conv_rhs => rw [h1]
  exact Equiv.Perm.ofFn_comp_perm τ _

/-! ## The sort: the order -/

theorem StrictWeak.irrefl {less : α → α → Bool} {S : α → Prop} (h : StrictWeak less S)
    (x : α) (hx : S x) : less x x = false := by
  cases hl : less x x with
  | false => rfl
  | true => rw [h.asymm x x hx hx hl] at hl; cases hl

theorem StrictWeak.lt_of_lt_of_le {less : α → α → Bool} {S : α → Prop} (h : StrictWeak less S)
    (x y z : α) (hx : S x) (hy : S y) (hz : S z) (h1 : less x y = true)
    (h2 : less z y = false) : less x z = true := by
  cases hl : less x z with
  | true => rfl
  | false =>
    rw [h.trans y z x hy hz hx h2 hl] at h1
    cases h1

theorem StrictWeak.lt_of_le_of_lt {less : α → α → Bool} {S : α → Prop} (h : StrictWeak less S)
    (x y z : α) (hx : S x) (hy : S y) (hz : S z) (h1 : less y x = false)
    (h2 : less y z = true) : less x z = true := by
  cases hl : less x z with
  | true => rfl
  | false =>
    rw [h.trans z x y hz hx hy hl h1] at h2
    cases h2

end sort

end PriceTracker

namespace PriceTracker
namespace sort

variable {α : Type} [Inhabited α]

/-! ## The sort: insertion sort -/

/-- The inner loop of the insertion sort puts `data[j]` in its place among the sorted
`data[a:j]`, the elements after it up to `i` being sorted and not less than those before. -/
theorem insertionInner_spec (less : α → α → Bool) (S : α → Prop) (hW : StrictWeak less S)
    (a i : Nat) : ∀ (j : Nat) (d : List α), a ≤ j → j ≤ i → i < d.length →
      AllIn S d d.length → SortedOn less d a j → SortedOn less d j (i + 1) →
      (∀ x y, a ≤ x → x < j → j < y → y ≤ i → less (elem d y) (elem d x) = false) →
      RangePerm a (i + 1) d (insertionInner less a j d) ∧
        SortedOn less (insertionInner less a j d) a (i + 1) := by
  intro j
  induction j with
  | zero =>
    intro d ha _ _ _ _ h2 _
    have : a = 0 := by omega
    subst this
    exact ⟨RangePerm.refl _ _ _, h2⟩
  | succ j ih =>
    intro d ha hji hi hS h1 h2 h3
    rw [insertionInner]
    by_cases hc : a < j + 1 ∧ less (elem d (j + 1)) (elem d j) = true
    · rw [if_pos hc]
      have hl := length_Swap d (j + 1) j
      have hp : RangePerm a (i + 1) d (Swap d (j + 1) j) :=
        RangePerm.swap a (i + 1) d (j + 1) j ⟨by omega, by omega⟩ ⟨by omega, by omega⟩
          (by omega)
      have hS' : AllIn S (Swap d (j + 1) j) (Swap d (j + 1) j).length := by
        rw [hl]
        exact hS.of_rangePerm hp (by omega)
      have e : ∀ k, elem (Swap d (j + 1) j) k =
          if k = j then elem d (j + 1) else if k = j + 1 then elem d j else elem d k :=
        fun k => elem_Swap d (j + 1) j k (by omega) (by omega)
      have e_lo : ∀ k, k < j → elem (Swap d (j + 1) j) k = elem d k := by
        intro k hk
        rw [e, if_neg (by omega), if_neg (by omega)]
      have e_hi : ∀ k, j + 1 < k → elem (Swap d (j + 1) j) k = elem d k := by
        intro k hk
        rw [e, if_neg (by omega), if_neg (by omega)]
      have e_j : elem (Swap d (j + 1) j) j = elem d (j + 1) := by
        rw [e, if_pos rfl]
      have e_j1 : elem (Swap d (j + 1) j) (j + 1) = elem d j := by
        rw [e, if_neg (by omega), if_pos rfl]
      have r := ih (Swap d (j + 1) j) (by omega) (by omega) (by omega) hS'
        (by
          intro x y hx hxy hy
          rw [e_lo x (by omega), e_lo y (by omega)]
          exact h1 x y hx hxy (by omega))
        (by
          intro x y hx hxy hy
          by_cases hxj : x = j
          · subst hxj
            rw [e_j]
            by_cases hy1 : y = x + 1
            · subst hy1
              rw [e_j1]
              exact hW.asymm _ _ (hS _ (by omega)) (hS _ (by omega)) hc.2
            · rw [e_hi y (by omega)]
              exact h2 (x + 1) y (by omega) (by omega) hy
          · rw [e_hi y (by omega)]
            by_cases hx1 : x = j + 1
            · subst hx1
              rw [e_j1]
              exact h3 j y (by omega) (by omega) (by omega) (by omega)
            · rw [e_hi x (by omega)]
              exact h2 x y (by omega) hxy hy)
        (by
          intro x y hx hxj hjy hy
          rw [e_lo x hxj]
          by_cases hy1 : y = j + 1
          · subst hy1
            rw [e_j1]
            exact h1 x j hx hxj (by omega)
          · rw [e_hi y (by omega)]
            exact h3 x y hx (by omega) (by omega) hy)
      exact ⟨hp.trans r.1, r.2⟩
    · rw [if_neg hc]
      refine ⟨RangePerm.refl _ _ _, ?_⟩
      by_cases ha' : a < j + 1
      · have hlt : less (elem d (j + 1)) (elem d j) = false := by
          cases h : less (elem d (j + 1)) (elem d j) with
          | false => rfl
          | true => exact absurd ⟨ha', h⟩ hc
        intro x y hx hxy hy
        by_cases c1 : y < j + 1
        · exact h1 x y hx hxy c1
        · by_cases c2 : j + 1 ≤ x
          · exact h2 x y c2 hxy hy
          · by_cases c3 : y = j + 1
            · subst c3
              by_cases c4 : x = j
              · subst c4
                exact hlt
              · exact hW.trans _ _ _ (hS x (by omega)) (hS j (by omega)) (hS (j + 1) (by omega))
                  (h1 x j hx (by omega) (by omega)) hlt
            · exact h3 x y hx (by omega) (by omega) (by omega)
      · have : a = j + 1 := by omega
        subst this
        exact h2

/-- A loop over the indices `s, s+1, ..., s+m-1` keeps an invariant. -/
theorem foldl_range'_invariant {β : Type} (f : β → Nat → β) (P : Nat → β → Prop) (m : Nat) :
    ∀ (s : Nat) (x : β), P s x → (∀ i y, s ≤ i → i < s + m → P i y → P (i + 1) (f y i)) →
      P (s + m) ((List.range' s m).foldl f x) := by
  induction m with
  | zero => intro s x h _; simpa using h
  | succ m ih =>
    intro s x h hstep
    rw [List.range'_succ, List.foldl_cons]
    have := ih (s + 1) (f x s) (hstep s x (le_refl _) (by omega) h)
      (fun i y h1 h2 hp => hstep i y (by omega) (by omega) hp)
    rw [show s + (m + 1) = s + 1 + m by omega]
    exact this

/-- Go `insertionSort_func` sorts `data[a:b]` and only permutes that range. -/
theorem insertionSort_spec (less : α → α → Bool) (S : α → Prop) (hW : StrictWeak less S)
    (d : List α) (a b : Nat) (hb : b ≤ d.length) (hS : AllIn S d d.length) :
    RangePerm a b d (insertionSort_func less d a b) ∧
      SortedOn less (insertionSort_func less d a b) a b := by
  by_cases hab : a + 1 ≤ b
  · have key := foldl_range'_invariant (fun data i => insertionInner less a i data)
      (fun i d' => RangePerm a b d d' ∧ SortedOn less d' a i) (b - (a + 1)) (a + 1) d
      ⟨RangePerm.refl _ _ _, fun x y h1 h2 h3 => by omega⟩
      (by
        intro i y h1 h2 ⟨hp, hs⟩
        have hl : y.length = d.length := hp.length_eq
        have r := insertionInner_spec less S hW a i i y (by omega) (le_refl _) (by omega)
          (by rw [hl]; exact hS.of_rangePerm hp hb) hs
          (fun x y h1 h2 h3 => by omega) (fun x y h1 h2 h3 h4 => by omega)
        exact ⟨hp.trans (r.1.mono (le_refl _) (by omega)), r.2⟩)
    rw [show a + 1 + (b - (a + 1)) = b by omega] at key
    exact key
  · have : b - (a + 1) = 0 := by omega
    unfold insertionSort_func
    rw [this]
    exact ⟨RangePerm.refl _ _ _, fun x y h1 h2 h3 => by omega⟩

/-! ## The sort: the partitions -/

theorem scanUp_spec (cond : Nat → Bool) (stop : Nat) :
    ∀ (m i : Nat), i + m = stop →
      i ≤ scanUp cond stop (List.range' i m) ∧ scanUp cond stop (List.range' i m) ≤ stop ∧
      (∀ k, i ≤ k → k < scanUp cond stop (List.range' i m) → cond k = true) ∧
      (scanUp cond stop (List.range' i m) < stop →
        cond (scanUp cond stop (List.range' i m)) = false) := by
  intro m
  induction m with
  | zero =>
    intro i h
    simp only [List.range'_zero, scanUp]
    exact ⟨by omega, le_refl _, fun k h1 h2 => by omega, fun h => by omega⟩
  | succ m ih =>
    intro i h
    rw [List.range'_succ, scanUp]
    by_cases hc : cond i = true
    · rw [if_pos hc]
      obtain ⟨h1, h2, h3, h4⟩ := ih (i + 1) (by omega)
      refine ⟨by omega, h2, ?_, h4⟩
      intro k hk1 hk2
      by_cases hk : k = i
      · rw [hk]; exact hc
      · exact h3 k (by omega) hk2
    · rw [if_neg hc]
      refine ⟨le_refl _, by omega, fun k h1 h2 => by omega, fun _ => ?_⟩
      simpa using hc

theorem scanDown_spec (cond : Nat → Bool) (i : Nat) (hi : 1 ≤ i) :
    ∀ j : Nat, i ≤ j + 1 →
      scanDown cond i j ≤ j ∧ i ≤ scanDown cond i j + 1 ∧
      (∀ k, scanDown cond i j < k → k ≤ j → cond k = true) ∧
      (i ≤ scanDown cond i j → cond (scanDown cond i j) = false) := by
  intro j
  induction j with
  | zero =>
    intro h
    simp only [scanDown]
    exact ⟨le_refl _, by omega, fun k h1 h2 => by omega, fun h => by omega⟩
  | succ j ih =>
    intro h
    rw [scanDown]
    by_cases hc : i ≤ j + 1 ∧ cond (j + 1) = true
    · rw [if_pos hc]
      obtain ⟨h1, h2, h3, h4⟩ := ih (by omega)
      refine ⟨by omega, h2, ?_, h4⟩
      intro k hk1 hk2
      by_cases hk : k = j + 1
      · rw [hk]; exact hc.2
      · exact h3 k hk1 (by omega)
    · rw [if_neg hc]
      refine ⟨le_refl _, by omega, fun k h1 h2 => by omega, fun h' => ?_⟩
      cases hcond : cond (j + 1) with
      | false => rfl
      | true => exact absurd ⟨h', hcond⟩ hc

/-- The loop of `partition_func`: it ends, permutes `data[a+1:b]`, and leaves the elements
less than the pivot `data[a]` up to `j` and the others after. -/
theorem partitionLoop_spec (less : α → α → Bool) (a b : Nat) :
    ∀ (fuel i j : Nat) (d : List α), a + 1 ≤ i → i ≤ j + 1 → j < b → b ≤ d.length →
      j + 1 - i < fuel →
      (∀ k, a + 1 ≤ k → k < i → less (elem d k) (elem d a) = true) →
      (∀ k, j < k → k < b → less (elem d k) (elem d a) = false) →
      ∃ j' d', partitionLoop less a fuel i j d = some (j', d') ∧
        RangePerm (a + 1) b d d' ∧ a ≤ j' ∧ j' < b ∧
        (∀ k, a + 1 ≤ k → k ≤ j' → less (elem d' k) (elem d' a) = true) ∧
        (∀ k, j' < k → k < b → less (elem d' k) (elem d' a) = false) := by
  intro fuel
  induction fuel with
  | zero => intro i j d _ _ _ _ h; omega
  | succ fuel ih =>
    intro i j d hi hij hj hb hf hL hR
    rw [partitionLoop]
    obtain ⟨u1, u2, u3, u4⟩ := scanUp_spec (fun k => less (elem d k) (elem d a)) (j + 1)
      (j + 1 - i) i (by omega)
    generalize scanUp (fun k => less (elem d k) (elem d a)) (j + 1)
      (List.range' i (j + 1 - i)) = i' at u1 u2 u3 u4
    obtain ⟨v1, v2, v3, v4⟩ := scanDown_spec (fun k => !less (elem d k) (elem d a)) i'
      (by omega) j u2
    generalize scanDown (fun k => !less (elem d k) (elem d a)) i' j = j' at v1 v2 v3 v4
    simp only [Bool.not_eq_true', Bool.not_eq_false'] at v3 v4
    by_cases hc : j' < i'
    · simp only [if_pos hc]
      refine ⟨j', d, rfl, RangePerm.refl _ _ _, by omega, by omega, ?_, ?_⟩
      · intro k h1 h2
        by_cases hk : k < i
        · exact hL k h1 hk
        · exact u3 k (by omega) (by omega)
      · intro k h1 h2
        by_cases hk : k ≤ j
        · exact v3 k h1 hk
        · exact hR k (by omega) h2
    · simp only [if_neg hc]
      have w1 : less (elem d i') (elem d a) = false := u4 (by omega)
      have w2 : less (elem d j') (elem d a) = true := v4 (by omega)
      have hne : i' ≠ j' := by
        intro e
        rw [e, w2] at w1
        cases w1
      have e : ∀ k, elem (Swap d i' j') k =
          if k = j' then elem d i' else if k = i' then elem d j' else elem d k :=
        fun k => elem_Swap d i' j' k (by omega) (by omega)
      have ea : elem (Swap d i' j') a = elem d a := by
        rw [e, if_neg (by omega), if_neg (by omega)]
      obtain ⟨j'', d'', r1, r2, r3, r4, r5, r6⟩ := ih (i' + 1) (j' - 1) (Swap d i' j')
        (by omega) (by omega) (by omega) (by rw [length_Swap]; exact hb) (by omega)
        (by
          intro k h1 h2
          rw [ea, e, if_neg (by omega)]
          by_cases hk : k = i'
          · rw [if_pos hk]; exact w2
          · rw [if_neg hk]
            by_cases hk' : k < i
            · exact hL k h1 hk'
            · exact u3 k (by omega) (by omega))
        (by
          intro k h1 h2
          rw [ea, e]
          by_cases hk : k = j'
          · rw [if_pos hk]; exact w1
          · rw [if_neg hk, if_neg (by omega)]
            by_cases hk' : k ≤ j
            · exact v3 k (by omega) hk'
            · exact hR k (by omega) h2)
      refine ⟨j'', d'', r1, ?_, r3, r4, r5, r6⟩
      exact (RangePerm.swap (a + 1) b d i' j' ⟨by omega, by omega⟩ ⟨by omega, by omega⟩
        hb).trans r2

/-- Go `partition_func` is the pivot swap, the loop of `partitionLoop` from the two ends,
and the swap that puts the pivot in its place. -/
theorem partition_func_eq (less : α → α → Bool) (d : List α) (a b pivot : Nat) :
    (partition_func less d a b pivot).map (fun r => (r.1, r.2.1)) =
      (partitionLoop less a (b - a + 1) (a + 1) (b - 1) (Swap d a pivot)).map
        (fun r => (Swap r.2 r.1 a, r.1)) := by
  rw [partition_func, partitionLoop]
  simp only
  split_ifs with h
  · rfl
  · cases partitionLoop less a (b - a) _ _ _ with
    | none => rfl
    | some r => rfl

/-- Go `partition_func`: it returns, permutes `data[a:b]`, and the elements before the new
pivot index are less than the pivot, those after it are not. -/
theorem partition_spec (less : α → α → Bool) (d : List α) (a b pivot : Nat)
    (hp : a ≤ pivot ∧ pivot < b) (hb : b ≤ d.length) :
    ∃ d' mid flag, partition_func less d a b pivot = some (d', mid, flag) ∧
      RangePerm a b d d' ∧ a ≤ mid ∧ mid < b ∧
      (∀ k, a ≤ k → k < mid → less (elem d' k) (elem d' mid) = true) ∧
      (∀ k, mid < k → k < b → less (elem d' k) (elem d' mid) = false) := by
  have h0 : RangePerm a b d (Swap d a pivot) :=
    RangePerm.swap a b d a pivot ⟨le_refl _, by omega⟩ hp hb
  obtain ⟨j, dl, r1, r2, r3, r4, r5, r6⟩ := partitionLoop_spec less a b (b - a + 1) (a + 1)
    (b - 1) (Swap d a pivot) (le_refl _) (by omega) (by omega)
    (by rw [length_Swap]; exact hb) (by omega) (fun k h1 h2 => by omega)
    (fun k h1 h2 => by omega)
  have heq := partition_func_eq less d a b pivot
  rw [r1] at heq
  cases hpf : partition_func less d a b pivot with
  | none => rw [hpf] at heq; cases heq
  | some r =>
    obtain ⟨d', mid, flag⟩ := r
    rw [hpf] at heq
    simp only [Option.map_some', Option.some.injEq, Prod.mk.injEq] at heq
    obtain ⟨hd', hmid⟩ := heq
    have hl : dl.length = d.length := by rw [r2.length_eq, length_Swap]
    have e : ∀ k, elem (Swap dl j a) k =
        if k = a then elem dl j else if k = j then elem dl a else elem dl k :=
      fun k => elem_Swap dl j a k (by omega) (by omega)
    refine ⟨Swap dl j a, j, flag, by rw [hd', hmid], ?_, r3, r4, ?_, ?_⟩
    · exact h0.trans ((r2.mono (by omega) (le_refl _)).trans
        (RangePerm.swap a b dl j a ⟨r3, r4⟩ ⟨le_refl _, by omega⟩ (by omega)))
    · intro k h1 h2
      have hj : elem (Swap dl j a) j = elem dl a := by
        rw [e]
        by_cases c : j = a
        · rw [if_pos c, c]
        · rw [if_neg c, if_pos rfl]
      rw [hj, e]
      by_cases hk : k = a
      · rw [if_pos hk]
        exact r5 j (by omega) (le_refl _)
      · rw [if_neg hk, if_neg (by omega)]
        exact r5 k (by omega) (by omega)
    · intro k h1 h2
      have hj : elem (Swap dl j a) j = elem dl a := by
        rw [e]
        by_cases c : j = a
        · rw [if_pos c, c]
        · rw [if_neg c, if_pos rfl]
      rw [hj, e, if_neg (by omega), if_neg (by omega)]
      exact r6 k h1 h2

/-- The loop of `partitionEqual_func`: it ends, permutes `data[a+1:b]`, and leaves the
elements not greater than the pivot `data[a]` before `i` and the greater ones from `i`. -/
theorem partitionEqualLoop_spec (less : α → α → Bool) (a b : Nat) :
    ∀ (fuel i j : Nat) (d : List α), a + 1 ≤ i → i ≤ j + 1 → j < b → b ≤ d.length →
      j + 1 - i < fuel →
      (∀ k, a + 1 ≤ k → k < i → less (elem d a) (elem d k) = false) →
      (∀ k, j < k → k < b → less (elem d a) (elem d k) = true) →
      ∃ i' d', partitionEqualLoop less a fuel i j d = some (i', d') ∧
        RangePerm (a + 1) b d d' ∧ a + 1 ≤ i' ∧ i' ≤ b ∧
        (∀ k, a + 1 ≤ k → k < i' → less (elem d' a) (elem d' k) = false) ∧
        (∀ k, i' ≤ k → k < b → less (elem d' a) (elem d' k) = true) := by
  intro fuel
  induction fuel with
  | zero => intro i j d _ _ _ _ h; omega
  | succ fuel ih =>
    intro i j d hi hij hj hb hf hL hR
    rw [partitionEqualLoop]
    obtain ⟨u1, u2, u3, u4⟩ := scanUp_spec (fun k => !less (elem d a) (elem d k)) (j + 1)
      (j + 1 - i) i (by omega)
    generalize scanUp (fun k => !less (elem d a) (elem d k)) (j + 1)
      (List.range' i (j + 1 - i)) = i' at u1 u2 u3 u4
    obtain ⟨v1, v2, v3, v4⟩ := scanDown_spec (fun k => less (elem d a) (elem d k)) i'
      (by omega) j u2
    generalize scanDown (fun k => less (elem d a) (elem d k)) i' j = j' at v1 v2 v3 v4
    simp only [Bool.not_eq_true', Bool.not_eq_false'] at u3 u4
    by_cases hc : j' < i'
    · simp only [if_pos hc]
      refine ⟨i', d, rfl, RangePerm.refl _ _ _, by omega, by omega, ?_, ?_⟩
      · intro k h1 h2
        by_cases hk : k < i
        · exact hL k h1 hk
        · exact u3 k (by omega) (by omega)
      · intro k h1 h2
        by_cases hk : k ≤ j
        · exact v3 k (by omega) hk
        · exact hR k (by omega) h2
    · simp only [if_neg hc]
      have w1 : less (elem d a) (elem d i') = true := u4 (by omega)
      have w2 : less (elem d a) (elem d j') = false := v4 (by omega)
      have hne : i' ≠ j' := by
        intro e
        rw [e, w2] at w1
        cases w1
      have e : ∀ k, elem (Swap d i' j') k =
          if k = j' then elem d i' else if k = i' then elem d j' else elem d k :=
        fun k => elem_Swap d i' j' k (by omega) (by omega)
      have ea : elem (Swap d i' j') a = elem d a := by
        rw [e, if_neg (by omega), if_neg (by omega)]
      obtain ⟨j'', d'', r1, r2, r3, r4, r5, r6⟩ := ih (i' + 1) (j' - 1) (Swap d i' j')
        (by omega) (by omega) (by omega) (by rw [length_Swap]; exact hb) (by omega)
        (by
          intro k h1 h2
          rw [ea, e, if_neg (by omega)]
          by_cases hk : k = i'
          · rw [if_pos hk]; exact w2
          · rw [if_neg hk]
            by_cases hk' : k < i
            · exact hL k h1 hk'
            · exact u3 k (by omega) (by omega))
        (by
          intro k h1 h2
          rw [ea, e]
          by_cases hk : k = j'
          · rw [if_pos hk]; exact w1
          · rw [if_neg hk, if_neg (by omega)]
            by_cases hk' : k ≤ j
            · exact v3 k (by omega) hk'
            · exact hR k (by omega) h2)
      refine ⟨j'', d'', r1, ?_, r3, r4, r5, r6⟩
      exact (RangePerm.swap (a + 1) b d i' j' ⟨by omega, by omega⟩ ⟨by omega, by omega⟩
        hb).trans r2

/-- Go `partitionEqual_func`: it returns, permutes `data[a:b]`, keeps the pivot at `a`, and
the elements before the returned index are not greater than the pivot, those from it on
are. -/
theorem partitionEqual_spec (less : α → α → Bool) (S : α → Prop) (hW : StrictWeak less S)
    (d : List α) (a b pivot : Nat) (hp : a ≤ pivot ∧ pivot < b) (hb : b ≤ d.length)
    (hS : AllIn S d d.length) :
    ∃ d' mid, partitionEqual_func less d a b pivot = some (d', mid) ∧
      RangePerm a b d d' ∧ a + 1 ≤ mid ∧ mid ≤ b ∧ elem d' a = elem d pivot ∧
      (∀ k, a ≤ k → k < mid → less (elem d' a) (elem d' k) = false) ∧
      (∀ k, mid ≤ k → k < b → less (elem d' a) (elem d' k) = true) := by
  have h0 : RangePerm a b d (Swap d a pivot) :=
    RangePerm.swap a b d a pivot ⟨le_refl _, by omega⟩ hp hb
  obtain ⟨i, dl, r1, r2, r3, r4, r5, r6⟩ := partitionEqualLoop_spec less a b (b - a + 1)
    (a + 1) (b - 1) (Swap d a pivot) (le_refl _) (by omega) (by omega)
    (by rw [length_Swap]; exact hb) (by omega) (fun k h1 h2 => by omega)
    (fun k h1 h2 => by omega)
  have hperm : RangePerm a b d dl := h0.trans (r2.mono (by omega) (le_refl _))
  have ea : elem dl a = elem d pivot := by
    rw [r2.outside a (by omega), elem_Swap d a pivot a (by omega) (by omega)]
    by_cases c : a = pivot
    · rw [if_pos c, c]
    · rw [if_neg c, if_pos rfl]
  refine ⟨dl, i, ?_, hperm, r3, r4, ea, ?_, r6⟩
  · rw [partitionEqual_func]
    simp only [r1]
  · intro k h1 h2
    by_cases hk : k = a
    · rw [hk]
      have hS' : AllIn S dl d.length := hS.of_rangePerm hperm hb
      exact hW.irrefl _ (hS' a (by omega))
    · exact r5 k (by omega) h2

/-! ## The sort: heap sort -/

/-- Go `siftDown_func`: when every node but `root` is in heap order and the parent of
`root` is not less than the children of `root`, it ends and leaves every node in heap
order, moving elements from `root` on only. -/
theorem siftDown_spec (less : α → α → Bool) (S : α → Prop) (hW : StrictWeak less S)
    (hi first lo : Nat) :
    ∀ (fuel root : Nat) (d : List α), first + hi ≤ d.length → AllIn S d d.length →
      lo ≤ root → root ≤ hi → hi < fuel + root →
      (∀ r, lo ≤ r → r < hi → r ≠ root → HeapNode less d first hi r) →
      (∀ p, lo ≤ p → (root = 2 * p + 1 ∨ root = 2 * p + 2) →
        ∀ c, (c = 2 * root + 1 ∨ c = 2 * root + 2) → c < hi →
          less (elem d (first + p)) (elem d (first + c)) = false) →
      ∃ d', siftDown_func less hi first fuel root d = some d' ∧
        RangePerm (first + root) (first + hi) d d' ∧
        ∀ r, lo ≤ r → r < hi → HeapNode less d' first hi r := by
  intro fuel
  induction fuel with
  | zero =>
    intro root d _ _ _ h1 h2 _ _
    omega
  | succ fuel ih =>
    intro root d hn hS hlo hrh hf hH hG
    rw [siftDown_func]
    simp only
    by_cases h1 : hi ≤ 2 * root + 1
    · rw [if_pos h1]
      refine ⟨d, rfl, RangePerm.refl _ _ _, ?_⟩
      intro r hr1 hr2
      by_cases hr : r = root
      · subst hr
        intro c hc hc'
        omega
      · exact hH r hr1 hr2 hr
    · rw [if_neg h1]
      -- the larger child
      have hbig : ∃ c, (c = 2 * root + 1 ∨ c = 2 * root + 2) ∧ c < hi ∧
          (if 2 * root + 1 + 1 < hi ∧
              less (elem d (first + (2 * root + 1))) (elem d (first + (2 * root + 1) + 1)) = true
            then 2 * root + 1 + 1 else 2 * root + 1) = c ∧
          ∀ c', (c' = 2 * root + 1 ∨ c' = 2 * root + 2) → c' < hi →
            less (elem d (first + c)) (elem d (first + c')) = false := by
        by_cases hc : 2 * root + 1 + 1 < hi ∧
            less (elem d (first + (2 * root + 1))) (elem d (first + (2 * root + 1) + 1)) = true
        · refine ⟨2 * root + 2, Or.inr rfl, by omega, by rw [if_pos hc], ?_⟩
          intro c' hc' hlt
          rcases hc' with e | e
          · subst e
            exact hW.asymm _ _ (hS _ (by omega)) (hS _ (by omega)) hc.2
          · subst e
            exact hW.irrefl _ (hS _ (by omega))
        · refine ⟨2 * root + 1, Or.inl rfl, by omega, by rw [if_neg hc], ?_⟩
          intro c' hc' hlt
          rcases hc' with e | e
          · subst e
            exact hW.irrefl _ (hS _ (by omega))
          · subst e
            cases hl : less (elem d (first + (2 * root + 1)))
                (elem d (first + (2 * root + 2))) with
            | false => rfl
            | true => exact absurd ⟨by omega, hl⟩ hc
      obtain ⟨c, hc, hclt, hceq, hcmax⟩ := hbig
      rw [hceq]
      by_cases h2 : less (elem d (first + root)) (elem d (first + c)) = true
      · -- swap and go down
        have hnot : ¬ ((!less (elem d (first + root)) (elem d (first + c))) = true) := by
          simp [h2]
        rw [if_neg hnot]
        have hrc : root < c := by omega
        have e : ∀ k, elem (Swap d (first + root) (first + c)) k =
            if k = first + c then elem d (first + root)
            else if k = first + root then elem d (first + c) else elem d k :=
          fun k => elem_Swap d (first + root) (first + c) k (by omega) (by omega)
        have e_c : elem (Swap d (first + root) (first + c)) (first + c) =
            elem d (first + root) := by rw [e, if_pos rfl]
        have e_r : elem (Swap d (first + root) (first + c)) (first + root) =
            elem d (first + c) := by rw [e, if_neg (by omega), if_pos rfl]
        have e_o : ∀ k, k ≠ root → k ≠ c →
            elem (Swap d (first + root) (first + c)) (first + k) = elem d (first + k) := by
          intro k k1 k2
          rw [e, if_neg (by omega), if_neg (by omega)]
        have hp : RangePerm (first + root) (first + hi) d
            (Swap d (first + root) (first + c)) :=
          RangePerm.swap _ _ d _ _ ⟨le_refl _, by omega⟩ ⟨by omega, by omega⟩ hn
        have hS' : AllIn S (Swap d (first + root) (first + c))
            (Swap d (first + root) (first + c)).length := by
          rw [length_Swap]
          exact hS.of_rangePerm hp hn
        obtain ⟨d', r1, r2, r3⟩ := ih c (Swap d (first + root) (first + c))
          (by rw [length_Swap]; exact hn) hS' (by omega) (by omega) (by omega)
          (by
            intro r hr1 hr2 hr3 x hx hxlt
            by_cases hrr : r = root
            · subst hrr
              rw [e_r]
              by_cases hxc : x = c
              · subst hxc
                rw [e_c]
                exact hW.asymm _ _ (hS _ (by omega)) (hS _ (by omega)) h2
              · rw [e_o x (by omega) hxc]
                exact hcmax x hx hxlt
            · rw [e_o r hrr hr3]
              by_cases hxr : x = root
              · subst hxr
                rw [e_r]
                exact hG r hr1 (by omega) c hc hclt
              · rw [e_o x hxr (by omega)]
                exact hH r hr1 hr2 hrr x hx hxlt)
          (by
            intro p hp1 hp2 x hx hxlt
            have : p = root := by omega
            subst this
            rw [e_r, e_o x (by omega) (by omega)]
            exact hH c (by omega) hclt (by omega) x hx hxlt)
        exact ⟨d', r1, hp.trans (r2.mono (by omega) (le_refl _)), r3⟩
      · have h2' : less (elem d (first + root)) (elem d (first + c)) = false := by
          simpa using h2
        have hyes : (!less (elem d (first + root)) (elem d (first + c))) = true := by
          simp [h2']
        rw [if_pos hyes]
        refine ⟨d, rfl, RangePerm.refl _ _ _, ?_⟩
        intro r hr1 hr2
        by_cases hr : r = root
        · subst hr
          intro x hx hxlt
          exact hW.trans _ _ _ (hS _ (by omega)) (hS _ (by omega)) (hS _ (by omega))
            (hcmax x hx hxlt) h2'
        · exact hH r hr1 hr2 hr
/-- A loop over the indices `m-1, ..., 1, 0` whose body may fail keeps an invariant. -/
theorem foldlM_range_reverse {β : Type} (f : β → Nat → Option β) (P : Nat → β → Prop) :
    ∀ (m : Nat) (x : β), P m x →
      (∀ i y, i < m → P (i + 1) y → ∃ y', f y i = some y' ∧ P i y') →
      ∃ y, (List.range m).reverse.foldlM f x = some y ∧ P 0 y := by
  intro m
  induction m with
  | zero => intro x h _; exact ⟨x, rfl, h⟩
  | succ m ih =>
    intro x h hstep
    obtain ⟨y', h1, h2⟩ := hstep m x (by omega) h
    obtain ⟨y, h3, h4⟩ := ih y' h2 (fun i y hi hp => hstep i y (by omega) hp)
    refine ⟨y, ?_, h4⟩
    rw [List.range_succ, List.reverse_append, List.reverse_singleton, List.singleton_append,
      List.foldlM_cons, h1]
    exact h3

/-- The root of a heap is not less than any of its nodes. -/
theorem heap_root_max (less : α → α → Bool) (S : α → Prop) (hW : StrictWeak less S)
    (d : List α) (first hi : Nat) (hn : first + hi ≤ d.length) (hS : AllIn S d d.length)
    (hH : ∀ r, r < hi → HeapNode less d first hi r) :
    ∀ r, r < hi → less (elem d first) (elem d (first + r)) = false := by
  intro r
  induction r using Nat.strong_induction_on with
  | _ r ih =>
    intro hr
    by_cases h0 : r = 0
    · subst h0
      exact hW.irrefl _ (hS _ (by omega))
    · have hp := ih ((r - 1) / 2) (by omega) (by omega)
      have hc := hH ((r - 1) / 2) (by omega) r (by omega) hr
      exact hW.trans _ _ _ (hS _ (by omega)) (hS _ (by omega)) (hS _ (by omega)) hc hp

/-- Go `heapSort_func`: it returns, sorts `data[a:b]` and only permutes that range. -/
theorem heapSort_spec (less : α → α → Bool) (S : α → Prop) (hW : StrictWeak less S)
    (d : List α) (a b : Nat) (hab : a ≤ b) (hb : b ≤ d.length) (hS : AllIn S d d.length) :
    ∃ d', heapSort_func less d a b = some d' ∧ RangePerm a b d d' ∧ SortedOn less d' a b := by
  rw [heapSort_func]
  -- building the heap
  obtain ⟨d1, e1, p1, H1⟩ := foldlM_range_reverse
    (fun data i => siftDown_func less (b - a) a (b - a + 1) i data)
    (fun i d' => RangePerm a b d d' ∧ ∀ r, i ≤ r → r < b - a → HeapNode less d' a (b - a) r)
    ((b - a - 1) / 2 + 1) d
    ⟨RangePerm.refl _ _ _, fun r h1 h2 c hc hlt => by omega⟩
    (by
      intro i y hi ⟨hp, hH⟩
      have hl : y.length = d.length := hp.length_eq
      obtain ⟨d', r1, r2, r3⟩ := siftDown_spec less S hW (b - a) a i (b - a + 1) i y
        (by omega) (by rw [hl]; exact hS.of_rangePerm hp hb) (le_refl _) (by omega) (by omega)
        (fun r h1 h2 h3 => hH r (by omega) h2) (fun p h1 h2 => by omega)
      exact ⟨d', r1, hp.trans (r2.mono (by omega) (by omega)), r3⟩)
  rw [e1]
  -- popping the elements
  obtain ⟨d2, e2, p2, -, H2, -⟩ := foldlM_range_reverse
    (fun data i => siftDown_func less i a (b - a + 1) 0 (Swap data a (a + i)))
    (fun s d' => RangePerm a b d d' ∧ (∀ r, r < s → HeapNode less d' a s r) ∧
      SortedOn less d' (a + s) b ∧
      ∀ x y, a ≤ x → x < a + s → a + s ≤ y → y < b → less (elem d' y) (elem d' x) = false)
    (b - a) d1
    ⟨p1, fun r hr => H1 r (by omega) hr, fun x y h1 h2 h3 => by omega,
      fun x y h1 h2 h3 h4 => by omega⟩
    (by
      intro i y hi ⟨hp, hH, hsorted, hcross⟩
      have hl : y.length = d.length := hp.length_eq
      have hSy : AllIn S y y.length := by rw [hl]; exact hS.of_rangePerm hp hb
      have hmax := heap_root_max less S hW y a (i + 1) (by omega) hSy hH
      have e : ∀ k, elem (Swap y a (a + i)) k =
          if k = a + i then elem y a else if k = a then elem y (a + i) else elem y k :=
        fun k => elem_Swap y a (a + i) k (by omega) (by omega)
      have hps : RangePerm a b y (Swap y a (a + i)) :=
        RangePerm.swap a b y a (a + i) ⟨le_refl _, by omega⟩ ⟨by omega, by omega⟩ (by omega)
      have hSs : AllIn S (Swap y a (a + i)) (Swap y a (a + i)).length := by
        rw [length_Swap]
        exact hSy.of_rangePerm hps (by omega)
      obtain ⟨d', r1, r2, r3⟩ := siftDown_spec less S hW i a 0 (b - a + 1) 0
        (Swap y a (a + i)) (by rw [length_Swap]; omega) hSs (le_refl _) (by omega) (by omega)
        (by
          intro r _ h2 h3 c hc hclt
          rw [e, e, if_neg (by omega), if_neg (by omega), if_neg (by omega), if_neg (by omega)]
          exact hH r (by omega) c hc (by omega))
        (fun p _ h2 => by omega)
      refine ⟨d', r1, hp.trans (hps.trans (r2.mono (by omega) (by omega))),
        fun r hr => r3 r (Nat.zero_le _) hr, ?_, ?_⟩
      · intro x z hx hxz hz
        rw [r2.outside x (by omega), r2.outside z (by omega), e z, if_neg (by omega),
          if_neg (by omega), e x]
        by_cases hxi : x = a + i
        · rw [if_pos hxi]
          exact hcross a z (le_refl _) (by omega) (by omega) hz
        · rw [if_neg hxi, if_neg (by omega)]
          exact hsorted x z (by omega) hxz hz
      · intro x z hx hxi hz hzb
        rw [r2.outside z (by omega)]
        obtain ⟨x', hx', ex⟩ := r2.inside x ⟨by omega, by omega⟩
        have ez : elem (Swap y a (a + i)) z = if z = a + i then elem y a else elem y z := by
          rw [e z]
          by_cases c : z = a + i
          · rw [if_pos c, if_pos c]
          · rw [if_neg c, if_neg c, if_neg (by omega)]
        have ex' : elem (Swap y a (a + i)) x' =
            if x' = a then elem y (a + i) else elem y x' := by
          rw [e x', if_neg (by omega)]
        rw [ex, ez, ex']
        by_cases hzi : z = a + i
        · rw [if_pos hzi]
          by_cases hxa : x' = a
          · rw [if_pos hxa]
            exact hmax i (by omega)
          · rw [if_neg hxa]
            have := hmax (x' - a) (by omega)
            rw [show a + (x' - a) = x' by omega] at this
            exact this
        · rw [if_neg hzi]
          by_cases hxa : x' = a
          · rw [if_pos hxa]
            exact hcross (a + i) z (by omega) (by omega) (by omega) hzb
          · rw [if_neg hxa]
            exact hcross x' z (by omega) (by omega) (by omega) hzb)
  refine ⟨d2, e2, p2, ?_⟩
  simpa using H2

/-! ## The sort: pattern breaking, reversal and pivot choice -/

theorem bitLenAux_le : ∀ (fuel n : Nat), n ≤ fuel → 0 < n →
    2 ^ F64.bitLenAux fuel n ≤ 2 * n := by
  intro fuel
  induction fuel with
  | zero => intro n h1 h2; omega
  | succ fuel ih =>
    intro n h1 h2
    rw [F64.bitLenAux, if_neg (by omega)]
    by_cases h : n / 2 = 0
    · have : F64.bitLenAux fuel (n / 2) = 0 := by
        rw [h]
        cases fuel <;> simp [F64.bitLenAux]
      rw [this]
      omega
    · have := ih (n / 2) (by omega) (by omega)
      rw [pow_add, pow_one]
      omega

theorem bitLen_le (n : Nat) (h : 0 < n) : 2 ^ F64.bitLen n ≤ 2 * n :=
  bitLenAux_le n n (le_refl _) h

/-- The index `breakPatterns_func` draws is within the slice. -/
theorem breakPatterns_other (length random : Nat) (h : 0 < length) :
    (if length ≤ random &&& (1 <<< F64.bitLen length - 1)
      then (random &&& (1 <<< F64.bitLen length - 1)) - length
      else random &&& (1 <<< F64.bitLen length - 1)) < length := by
  have h1 : random &&& (1 <<< F64.bitLen length - 1) ≤ 1 <<< F64.bitLen length - 1 :=
    Nat.and_le_right
  have h2 : 1 <<< F64.bitLen length ≤ 2 * length := by
    rw [Nat.one_shiftLeft]
    exact bitLen_le length h
  split_ifs <;> omega

/-- Go `breakPatterns_func` only permutes `data[a:b]`. -/
theorem breakPatterns_spec (next : Nat → Nat) (d : List α) (a b : Nat) (hb : b ≤ d.length) :
    RangePerm a b d (breakPatterns_func next d a b) := by
  rw [breakPatterns_func]
  simp only
  by_cases h8 : 8 ≤ b - a
  · rw [if_pos h8]
    simp only [List.foldl_cons, List.foldl_nil]
    have ho := fun r => breakPatterns_other (b - a) r (by omega)
    have step : ∀ (d' : List α) (i r : Nat), i ≤ 2 → RangePerm a b d d' →
        RangePerm a b d (Swap d' (a + (b - a) / 4 * 2 - 1 + i)
          (a + if b - a ≤ r &&& (1 <<< F64.bitLen (b - a) - 1)
            then (r &&& (1 <<< F64.bitLen (b - a) - 1)) - (b - a)
            else r &&& (1 <<< F64.bitLen (b - a) - 1))) := by
      intro d' i r hi hp
      have := ho r
      exact hp.trans (RangePerm.swap a b d' _ _ ⟨by omega, by omega⟩ ⟨by omega, by omega⟩
        (by rw [hp.length_eq]; exact hb))
    exact step _ 2 _ (le_refl _) (step _ 1 _ (by omega) (step _ 0 _ (by omega)
      (RangePerm.refl _ _ _)))
  · rw [if_neg h8]
    exact RangePerm.refl _ _ _

/-- Go `reverseRange_func` only permutes `data[a:b]`. -/
theorem reverseRange_spec (d : List α) (a b : Nat) (hb : b ≤ d.length) :
    RangePerm a b d (reverseRange_func d a b) := by
  rw [reverseRange_func]
  by_cases hab : a < b
  · have key := foldl_range'_invariant
      (fun (st : List α × Nat) i => if i < st.2 then (Swap st.1 i st.2, st.2 - 1) else st)
      (fun _ st => RangePerm a b d st.1 ∧ st.2 < b) (b - a) a (d, b - 1)
      ⟨RangePerm.refl _ _ _, by simp only; omega⟩
      (by
        intro i st h1 h2 ⟨hp, hj⟩
        dsimp only
        by_cases hc : i < st.2
        · rw [if_pos hc]
          refine ⟨hp.trans (RangePerm.swap a b st.1 _ _ ⟨by omega, by omega⟩
            ⟨by omega, by omega⟩ (by rw [hp.length_eq]; exact hb)), ?_⟩
          simp only
          omega
        · rw [if_neg hc]
          exact ⟨hp, hj⟩)
    exact key.1
  · have : b - a = 0 := by omega
    rw [this]
    exact RangePerm.refl _ _ _

theorem order2_mem (less : α → α → Bool) (d : List α) (x y s : Nat) :
    ((order2_func less d x y s).1 = x ∧ (order2_func less d x y s).2.1 = y) ∨
      ((order2_func less d x y s).1 = y ∧ (order2_func less d x y s).2.1 = x) := by
  rw [order2_func]
  split_ifs
  · exact Or.inr ⟨rfl, rfl⟩
  · exact Or.inl ⟨rfl, rfl⟩

theorem median_mem (less : α → α → Bool) (d : List α) (x y z s : Nat) :
    (median_func less d x y z s).1 = x ∨ (median_func less d x y z s).1 = y ∨
      (median_func less d x y z s).1 = z := by
  simp only [median_func, order2_func]
  split_ifs <;> simp

theorem median_range (less : α → α → Bool) (d : List α) (a b x y z s : Nat)
    (hx : a ≤ x ∧ x < b) (hy : a ≤ y ∧ y < b) (hz : a ≤ z ∧ z < b) :
    a ≤ (median_func less d x y z s).1 ∧ (median_func less d x y z s).1 < b := by
  rcases median_mem less d x y z s with e | e | e <;> rw [e] <;> assumption

/-- The pivot `choosePivot_func` returns is an index of `data[a:b]`. -/
theorem choosePivot_range (less : α → α → Bool) (d : List α) (a b : Nat) (h : 12 < b - a) :
    a ≤ (choosePivot_func less d a b).1 ∧ (choosePivot_func less d a b).1 < b := by
  have key : ∀ (j s : Nat), (a ≤ j ∧ j < b) →
      a ≤ (if s = 0 then (j, sortedHint.increasingHint)
          else if s = 12 then (j, sortedHint.decreasingHint)
          else (j, sortedHint.unknownHint)).1 ∧
        (if s = 0 then (j, sortedHint.increasingHint)
          else if s = 12 then (j, sortedHint.decreasingHint)
          else (j, sortedHint.unknownHint)).1 < b := by
    intro j s h1
    split_ifs <;> exact h1
  rw [choosePivot_func]
  simp only [show 8 ≤ b - a from by omega, if_true]
  apply key
  by_cases h50 : 50 ≤ b - a
  · simp only [if_pos h50, medianAdjacent_func]
    apply median_range
    · exact median_range less d a b _ _ _ _ ⟨by omega, by omega⟩ ⟨by omega, by omega⟩
        ⟨by omega, by omega⟩
    · exact median_range less d a b _ _ _ _ ⟨by omega, by omega⟩ ⟨by omega, by omega⟩
        ⟨by omega, by omega⟩
    · exact median_range less d a b _ _ _ _ ⟨by omega, by omega⟩ ⟨by omega, by omega⟩
        ⟨by omega, by omega⟩
  · simp only [if_neg h50]
    exact median_range less d a b _ _ _ _ ⟨by omega, by omega⟩ ⟨by omega, by omega⟩
      ⟨by omega, by omega⟩

/-! ## The sort: the partial insertion sort -/

/-- A sorted range extends over the indices whose element is not less than the one
before. -/
theorem SortedOn.extend (less : α → α → Bool) (S : α → Prop) (hW : StrictWeak less S)
    (d : List α) (a i i' : Nat) (hS : AllIn S d d.length) (hi' : i' ≤ d.length) (hai : a < i)
    (hs : SortedOn less d a i)
    (hadj : ∀ k, i ≤ k → k < i' → less (elem d k) (elem d (k - 1)) = false) :
    SortedOn less d a i' := by
  intro x y
  induction y using Nat.strong_induction_on with
  | _ y ih =>
    intro hx hxy hy
    by_cases hyi : y < i
    · exact hs x y hx hxy hyi
    · have h1 := hadj y (by omega) hy
      by_cases hxy' : x = y - 1
      · rw [hxy']; exact h1
      · have h2 := ih (y - 1) (by omega) hx (by omega) (by omega)
        exact hW.trans _ _ _ (hS _ (by omega)) (hS _ (by omega)) (hS _ (by omega)) h2 h1

/-- Under the left bound the first shifting loop is the inner loop of the insertion
sort: it stops at `a`. -/
theorem shiftLeft_eq (less : α → α → Bool) (a top : Nat) :
    ∀ (j : Nat) (d : List α), a ≤ j → j ≤ top → top < d.length →
      (0 < a → ∀ k, a ≤ k → k ≤ top → less (elem d k) (elem d (a - 1)) = false) →
      shiftLeft less j d = insertionInner less a j d := by
  intro j
  induction j with
  | zero => intro d _ _ _ _; rfl
  | succ j ih =>
    intro d ha hj ht hL
    rw [shiftLeft, insertionInner]
    by_cases hc : less (elem d (j + 1)) (elem d j) = true
    · have h1 : ¬ ((!less (elem d (j + 1)) (elem d j)) = true) := by simp [hc]
      rw [if_neg h1]
      by_cases haj : a < j + 1
      · rw [if_pos ⟨haj, hc⟩]
        apply ih _ (by omega) (by omega) (by rw [length_Swap]; exact ht)
        intro ha0 k hk1 hk2
        have e : ∀ k, elem (Swap d (j + 1) j) k =
            if k = j then elem d (j + 1) else if k = j + 1 then elem d j else elem d k :=
          fun k => elem_Swap d (j + 1) j k (by omega) (by omega)
        rw [e (a - 1), if_neg (by omega), if_neg (by omega), e k]
        split_ifs
        · exact hL ha0 (j + 1) (by omega) (by omega)
        · exact hL ha0 j (by omega) (by omega)
        · exact hL ha0 k hk1 hk2
      · have : a = j + 1 := by omega
        subst this
        have := hL (by omega) (j + 1) (le_refl _) hj
        rw [show j + 1 - 1 = j from rfl, hc] at this
        cases this
    · have h1 : (!less (elem d (j + 1)) (elem d j)) = true := by simpa using hc
      rw [if_pos h1, if_neg (fun h => hc h.2)]

/-- The second shifting loop only permutes the elements from `s - 1` on. -/
theorem shiftRight_spec (less : α → α → Bool) :
    ∀ (m s : Nat) (d : List α), 1 ≤ s → s + m ≤ d.length →
      RangePerm (s - 1) (s + m) d (shiftRight less (List.range' s m) d) := by
  intro m
  induction m with
  | zero => intro s d _ _; exact RangePerm.refl _ _ _
  | succ m ih =>
    intro s d hs hn
    rw [List.range'_succ, shiftRight]
    split_ifs
    · exact RangePerm.refl _ _ _
    · have h1 : RangePerm (s - 1) (s + (m + 1)) d (Swap d s (s - 1)) :=
        RangePerm.swap _ _ d _ _ ⟨by omega, by omega⟩ ⟨by omega, by omega⟩ hn
      have h2 := ih (s + 1) (Swap d s (s - 1)) (by omega) (by rw [length_Swap]; omega)
      exact h1.trans (h2.mono (by omega) (by omega))

/-- The loop of `partialInsertionSort_func`: it only permutes `data[a:b]`, and when it
reports `true` the range is sorted. -/
theorem partialInsertionLoop_spec (less : α → α → Bool) (S : α → Prop)
    (hW : StrictWeak less S) (a b : Nat) :
    ∀ (steps i : Nat) (d : List α), a + 1 ≤ i → i ≤ b → b ≤ d.length →
      AllIn S d d.length → LeftBound less d a b → SortedOn less d a i →
      RangePerm a b d (partialInsertionLoop less a b steps i d).1 ∧
        ((partialInsertionLoop less a b steps i d).2 = true →
          SortedOn less (partialInsertionLoop less a b steps i d).1 a b) := by
  intro steps
  induction steps with
  | zero =>
    intro i d _ _ _ _ _ _
    exact ⟨RangePerm.refl _ _ _, fun h => by simp [partialInsertionLoop] at h⟩
  | succ steps ih =>
    intro i d hi hib hb hS hL hs
    rw [partialInsertionLoop]
    obtain ⟨u1, u2, u3, u4⟩ := scanUp_spec (fun k => !less (elem d k) (elem d (k - 1))) b
      (b - i) i (by omega)
    generalize scanUp (fun k => !less (elem d k) (elem d (k - 1))) b
      (List.range' i (b - i)) = i' at u1 u2 u3 u4
    simp only [Bool.not_eq_true', Bool.not_eq_false'] at u3 u4
    have hs' : SortedOn less d a i' :=
      SortedOn.extend less S hW d a i i' hS (by omega) (by omega) hs u3
    simp only
    by_cases h1 : i' = b
    · rw [if_pos h1]
      exact ⟨RangePerm.refl _ _ _, fun _ => h1 ▸ hs'⟩
    · rw [if_neg h1]
      by_cases h2 : b - a < 50
      · rw [if_pos h2]
        exact ⟨RangePerm.refl _ _ _, fun h => by simp at h⟩
      · rw [if_neg h2]
        -- the swap
        have e : ∀ k, elem (Swap d i' (i' - 1)) k =
            if k = i' - 1 then elem d i' else if k = i' then elem d (i' - 1) else elem d k :=
          fun k => elem_Swap d i' (i' - 1) k (by omega) (by omega)
        have p1 : RangePerm a b d (Swap d i' (i' - 1)) :=
          RangePerm.swap a b d _ _ ⟨by omega, by omega⟩ ⟨by omega, by omega⟩ hb
        have l1 : (Swap d i' (i' - 1)).length = d.length := length_Swap _ _ _
        have S1 : AllIn S (Swap d i' (i' - 1)) (Swap d i' (i' - 1)).length := by
          rw [l1]; exact hS.of_rangePerm p1 hb
        have L1 : LeftBound less (Swap d i' (i' - 1)) a b := hL.transport p1
        have s1 : SortedOn less (Swap d i' (i' - 1)) a (i' - 1) := by
          intro x y hx hxy hy
          rw [e x, e y, if_neg (by omega), if_neg (by omega), if_neg (by omega),
            if_neg (by omega)]
          exact hs' x y hx hxy (by omega)
        -- the shift to the left
        have hleft : ∃ d2, (if 2 ≤ i' - a then shiftLeft less (i' - 1) (Swap d i' (i' - 1))
            else Swap d i' (i' - 1)) = d2 ∧ RangePerm a i' (Swap d i' (i' - 1)) d2 ∧
            SortedOn less d2 a i' := by
          by_cases h3 : 2 ≤ i' - a
          · rw [if_pos h3, shiftLeft_eq less a (i' - 1) (i' - 1) _ (by omega) (le_refl _)
              (by omega) (fun ha k hk1 hk2 => L1 ha k hk1 (by omega))]
            have r := insertionInner_spec less S hW a (i' - 1) (i' - 1) (Swap d i' (i' - 1))
              (by omega) (le_refl _) (by omega) S1 s1 (fun x y h1 h2 h3 => by omega)
              (fun x y h1 h2 h3 h4 => by omega)
            rw [show i' - 1 + 1 = i' by omega] at r
            exact ⟨_, rfl, r.1, r.2⟩
          · rw [if_neg h3]
            exact ⟨_, rfl, RangePerm.refl _ _ _, fun x y h1 h2 h3 => by omega⟩
        obtain ⟨d2, e2, p2, s2⟩ := hleft
        rw [e2]
        have p12 : RangePerm a b d d2 := p1.trans (p2.mono (le_refl _) (by omega))
        have l2 : d2.length = d.length := p12.length_eq
        -- the shift to the right
        have hright : ∃ d3, (if 2 ≤ b - i' then
            shiftRight less (List.range' (i' + 1) (b - (i' + 1))) d2 else d2) = d3 ∧
            RangePerm i' b d2 d3 := by
          by_cases h3 : 2 ≤ b - i'
          · rw [if_pos h3]
            have r := shiftRight_spec less (b - (i' + 1)) (i' + 1) d2 (by omega) (by omega)
            rw [show i' + 1 - 1 = i' from rfl, show i' + 1 + (b - (i' + 1)) = b by omega] at r
            exact ⟨_, rfl, r⟩
          · rw [if_neg h3]
            exact ⟨_, rfl, RangePerm.refl _ _ _⟩
        obtain ⟨d3, e3, p3⟩ := hright
        rw [e3]
        have p13 : RangePerm a b d d3 := p12.trans (p3.mono (by omega) (le_refl _))
        have l3 : d3.length = d.length := p13.length_eq
        have s3 : SortedOn less d3 a i' := by
          intro x y hx hxy hy
          rw [p3.outside x (by omega), p3.outside y (by omega)]
          exact s2 x y hx hxy hy
        have r := ih i' d3 (by omega) (by omega) (by omega)
          (by rw [l3]; exact hS.of_rangePerm p13 hb) (hL.transport p13) s3
        exact ⟨p13.trans r.1, r.2⟩

/-- Go `partialInsertionSort_func` only permutes `data[a:b]`, and when it reports `true`
the range is sorted. -/
theorem partialInsertionSort_spec (less : α → α → Bool) (S : α → Prop)
    (hW : StrictWeak less S) (d : List α) (a b : Nat) (hab : a < b) (hb : b ≤ d.length)
    (hS : AllIn S d d.length) (hL : LeftBound less d a b) :
    RangePerm a b d (partialInsertionSort_func less d a b).1 ∧
      ((partialInsertionSort_func less d a b).2 = true →
        SortedOn less (partialInsertionSort_func less d a b).1 a b) :=
  partialInsertionLoop_spec less S hW a b 5 (a + 1) d (le_refl _) (by omega) hb hS hL
    (fun x y h1 h2 h3 => by omega)

/-! ## The sort: `pdqsort_func` -/

/-- An iteration of `pdqsort_func` up to the partitioning: the range is only permuted, the
pivot is an index of the range, and `sorted` tells the truth. -/
theorem pdqsortPrepare_spec (next : Nat → Nat) (less : α → α → Bool) (S : α → Prop)
    (hW : StrictWeak less S) (d : List α) (a b limit : Nat) (wB wP : Bool)
    (hab : 12 < b - a) (hb : b ≤ d.length) (hS : AllIn S d d.length)
    (hL : LeftBound less d a b) :
    RangePerm a b d (pdqsortPrepare next less d a b limit wB wP).data ∧
      a ≤ (pdqsortPrepare next less d a b limit wB wP).pivot ∧
      (pdqsortPrepare next less d a b limit wB wP).pivot < b ∧
      ((pdqsortPrepare next less d a b limit wB wP).sorted = true →
        SortedOn less (pdqsortPrepare next less d a b limit wB wP).data a b) := by
  rw [pdqsortPrepare]
  simp only
  -- breaking patterns
  have h1 : ∃ d1, (if (!wB) = true then breakPatterns_func next d a b else d) = d1 ∧
      RangePerm a b d d1 := by
    split_ifs
    · exact ⟨_, rfl, breakPatterns_spec next d a b hb⟩
    · exact ⟨_, rfl, RangePerm.refl _ _ _⟩
  obtain ⟨d1, e1, p1⟩ := h1
  rw [e1]
  have l1 : d1.length = d.length := p1.length_eq
  have hpiv := choosePivot_range less d1 a b hab
  generalize choosePivot_func less d1 a b = chosen at hpiv
  -- reversal
  have h2 : ∃ d2, (if decide (chosen.2 = sortedHint.decreasingHint) = true
      then reverseRange_func d1 a b else d1) = d2 ∧ RangePerm a b d1 d2 := by
    split_ifs
    · exact ⟨_, rfl, reverseRange_spec d1 a b (by omega)⟩
    · exact ⟨_, rfl, RangePerm.refl _ _ _⟩
  obtain ⟨d2, e2, p2⟩ := h2
  rw [e2]
  have p12 : RangePerm a b d d2 := p1.trans p2
  have l2 : d2.length = d.length := p12.length_eq
  have hpiv' : a ≤ (if decide (chosen.2 = sortedHint.decreasingHint) = true
      then b - 1 - (chosen.1 - a) else chosen.1) ∧
      (if decide (chosen.2 = sortedHint.decreasingHint) = true
      then b - 1 - (chosen.1 - a) else chosen.1) < b := by
    split_ifs <;> omega
  have ht : ∀ c : Bool,
      RangePerm a b d (if c = true then partialInsertionSort_func less d2 a b
        else (d2, false)).1 ∧
      ((if c = true then partialInsertionSort_func less d2 a b else (d2, false)).2 = true →
        SortedOn less (if c = true then partialInsertionSort_func less d2 a b
          else (d2, false)).1 a b) := by
    intro c
    have r := partialInsertionSort_spec less S hW d2 a b (by omega) (by omega)
      (by rw [l2]; exact hS.of_rangePerm p12 hb) (hL.transport p12)
    cases c
    · exact ⟨p12, fun h => by simp at h⟩
    · exact ⟨p12.trans r.1, r.2⟩
  exact ⟨(ht _).1, hpiv'.1, hpiv'.2, (ht _).2⟩

theorem SortedOn.congr {less : α → α → Bool} {d d' : List α} {a b : Nat}
    (h : SortedOn less d a b) (he : ∀ k, a ≤ k → k < b → elem d' k = elem d k) :
    SortedOn less d' a b := by
  intro x y hx hxy hy
  rw [he x hx (by omega), he y (by omega) hy]
  exact h x y hx hxy hy

/-- Two sorted parts around a pivot that separates them make a sorted range. -/
theorem SortedOn.around_pivot (less : α → α → Bool) (S : α → Prop) (hW : StrictWeak less S)
    (d2 d4 : List α) (a mid b : Nat) (ha : a ≤ mid) (hm : mid < b) (hb : b ≤ d2.length)
    (hS : AllIn S d2 d2.length)
    (hlo : ∀ k, a ≤ k → k < mid → less (elem d2 k) (elem d2 mid) = true)
    (hhi : ∀ k, mid < k → k < b → less (elem d2 k) (elem d2 mid) = false)
    (hleft : ∀ k, a ≤ k → k < mid → ∃ k', (a ≤ k' ∧ k' < mid) ∧ elem d4 k = elem d2 k')
    (hright : ∀ k, mid < k → k < b → ∃ k', (mid < k' ∧ k' < b) ∧ elem d4 k = elem d2 k')
    (hmid : elem d4 mid = elem d2 mid)
    (s1 : SortedOn less d4 a mid) (s2 : SortedOn less d4 (mid + 1) b) :
    SortedOn less d4 a b := by
  intro x y hx hxy hy
  by_cases c1 : y < mid
  · exact s1 x y hx hxy c1
  · by_cases c2 : mid < x
    · exact s2 x y (by omega) hxy hy
    · by_cases c3 : x = mid
      · subst c3
        obtain ⟨y', hy', ey⟩ := hright y (by omega) hy
        rw [hmid, ey]
        exact hhi y' hy'.1 hy'.2
      · obtain ⟨x', hx', ex⟩ := hleft x hx (by omega)
        have hxlt := hlo x' hx'.1 hx'.2
        by_cases c4 : y = mid
        · subst c4
          rw [hmid, ex]
          exact hW.asymm _ _ (hS _ (by omega)) (hS _ (by omega)) hxlt
        · obtain ⟨y', hy', ey⟩ := hright y (by omega) hy
          rw [ex, ey]
          have := hW.lt_of_lt_of_le _ _ _ (hS x' (by omega)) (hS mid (by omega))
            (hS y' (by omega)) hxlt (hhi y' hy'.1 hy'.2)
          exact hW.asymm _ _ (hS _ (by omega)) (hS _ (by omega)) this
/-- Go `pdqsort_func`: with enough fuel it returns, sorts `data[a:b]` and only permutes
that range, provided no element of the range is less than `data[a-1]`. -/
theorem pdqsort_spec (next : Nat → Nat) (less : α → α → Bool) (S : α → Prop)
    (hW : StrictWeak less S) :
    ∀ (fuel : Nat) (d : List α) (a b limit : Nat) (wB wP : Bool), a ≤ b → b ≤ d.length →
      b - a < fuel → AllIn S d d.length → LeftBound less d a b →
      ∃ d', pdqsort_func next less fuel d a b limit wB wP = some d' ∧
        RangePerm a b d d' ∧ SortedOn less d' a b := by
  intro fuel
  induction fuel with
  | zero => intro d a b limit wB wP _ _ h _ _; omega
  | succ fuel ih =>
    intro d a b limit wB wP hab hb hf hS hL
    rw [pdqsort_func]
    by_cases h12 : b - a ≤ 12
    · rw [if_pos h12]
      have r := insertionSort_spec less S hW d a b hb hS
      exact ⟨_, rfl, r.1, r.2⟩
    · rw [if_neg h12]
      by_cases hl0 : limit = 0
      · rw [if_pos hl0]
        exact heapSort_spec less S hW d a b hab hb hS
      · rw [if_neg hl0]
        obtain ⟨pst, hp1, hp2, hsorted⟩ := pdqsortPrepare_spec next less S hW d a b limit wB wP
          (by omega) hb hS hL
        generalize pdqsortPrepare next less d a b limit wB wP = st at pst hp1 hp2 hsorted
        simp only
        have lst : st.data.length = d.length := pst.length_eq
        have Sst : AllIn S st.data st.data.length := by
          rw [lst]; exact hS.of_rangePerm pst hb
        have Lst : LeftBound less st.data a b := hL.transport pst
        by_cases hs : st.sorted = true
        · rw [if_pos hs]
          exact ⟨_, rfl, pst, hsorted hs⟩
        · rw [if_neg hs]
          by_cases hc : 0 < a ∧ (!less (elem st.data (a - 1)) (elem st.data st.pivot)) = true
          · -- the pivot equals the element before the range
            rw [if_pos hc]
            have hc2 : less (elem st.data (a - 1)) (elem st.data st.pivot) = false := by
              simpa using hc.2
            obtain ⟨d2, mid, e2, p2, m1, m2, ea, hle, hgt⟩ := partitionEqual_spec less S hW
              st.data a b st.pivot ⟨hp1, hp2⟩ (by omega) Sst
            rw [e2]
            simp only [Option.bind_eq_bind, Option.some_bind]
            have l2 : d2.length = d.length := by rw [p2.length_eq, lst]
            have S2 : AllIn S d2 d2.length := by
              rw [l2]; exact hS.of_rangePerm (pst.trans p2) hb
            have S2' : ∀ k, k < d.length → S (elem d2 k) := fun k hk => S2 k (by omega)
            -- every element of the range is not less than the pivot
            have hge : ∀ k, a ≤ k → k < b → less (elem d2 k) (elem d2 a) = false := by
              intro k h1 h2
              obtain ⟨k', hk', ek⟩ := p2.inside k ⟨h1, h2⟩
              rw [ek, ea]
              have b1 := Lst hc.1 k' hk'.1 hk'.2
              exact hW.trans _ _ _ (Sst _ (by omega)) (Sst (a - 1) (by omega))
                (Sst k' (by omega)) hc2 b1
            have L2 : LeftBound less d2 mid b := by
              intro _ k h1 h2
              have c1 := hle (mid - 1) (by omega) (by omega)
              have c2 := hgt k h1 h2
              have := hW.lt_of_le_of_lt _ _ _ (S2' (mid - 1) (by omega)) (S2' a (by omega))
                (S2' k (by omega)) c1 c2
              exact hW.asymm _ _ (S2' _ (by omega)) (S2' _ (by omega)) this
            obtain ⟨d3, e3, p3, s3⟩ := ih d2 mid b st.limit wB wP m2 (by omega) (by omega)
              S2 L2
            refine ⟨d3, e3, pst.trans (p2.trans (p3.mono (by omega) (le_refl _))), ?_⟩
            intro x y hx hxy hy
            by_cases c1 : mid ≤ x
            · exact s3 x y c1 hxy hy
            · rw [p3.outside x (by omega)]
              have bx := hle x hx (by omega)
              by_cases c2 : y < mid
              · rw [p3.outside y (by omega)]
                exact hW.trans _ _ _ (S2' x (by omega)) (S2' a (by omega)) (S2' y (by omega))
                  bx (hge y (by omega) hy)
              · obtain ⟨y', hy', ey⟩ := p3.inside y ⟨by omega, hy⟩
                rw [ey]
                exact hW.trans _ _ _ (S2' x (by omega)) (S2' a (by omega)) (S2' y' (by omega))
                  bx (hge y' (by omega) hy'.2)
          · -- the partition around the pivot
            rw [if_neg hc]
            obtain ⟨d2, mid, flag, e2, p2, m1, m2, hlo, hhi⟩ := partition_spec less st.data a b
              st.pivot ⟨hp1, hp2⟩ (by omega)
            rw [e2]
            simp only [Option.bind_eq_bind, Option.some_bind]
            have p02 : RangePerm a b d d2 := pst.trans p2
            have l2 : d2.length = d.length := p02.length_eq
            have S2 : AllIn S d2 d2.length := by
              rw [l2]; exact hS.of_rangePerm p02 hb
            have L2 : LeftBound less d2 a mid := fun ha k h1 h2 =>
              (hL.transport p02) ha k h1 (by omega)
            have R2 : LeftBound less d2 (mid + 1) b := fun _ k h1 h2 => hhi k (by omega) h2
            by_cases hlr : mid - a < b - mid
            · rw [if_pos hlr]
              obtain ⟨d3, e3, p3, s3⟩ := ih d2 a mid st.limit true true m1 (by omega) (by omega)
                S2 L2
              rw [e3]
              simp only [Option.some_bind]
              have l3 : d3.length = d.length := by rw [p3.length_eq, l2]
              have S3 : AllIn S d3 d3.length := by
                rw [l3]
                exact hS.of_rangePerm (p02.trans (p3.mono (le_refl _) (by omega))) hb
              have R3 : LeftBound less d3 (mid + 1) b := by
                intro h0 k h1 h2
                rw [p3.outside k (by omega), p3.outside (mid + 1 - 1) (by omega)]
                exact R2 h0 k h1 h2
              obtain ⟨d4, e4, p4, s4⟩ := ih d3 (mid + 1) b st.limit
                (decide ((b - a) / 8 ≤ mid - a)) flag (by omega) (by omega) (by omega) S3 R3
              refine ⟨d4, e4, p02.trans ((p3.mono (le_refl _) (by omega)).trans
                (p4.mono (by omega) (le_refl _))), ?_⟩
              apply SortedOn.around_pivot less S hW d2 d4 a mid b m1 m2 (by omega) S2 hlo hhi
              · intro k h1 h2
                obtain ⟨k', hk', ek⟩ := p3.inside k ⟨h1, h2⟩
                exact ⟨k', hk', by rw [p4.outside k (by omega), ek]⟩
              · intro k h1 h2
                obtain ⟨k', hk', ek⟩ := p4.inside k ⟨by omega, h2⟩
                exact ⟨k', ⟨by omega, hk'.2⟩, by rw [ek, p3.outside k' (by omega)]⟩
              · rw [p4.outside mid (by omega), p3.outside mid (by omega)]
              · exact s3.congr (fun k h1 h2 => p4.outside k (by omega))
              · exact s4
            · rw [if_neg hlr]
              obtain ⟨d3, e3, p3, s3⟩ := ih d2 (mid + 1) b st.limit true true (by omega)
                (by omega) (by omega) S2 R2
              rw [e3]
              simp only [Option.some_bind]
              have l3 : d3.length = d.length := by rw [p3.length_eq, l2]
              have S3 : AllIn S d3 d3.length := by
                rw [l3]
                exact hS.of_rangePerm (p02.trans (p3.mono (by omega) (le_refl _))) hb
              have L3 : LeftBound less d3 a mid := by
                intro h0 k h1 h2
                rw [p3.outside k (by omega), p3.outside (a - 1) (by omega)]
                exact L2 h0 k h1 h2
              obtain ⟨d4, e4, p4, s4⟩ := ih d3 a mid st.limit
                (decide ((b - a) / 8 ≤ b - mid)) flag m1 (by omega) (by omega) S3 L3
              refine ⟨d4, e4, p02.trans ((p3.mono (by omega) (le_refl _)).trans
                (p4.mono (le_refl _) (by omega))), ?_⟩
              apply SortedOn.around_pivot less S hW d2 d4 a mid b m1 m2 (by omega) S2 hlo hhi
              · intro k h1 h2
                obtain ⟨k', hk', ek⟩ := p4.inside k ⟨h1, h2⟩
                exact ⟨k', hk', by rw [ek, p3.outside k' (by omega)]⟩
              · intro k h1 h2
                obtain ⟨k', hk', ek⟩ := p3.inside k ⟨by omega, h2⟩
                exact ⟨k', ⟨by omega, hk'.2⟩, by rw [p4.outside k (by omega), ek]⟩
              · rw [p4.outside mid (by omega), p3.outside mid (by omega)]
              · exact s4
              · exact s3.congr (fun k h1 h2 => p4.outside k (by omega))
end sort

namespace F64

theorem pow2_cast (k : Int) (hk : 0 ≤ k) : ((pow2 k : Nat) : ℚ) = (2 : ℚ) ^ k := by
  unfold pow2
  rw [Nat.one_shiftLeft]
  push_cast
  conv_rhs => rw [← Int.toNat_of_nonneg hk]
  rw [zpow_natCast]

/-- A finite value is its mantissa scaled to a smaller exponent, times that power of two. -/
theorem toRat_scaled (s : Bool) (m : Nat) (e k : Int) (hk : k ≤ e) :
    toRat (fin s m e) =
      (((if s then -1 else 1) * ((m * pow2 (e - k) : Nat) : Int) : Int) : ℚ) * (2 : ℚ) ^ k := by
  unfold toRat
  push_cast
  rw [pow2_cast (e - k) (by omega)]
  have h2 : (2 : ℚ) ^ e = (2 : ℚ) ^ (e - k) * (2 : ℚ) ^ k := by
    rw [← zpow_add₀ (by norm_num : (2 : ℚ) ≠ 0)]
    congr 1
    omega
  rw [h2]
  split_ifs <;> ring

/-- Go `>` on two numbers is the order of their keys. -/
theorem gt_iff_key (a b : F64) (ha : a.isNaN = false) (hb : b.isNaN = false) :
    gt a b = true ↔ key b < key a := by
  unfold key
  rw [Prod.Lex.lt_iff]
  cases a with
  | nan => simp [isNaN] at ha
  | inf s =>
    cases b with
    | nan => simp [isNaN] at hb
    | inf t => cases s <;> cases t <;> simp [gt, rank, toRat]
    | fin t m e => cases s <;> simp [gt, rank, toRat]
  | fin s m e =>
    cases b with
    | nan => simp [isNaN] at hb
    | inf t => cases t <;> simp [gt, rank, toRat]
    | fin t m' e' =>
      have h1 := toRat_scaled s m e (min e e') (min_le_left _ _)
      have h2 := toRat_scaled t m' e' (min e e') (min_le_right _ _)
      simp only [gt, rank, lt_self_iff_false, false_or, true_and, decide_eq_true_eq]
      rw [h1, h2]
      have hpos : (0 : ℚ) < (2 : ℚ) ^ (min e e') := zpow_pos (by norm_num) _
      rw [mul_lt_mul_right hpos, Int.cast_lt]

theorem gt_strictWeak :
    sort.StrictWeak (fun x y : F64 => gt x y) (fun x => x.isNaN = false) := by
  constructor
  · intro x y hx hy h
    have h1 := (gt_iff_key x y hx hy).1 h
    cases hg : gt y x with
    | false => rfl
    | true => exact absurd ((gt_iff_key y x hy hx).1 hg) (lt_asymm h1)
  · intro x y z hx hy hz h1 h2
    have a1 : ¬ key x < key y := fun h => by
      rw [(gt_iff_key y x hy hx).2 h] at h1; cases h1
    have a2 : ¬ key y < key z := fun h => by
      rw [(gt_iff_key z y hz hy).2 h] at h2; cases h2
    cases hg : gt z x with
    | false => rfl
    | true =>
      have := (gt_iff_key z x hz hx).1 hg
      exact absurd (lt_of_lt_of_le this (not_lt.1 a2)) a1

theorem ge_eq_not_gt (a b : F64) (ha : a.isNaN = false) (hb : b.isNaN = false) :
    ge a b = !gt b a := by
  cases a with
  | nan => simp [isNaN] at ha
  | inf s => cases b <;> simp_all [ge, isNaN]
  | fin s m e => cases b <;> simp_all [ge, isNaN]

theorem ge_isNaN (a b : F64) (h : ge a b = true) : a.isNaN = false ∧ b.isNaN = false := by
  cases a <;> cases b <;> simp_all [ge, isNaN]

/-- Two values equal to a third are not greater than one another. -/
theorem gt_of_eq (a b c : F64) (ha : eq a c = true) (hb : eq b c = true) : gt a b = false := by
  unfold eq at ha hb
  simp only [Bool.and_eq_true] at ha hb
  obtain ⟨na, nc⟩ := ge_isNaN a c ha.1
  obtain ⟨nb, -⟩ := ge_isNaN b c hb.1
  rw [ge_eq_not_gt a c na nc] at ha
  rw [ge_eq_not_gt c a nc na] at ha
  rw [ge_eq_not_gt b c nb nc] at hb
  rw [ge_eq_not_gt c b nc nb] at hb
  simp only [Bool.not_eq_true'] at ha hb
  have k1 : key a = key c := le_antisymm
    (not_lt.1 (fun h => by rw [(gt_iff_key a c na nc).2 h] at ha; cases ha.2))
    (not_lt.1 (fun h => by rw [(gt_iff_key c a nc na).2 h] at ha; cases ha.1))
  have k2 : key b = key c := le_antisymm
    (not_lt.1 (fun h => by rw [(gt_iff_key b c nb nc).2 h] at hb; cases hb.2))
    (not_lt.1 (fun h => by rw [(gt_iff_key c b nc nb).2 h] at hb; cases hb.1))
  cases hg : gt a b with
  | false => rfl
  | true =>
    have := (gt_iff_key a b na nb).1 hg
    rw [k1, k2] at this
    exact absurd this (lt_irrefl _)

end F64

namespace sort

variable {α : Type} [Inhabited α]

/-! ## The sort: `sort.Slice`, and the short slices -/

theorem Slice_spec (next : Nat → Nat) (less : α → α → Bool) (S : α → Prop)
    (hW : StrictWeak less S) (x : List α) (hS : ∀ e ∈ x, S e) :
    ∃ out, Slice next less x = some out ∧ out.Perm x ∧
      out.Pairwise (fun p q => less q p = false) := by
  have hA : AllIn S x x.length := by
    intro k hk
    rw [elem_eq_getElem x k hk]
    exact hS _ (List.getElem_mem _)
  obtain ⟨d', h1, h2, h3⟩ := pdqsort_spec next less S hW (x.length + 1) x 0 x.length
    (F64.bitLen x.length) true true (Nat.zero_le _) (le_refl _) (by omega) hA
    (fun h => absurd h (lt_irrefl 0))
  refine ⟨d', h1, RangePerm.perm h2, ?_⟩
  rw [List.pairwise_iff_getElem]
  intro i j hi hj hij
  have := h3 i j (Nat.zero_le _) hij (by rw [← h2.1]; exact hj)
  rw [elem_eq_getElem d' i hi, elem_eq_getElem d' j hj] at this
  exact this

theorem Swap_adjacent (l1 l2 : List α) (x y : α) :
    Swap (l1 ++ x :: y :: l2) (l1.length + 1) l1.length = l1 ++ y :: x :: l2 := by
  induction l1 with
  | nil => simp [Swap, elem]
  | cons c rest ih =>
    simp only [Swap, elem, List.length_cons, List.cons_append, List.set_cons_succ,
      List.getD_cons_succ] at ih ⊢
    rw [ih]

theorem Swap_adjacent_filter (P : α → Bool) (d : List α) (j : Nat) (hj : j + 1 < d.length)
    (hP : ¬ (P (elem d j) = true ∧ P (elem d (j + 1)) = true)) :
    (Swap d (j + 1) j).filter P = d.filter P := by
  have hd : d = d.take j ++ d[j] :: d[j + 1] :: d.drop (j + 2) := by
    conv_lhs => rw [← List.take_append_drop j d]
    congr 1
    rw [List.drop_eq_getElem_cons (by omega : j < d.length)]
    congr 1
    rw [List.drop_eq_getElem_cons hj]
  have hl : (d.take j).length = j := by
    rw [List.length_take]; omega
  rw [elem_eq_getElem d j (by omega), elem_eq_getElem d (j + 1) hj] at hP
  generalize d[j] = x at hd hP
  generalize d[j + 1] = y at hd hP
  generalize d.take j = l1 at hd hl
  generalize d.drop (j + 2) = l2 at hd
  subst hd
  subst hl
  rw [Swap_adjacent]
  simp only [List.filter_append, List.filter_cons]
  cases hx : P x <;> cases hy : P y <;> simp_all

theorem length_insertionInner (less : α → α → Bool) (a : Nat) :
    ∀ (j : Nat) (d : List α), (insertionInner less a j d).length = d.length := by
  intro j
  induction j with
  | zero => intro d; simp [insertionInner]
  | succ j ih =>
    intro d
    unfold insertionInner
    split_ifs
    · rw [ih, length_Swap]
    · rfl

theorem insertionInner_filter (less : α → α → Bool) (P : α → Bool)
    (hP : ∀ u v, P u = true → P v = true → less u v = false) (a : Nat) :
    ∀ (j : Nat) (d : List α), j < d.length →
      (insertionInner less a j d).filter P = d.filter P := by
  intro j
  induction j with
  | zero => intro d _; simp [insertionInner]
  | succ j ih =>
    intro d hj
    unfold insertionInner
    split_ifs with h
    · rw [ih _ (by rw [length_Swap]; omega)]
      apply Swap_adjacent_filter P d j hj
      intro hc
      rw [hP _ _ hc.2 hc.1] at h
      simp at h
    · rfl
theorem insertionSort_filter (less : α → α → Bool) (P : α → Bool)
    (hP : ∀ u v, P u = true → P v = true → less u v = false) (d : List α) (a b : Nat)
    (hb : b ≤ d.length) :
    (insertionSort_func less d a b).filter P = d.filter P := by
  by_cases hab : a + 1 ≤ b
  · have key := foldl_range'_invariant (fun data i => insertionInner less a i data)
      (fun _ d' => d'.length = d.length ∧ d'.filter P = d.filter P) (b - (a + 1)) (a + 1) d
      ⟨rfl, rfl⟩
      (by
        intro i y h1 h2 ⟨hl, hf⟩
        exact ⟨by rw [length_insertionInner, hl],
          by rw [insertionInner_filter less P hP a i y (by omega), hf]⟩)
    exact key.2
  · have : b - (a + 1) = 0 := by omega
    unfold insertionSort_func
    rw [this]
    rfl

theorem Slice_short (next : Nat → Nat) (less : α → α → Bool) (x : List α)
    (hx : x.length ≤ 12) :
    Slice next less x = some (insertionSort_func less x 0 x.length) := by
  unfold Slice
  simp only
  unfold pdqsort_func
  rw [if_pos (by omega)]

end sort

theorem lessChangePercent_strictWeak :
    sort.StrictWeak lessChangePercent Product.hasNumber := by
  constructor
  · intro x y hx hy h
    exact F64.gt_strictWeak.asymm _ _ hx hy h
  · intro x y z hx hy hz h1 h2
    exact F64.gt_strictWeak.trans _ _ _ hx hy hz h1 h2

theorem sortProducts_short (next : Nat → Nat) (products : List Product)
    (h : products.length ≤ 12) :
    sortProducts next products =
      some (sort.insertionSort_func lessChangePercent products 0 products.length) :=
  sort.Slice_short next lessChangePercent products h

namespace sort

variable {α : Type} [Inhabited α]

theorem pdqsort_short_next (next next' : Nat → Nat) (less : α → α → Bool) (fuel : Nat)
    (d : List α) (a b limit : Nat) (wB wP : Bool) (h : b - a ≤ 12) :
    pdqsort_func next less fuel d a b limit wB wP =
      pdqsort_func next' less fuel d a b limit wB wP := by
  cases fuel with
  | zero => rfl
  | succ fuel =>
    rw [pdqsort_func, pdqsort_func, if_pos h, if_pos h]

/-- The first iteration on a slice `data[0:b]` does not draw a pseudo-random number, and
with 13 elements no later one does. -/
theorem pdqsort_thirteen_next (next next' : Nat → Nat) (less : α → α → Bool) (S : α → Prop)
    (hW : StrictWeak less S) (fuel : Nat) (d : List α) (b limit : Nat) (wP : Bool)
    (hb : b ≤ d.length) (h13 : b ≤ 13) (hS : AllIn S d d.length) :
    pdqsort_func next less fuel d 0 b limit true wP =
      pdqsort_func next' less fuel d 0 b limit true wP := by
  by_cases h12 : b - 0 ≤ 12
  · exact pdqsort_short_next next next' less fuel d 0 b limit true wP h12
  cases fuel with
  | zero => rfl
  | succ fuel =>
    rw [pdqsort_func, pdqsort_func, if_neg h12, if_neg h12]
    by_cases hl : limit = 0
    · rw [if_pos hl, if_pos hl]
    rw [if_neg hl, if_neg hl]
    have hst : pdqsortPrepare next less d 0 b limit true wP =
        pdqsortPrepare next' less d 0 b limit true wP := rfl
    simp only [hst]
    obtain ⟨p1, p2, p3, -⟩ := pdqsortPrepare_spec next' less S hW d 0 b limit true wP
      (by omega) hb hS (fun h => absurd h (lt_irrefl 0))
    generalize pdqsortPrepare next' less d 0 b limit true wP = st at p1 p2 p3
    have hlen : st.data.length = d.length := p1.length_eq
    obtain ⟨d', mid, flag, q1, q2, q3, q4, -⟩ := partition_spec less st.data 0 b st.pivot
      ⟨p2, p3⟩ (by rw [hlen]; exact hb)
    have e0 : ¬ (0 < 0 ∧ (!less (elem st.data (0 - 1)) (elem st.data st.pivot)) = true) :=
      fun h => absurd h.1 (lt_irrefl 0)
    rw [if_neg e0, if_neg e0, q1]
    simp only [Option.some_bind]
    have s1 : ∀ (x : List α) (l : Nat) (u v : Bool),
        pdqsort_func next less fuel x 0 mid l u v =
          pdqsort_func next' less fuel x 0 mid l u v :=
      fun x l u v => pdqsort_short_next next next' less fuel x 0 mid l u v (by omega)
    have s2 : ∀ (x : List α) (l : Nat) (u v : Bool),
        pdqsort_func next less fuel x (mid + 1) b l u v =
          pdqsort_func next' less fuel x (mid + 1) b l u v :=
      fun x l u v => pdqsort_short_next next next' less fuel x (mid + 1) b l u v (by omega)
    simp only [s1, s2]

end sort

theorem sortProducts_thirteen (next : Nat → Nat) :
    sortProducts next scenarioThirteen = sortProducts (fun r => r) scenarioThirteen := by
  unfold sortProducts sort.Slice
  exact sort.pdqsort_thirteen_next next (fun r => r) lessChangePercent Product.hasNumber
    lessChangePercent_strictWeak _ _ _ _ _ (le_refl _) (by decide) (by
      intro k hk
      have : ∀ p ∈ scenarioThirteen, p.ChangePercent.isNaN = false := by decide
      rw [sort.elem_eq_getElem _ k hk]
      exact this _ (List.getElem_mem _))

theorem mapM_enrich_length (env : Env) :
    ∀ (l ps : List Product), l.mapM (enrich env) = some ps → ps.length = l.length := by
  intro l
  induction l with
  | nil =>
    intro ps h
    simp only [List.mapM_nil] at h
    cases h
    rfl
  | cons a l ih =>
    intro ps h
    rw [List.mapM_cons] at h
    cases h1 : enrich env a with
    | none => rw [h1] at h; cases h
    | some b =>
      cases h2 : l.mapM (enrich env) with
      | none => rw [h1, h2] at h; cases h
      | some bs =>
        rw [h1, h2] at h
        cases h
        rw [List.length_cons, List.length_cons, ih bs h2]

theorem mainCategory_short (env : Env) (next next' : Nat → Nat) (l : List Product)
    (h : l.length ≤ 12) : mainCategory env next l = mainCategory env next' l := by
  unfold mainCategory
  cases hm : l.mapM (enrich env) with
  | none => rw [Option.none_bind, Option.none_bind]
  | some ps =>
    have := mapM_enrich_length env l ps hm
    simp only [Option.some_bind]
    rw [sortProducts_short next ps (by omega), sortProducts_short next' ps (by omega)]

/-- C8, as the specification states it, fails.  Of thirteen products, the first twelve
with `ChangePercent` 0 and URLs `0` to `11` and the last with `ChangePercent` 5, the twelve
equal ones come out of the sort of `main` in the order 6, 2, 3, 4, 5, 0, 7, 8, 9, 10, 11,
1, whatever the pseudo-random numbers of package `sort` are. -/
theorem C8_sortProducts_unstable_counterexample :
    (specTies F64.zero scenarioThirteen).map (fun p => p.URL) =
      ["0".toList, "1".toList, "2".toList, "3".toList, "4".toList, "5".toList, "6".toList,
        "7".toList, "8".toList, "9".toList, "10".toList, "11".toList] ∧
    ∀ next : Nat → Nat,
      (sortProducts next scenarioThirteen).map
          (fun out => (specTies F64.zero out).map (fun p => p.URL)) =
        some ["6".toList, "2".toList, "3".toList, "4".toList, "5".toList, "0".toList,
          "7".toList, "8".toList, "9".toList, "10".toList, "11".toList, "1".toList] := by
  refine ⟨by decide, ?_⟩
  intro next
  rw [sortProducts_thirteen next]
  decide

/-- C8, amended: on a list of at most 12 products the sort of `main` returns and is
stable: for every value, the products whose `ChangePercent` equals it stand in the output
in the order they have in the input.  (On 13 products and more the order of equal products
can change.)  The products `a`, `b`, `c`, `d` with `ChangePercent` 0, 5, 0, 5 come out as
`b`, `d`, `a`, `c`. -/
theorem C8_sortProducts_stable_short :
    (∀ (next : Nat → Nat) (products : List Product), products.length ≤ 12 →
      ∃ out, sortProducts next products = some out ∧
        ∀ c : F64, specTies c out = specTies c products) ∧
    (∀ next : Nat → Nat,
      (sortProducts next
          [scenarioChanged "a".toList F64.zero, scenarioChanged "b".toList (F64.lit 5 1),
           scenarioChanged "c".toList F64.zero, scenarioChanged "d".toList (F64.lit 5 1)]).map
        (List.map fun p => p.URL) =
      some ["b".toList, "d".toList, "a".toList, "c".toList]) := by
  refine ⟨?_, ?_⟩
  · intro next products h
    rw [sortProducts_short next products h]
    refine ⟨_, rfl, fun c => ?_⟩
    exact sort.insertionSort_filter lessChangePercent (fun p => F64.eq p.ChangePercent c)
      (fun u v hu hv => F64.gt_of_eq _ _ c hu hv) products 0 _ (le_refl _)
  · intro next
    rw [sortProducts_short _ _ (by decide)]
    decide

/-- C8 at four products with the `ChangePercent` values 0, 5, 0 and 5. -/
theorem C8_sortProducts_stable_short_witness :
    [scenarioChanged "a".toList F64.zero, scenarioChanged "b".toList (F64.lit 5 1),
      scenarioChanged "c".toList F64.zero, scenarioChanged "d".toList (F64.lit 5 1)].length
      ≤ 12 ∧
    ∃ out, sortProducts (fun r => r)
        [scenarioChanged "a".toList F64.zero, scenarioChanged "b".toList (F64.lit 5 1),
         scenarioChanged "c".toList F64.zero, scenarioChanged "d".toList (F64.lit 5 1)] =
        some out ∧
      ∀ c : F64, specTies c out = specTies c
        [scenarioChanged "a".toList F64.zero, scenarioChanged "b".toList (F64.lit 5 1),
         scenarioChanged "c".toList F64.zero, scenarioChanged "d".toList (F64.lit 5 1)] :=
  ⟨by decide, C8_sortProducts_stable_short.1 (fun r => r) _ (by decide)⟩

namespace sort

variable {α : Type} [Inhabited α]

/-! ## The sort under any comparison: it returns, and only permutes the slice -/

theorem insertionInner_perm (less : α → α → Bool) (a : Nat) :
    ∀ (i : Nat) (d : List α), i < d.length →
      RangePerm a (i + 1) d (insertionInner less a i d) := by
  intro i
  induction i with
  | zero => intro d _; exact RangePerm.refl _ _ _
  | succ j ih =>
    intro d hj
    rw [insertionInner]
    by_cases h : a < j + 1 ∧ less (elem d (j + 1)) (elem d j) = true
    · rw [if_pos h]
      have hs : RangePerm a (j + 1 + 1) d (Swap d (j + 1) j) :=
        RangePerm.swap a (j + 1 + 1) d (j + 1) j ⟨by omega, by omega⟩ ⟨by omega, by omega⟩
          (by omega)
      exact hs.trans ((ih _ (by rw [length_Swap]; omega)).mono (le_refl _) (by omega))
    · rw [if_neg h]
      exact RangePerm.refl _ _ _

/-- Go `insertionSort_func` only permutes `data[a:b]`, whatever `less` is. -/
theorem insertionSort_perm (less : α → α → Bool) (d : List α) (a b : Nat)
    (hb : b ≤ d.length) : RangePerm a b d (insertionSort_func less d a b) := by
  by_cases hab : a + 1 ≤ b
  · have key := foldl_range'_invariant (fun data i => insertionInner less a i data)
      (fun _ d' => RangePerm a b d d') (b - (a + 1)) (a + 1) d (RangePerm.refl _ _ _)
      (by
        intro i y h1 h2 hp
        have hl : y.length = d.length := hp.length_eq
        exact hp.trans ((insertionInner_perm less a i y (by omega)).mono (le_refl _)
          (by omega)))
    exact key
  · have : b - (a + 1) = 0 := by omega
    unfold insertionSort_func
    rw [this]
    exact RangePerm.refl _ _ _

/-- The first shifting loop only permutes the elements up to its start, whatever `less`
is; it may move elements before `a`. -/
theorem shiftLeft_perm (less : α → α → Bool) :
    ∀ (j : Nat) (d : List α), j < d.length → RangePerm 0 (j + 1) d (shiftLeft less j d) := by
  intro j
  induction j with
  | zero => intro d _; exact RangePerm.refl _ _ _
  | succ j ih =>
    intro d hj
    rw [shiftLeft]
    by_cases h : (!less (elem d (j + 1)) (elem d j)) = true
    · rw [if_pos h]
      exact RangePerm.refl _ _ _
    · rw [if_neg h]
      have hs : RangePerm 0 (j + 1 + 1) d (Swap d (j + 1) j) :=
        RangePerm.swap 0 (j + 1 + 1) d (j + 1) j ⟨by omega, by omega⟩ ⟨by omega, by omega⟩
          (by omega)
      exact hs.trans ((ih _ (by rw [length_Swap]; omega)).mono (le_refl _) (by omega))

/-- The loop of `partialInsertionSort_func` only permutes `data[0:b]`, whatever `less`
is. -/
theorem partialInsertionLoop_perm (less : α → α → Bool) (a b : Nat) :
    ∀ (steps i : Nat) (d : List α), a + 1 ≤ i → i ≤ b → b ≤ d.length →
      RangePerm 0 b d (partialInsertionLoop less a b steps i d).1 := by
  intro steps
  induction steps with
  | zero =>
    intro i d _ _ _
    exact RangePerm.refl _ _ _
  | succ steps ih =>
    intro i d hi hib hb
    rw [partialInsertionLoop]
    obtain ⟨u1, u2, -, -⟩ := scanUp_spec (fun k => !less (elem d k) (elem d (k - 1))) b
      (b - i) i (by omega)
    generalize scanUp (fun k => !less (elem d k) (elem d (k - 1))) b
      (List.range' i (b - i)) = i' at u1 u2
    simp only
    by_cases h1 : i' = b
    · rw [if_pos h1]
      exact RangePerm.refl _ _ _
    · rw [if_neg h1]
      by_cases h2 : b - a < 50
      · rw [if_pos h2]
        exact RangePerm.refl _ _ _
      · rw [if_neg h2]
        have p1 : RangePerm 0 b d (Swap d i' (i' - 1)) :=
          RangePerm.swap 0 b d _ _ ⟨by omega, by omega⟩ ⟨by omega, by omega⟩ hb
        have l1 : (Swap d i' (i' - 1)).length = d.length := length_Swap _ _ _
        have hleft : ∃ d2, (if 2 ≤ i' - a then shiftLeft less (i' - 1) (Swap d i' (i' - 1))
            else Swap d i' (i' - 1)) = d2 ∧ RangePerm 0 b (Swap d i' (i' - 1)) d2 := by
          by_cases h3 : 2 ≤ i' - a
          · rw [if_pos h3]
            exact ⟨_, rfl, (shiftLeft_perm less (i' - 1) _ (by omega)).mono (le_refl _)
              (by omega)⟩
          · rw [if_neg h3]
            exact ⟨_, rfl, RangePerm.refl _ _ _⟩
        obtain ⟨d2, e2, p2⟩ := hleft
        rw [e2]
        have p12 : RangePerm 0 b d d2 := p1.trans p2
        have l2 : d2.length = d.length := p12.length_eq
        have hright : ∃ d3, (if 2 ≤ b - i' then
            shiftRight less (List.range' (i' + 1) (b - (i' + 1))) d2 else d2) = d3 ∧
            RangePerm 0 b d2 d3 := by
          by_cases h3 : 2 ≤ b - i'
          · rw [if_pos h3]
            have r := shiftRight_spec less (b - (i' + 1)) (i' + 1) d2 (by omega) (by omega)
            exact ⟨_, rfl, r.mono (by omega) (by omega)⟩
          · rw [if_neg h3]
            exact ⟨_, rfl, RangePerm.refl _ _ _⟩
        obtain ⟨d3, e3, p3⟩ := hright
        rw [e3]
        have p13 : RangePerm 0 b d d3 := p12.trans p3
        have l3 : d3.length = d.length := p13.length_eq
        exact p13.trans (ih i' d3 (by omega) (by omega) (by omega))

/-- Go `partitionEqual_func` returns with an index of the range and only permutes
`data[a:b]`, whatever `less` is. -/
theorem partitionEqual_perm (less : α → α → Bool) (d : List α) (a b pivot : Nat)
    (hp : a ≤ pivot ∧ pivot < b) (hb : b ≤ d.length) :
    ∃ d' mid, partitionEqual_func less d a b pivot = some (d', mid) ∧
      RangePerm a b d d' ∧ a + 1 ≤ mid ∧ mid ≤ b := by
  have h0 : RangePerm a b d (Swap d a pivot) :=
    RangePerm.swap a b d a pivot ⟨le_refl _, by omega⟩ hp hb
  obtain ⟨i, dl, r1, r2, r3, r4, -, -⟩ := partitionEqualLoop_spec less a b (b - a + 1)
    (a + 1) (b - 1) (Swap d a pivot) (le_refl _) (by omega) (by omega)
    (by rw [length_Swap]; exact hb) (by omega) (fun k h1 h2 => by omega)
    (fun k h1 h2 => by omega)
  refine ⟨dl, i, ?_, h0.trans (r2.mono (by omega) (le_refl _)), r3, r4⟩
  rw [partitionEqual_func]
  simp only [r1]

/-- Go `siftDown_func` ends and only permutes the heap, whatever `less` is. -/
theorem siftDown_perm (less : α → α → Bool) (hi first : Nat) :
    ∀ (fuel root : Nat) (d : List α), first + hi ≤ d.length → root ≤ hi → hi < fuel + root →
      ∃ d', siftDown_func less hi first fuel root d = some d' ∧
        RangePerm first (first + hi) d d' := by
  intro fuel
  induction fuel with
  | zero =>
    intro root d _ h1 h2
    omega
  | succ fuel ih =>
    intro root d hn hrh hf
    rw [siftDown_func]
    simp only
    by_cases h1 : hi ≤ 2 * root + 1
    · rw [if_pos h1]
      exact ⟨d, rfl, RangePerm.refl _ _ _⟩
    · rw [if_neg h1]
      have hc : ∃ c, (if 2 * root + 1 + 1 < hi ∧
            less (elem d (first + (2 * root + 1))) (elem d (first + (2 * root + 1) + 1)) = true
          then 2 * root + 1 + 1 else 2 * root + 1) = c ∧ root < c ∧ c < hi := by
        split_ifs with h
        · exact ⟨_, rfl, by omega, h.1⟩
        · exact ⟨_, rfl, by omega, by omega⟩
      obtain ⟨c, ec, c1, c2⟩ := hc
      rw [ec]
      by_cases h2 : (!less (elem d (first + root)) (elem d (first + c))) = true
      · rw [if_pos h2]
        exact ⟨d, rfl, RangePerm.refl _ _ _⟩
      · rw [if_neg h2]
        have hs : RangePerm first (first + hi) d (Swap d (first + root) (first + c)) :=
          RangePerm.swap _ _ d _ _ ⟨by omega, by omega⟩ ⟨by omega, by omega⟩ hn
        obtain ⟨d', r1, r2⟩ := ih c (Swap d (first + root) (first + c))
          (by rw [length_Swap]; exact hn) (by omega) (by omega)
        exact ⟨d', r1, hs.trans r2⟩

/-- Go `heapSort_func` returns and only permutes `data[a:b]`, whatever `less` is. -/
theorem heapSort_perm (less : α → α → Bool) (d : List α) (a b : Nat) (hab : a ≤ b)
    (hb : b ≤ d.length) :
    ∃ d', heapSort_func less d a b = some d' ∧ RangePerm a b d d' := by
  rw [heapSort_func]
  obtain ⟨d1, e1, p1⟩ := foldlM_range_reverse
    (fun data i => siftDown_func less (b - a) a (b - a + 1) i data)
    (fun _ d' => RangePerm a b d d') ((b - a - 1) / 2 + 1) d (RangePerm.refl _ _ _)
    (by
      intro i y hi hp
      have hl : y.length = d.length := hp.length_eq
      obtain ⟨d', r1, r2⟩ := siftDown_perm less (b - a) a (b - a + 1) i y (by omega)
        (by omega) (by omega)
      exact ⟨d', r1, hp.trans (r2.mono (le_refl _) (by omega))⟩)
  rw [e1]
  obtain ⟨d2, e2, p2⟩ := foldlM_range_reverse
    (fun data i => siftDown_func less i a (b - a + 1) 0 (Swap data a (a + i)))
    (fun _ d' => RangePerm a b d d') (b - a) d1 p1
    (by
      intro i y hi hp
      have hl : y.length = d.length := hp.length_eq
      have hps : RangePerm a b y (Swap y a (a + i)) :=
        RangePerm.swap a b y a (a + i) ⟨le_refl _, by omega⟩ ⟨by omega, by omega⟩ (by omega)
      obtain ⟨d', r1, r2⟩ := siftDown_perm less i a (b - a + 1) 0 (Swap y a (a + i))
        (by rw [length_Swap]; omega) (by omega) (by omega)
      exact ⟨d', r1, hp.trans (hps.trans (r2.mono (le_refl _) (by omega)))⟩)
  exact ⟨d2, e2, p2⟩

/-- An iteration of `pdqsort_func` up to the partitioning only permutes `data[0:b]`, and
the pivot is an index of the range, whatever `less` is. -/
theorem pdqsortPrepare_perm (next : Nat → Nat) (less : α → α → Bool) (d : List α)
    (a b limit : Nat) (wB wP : Bool) (hab : 12 < b - a) (hb : b ≤ d.length) :
    RangePerm 0 b d (pdqsortPrepare next less d a b limit wB wP).data ∧
      a ≤ (pdqsortPrepare next less d a b limit wB wP).pivot ∧
      (pdqsortPrepare next less d a b limit wB wP).pivot < b := by
  rw [pdqsortPrepare]
  simp only
  have h1 : ∃ d1, (if (!wB) = true then breakPatterns_func next d a b else d) = d1 ∧
      RangePerm a b d d1 := by
    split_ifs
    · exact ⟨_, rfl, breakPatterns_spec next d a b hb⟩
    · exact ⟨_, rfl, RangePerm.refl _ _ _⟩
  obtain ⟨d1, e1, p1⟩ := h1
  rw [e1]
  have l1 : d1.length = d.length := p1.length_eq
  have hpiv := choosePivot_range less d1 a b hab
  generalize choosePivot_func less d1 a b = chosen at hpiv
  have h2 : ∃ d2, (if decide (chosen.2 = sortedHint.decreasingHint) = true
      then reverseRange_func d1 a b else d1) = d2 ∧ RangePerm a b d1 d2 := by
    split_ifs
    · exact ⟨_, rfl, reverseRange_spec d1 a b (by omega)⟩
    · exact ⟨_, rfl, RangePerm.refl _ _ _⟩
  obtain ⟨d2, e2, p2⟩ := h2
  rw [e2]
  have p12 : RangePerm 0 b d d2 := (p1.trans p2).mono (Nat.zero_le _) (le_refl _)
  have l2 : d2.length = d.length := p12.length_eq
  have hpiv' : a ≤ (if decide (chosen.2 = sortedHint.decreasingHint) = true
      then b - 1 - (chosen.1 - a) else chosen.1) ∧
      (if decide (chosen.2 = sortedHint.decreasingHint) = true
      then b - 1 - (chosen.1 - a) else chosen.1) < b := by
    split_ifs <;> omega
  have ht : ∀ c : Bool,
      RangePerm 0 b d (if c = true then partialInsertionSort_func less d2 a b
        else (d2, false)).1 := by
    intro c
    have r := partialInsertionLoop_perm less a b 5 (a + 1) d2 (le_refl _) (by omega)
      (by omega)
    cases c
    · exact p12
    · exact p12.trans r
  exact ⟨ht _, hpiv'.1, hpiv'.2⟩

/-- Go `pdqsort_func` returns and only permutes `data[0:b]`, whatever `less` is: also
when `less` is not an order, as `>` on values with a NaN among them. -/
theorem pdqsort_perm (next : Nat → Nat) (less : α → α → Bool) :
    ∀ (fuel : Nat) (d : List α) (a b limit : Nat) (wB wP : Bool), a ≤ b → b ≤ d.length →
      b - a < fuel →
      ∃ d', pdqsort_func next less fuel d a b limit wB wP = some d' ∧ RangePerm 0 b d d' := by
  intro fuel
  induction fuel with
  | zero => intro d a b limit wB wP _ _ h; omega
  | succ fuel ih =>
    intro d a b limit wB wP hab hb hf
    rw [pdqsort_func]
    by_cases h12 : b - a ≤ 12
    · rw [if_pos h12]
      exact ⟨_, rfl, (insertionSort_perm less d a b hb).mono (Nat.zero_le _) (le_refl _)⟩
    · rw [if_neg h12]
      by_cases hl0 : limit = 0
      · rw [if_pos hl0]
        obtain ⟨d', e, p⟩ := heapSort_perm less d a b hab hb
        exact ⟨d', e, p.mono (Nat.zero_le _) (le_refl _)⟩
      · rw [if_neg hl0]
        obtain ⟨pst, hp1, hp2⟩ := pdqsortPrepare_perm next less d a b limit wB wP
          (by omega) hb
        generalize pdqsortPrepare next less d a b limit wB wP = st at pst hp1 hp2
        simp only
        have lst : st.data.length = d.length := pst.length_eq
        by_cases hs : st.sorted = true
        · rw [if_pos hs]
          exact ⟨_, rfl, pst⟩
        · rw [if_neg hs]
          by_cases hc : 0 < a ∧ (!less (elem st.data (a - 1)) (elem st.data st.pivot)) = true
          · rw [if_pos hc]
            obtain ⟨d2, mid, e2, p2, m1, m2⟩ := partitionEqual_perm less st.data a b st.pivot
              ⟨hp1, hp2⟩ (by omega)
            rw [e2]
            simp only [Option.bind_eq_bind, Option.some_bind]
            have l2 : d2.length = d.length := by rw [p2.length_eq, lst]
            obtain ⟨d3, e3, p3⟩ := ih d2 mid b st.limit wB wP m2 (by omega) (by omega)
            exact ⟨d3, e3, pst.trans ((p2.mono (Nat.zero_le _) (le_refl _)).trans p3)⟩
          · rw [if_neg hc]
            obtain ⟨d2, mid, flag, e2, p2, m1, m2, -, -⟩ := partition_spec less st.data a b
              st.pivot ⟨hp1, hp2⟩ (by omega)
            rw [e2]
            simp only [Option.bind_eq_bind, Option.some_bind]
            have p02 : RangePerm 0 b d d2 := pst.trans (p2.mono (Nat.zero_le _) (le_refl _))
            have l2 : d2.length = d.length := p02.length_eq
            by_cases hlr : mid - a < b - mid
            · rw [if_pos hlr]
              obtain ⟨d3, e3, p3⟩ := ih d2 a mid st.limit true true m1 (by omega) (by omega)
              rw [e3]
              simp only [Option.some_bind]
              have l3 : d3.length = d.length := by rw [p3.length_eq, l2]
              obtain ⟨d4, e4, p4⟩ := ih d3 (mid + 1) b st.limit
                (decide ((b - a) / 8 ≤ mid - a)) flag (by omega) (by omega) (by omega)
              exact ⟨d4, e4, p02.trans ((p3.mono (le_refl _) (by omega)).trans p4)⟩
            · rw [if_neg hlr]
              obtain ⟨d3, e3, p3⟩ := ih d2 (mid + 1) b st.limit true true (by omega)
                (by omega) (by omega)
              rw [e3]
              simp only [Option.some_bind]
              have l3 : d3.length = d.length := by rw [p3.length_eq, l2]
              obtain ⟨d4, e4, p4⟩ := ih d3 a mid st.limit
                (decide ((b - a) / 8 ≤ b - mid)) flag m1 (by omega) (by omega)
              exact ⟨d4, e4, p02.trans (p3.trans (p4.mono (le_refl _) (by omega)))⟩

/-- Go `sort.Slice` returns a permutation of the slice, whatever `less` is. -/
theorem Slice_perm (next : Nat → Nat) (less : α → α → Bool) (x : List α) :
    ∃ out, Slice next less x = some out ∧ out.Perm x := by
  obtain ⟨d', h1, h2⟩ := pdqsort_perm next less (x.length + 1) x 0 x.length
    (F64.bitLen x.length) true true (Nat.zero_le _) (le_refl _) (by omega)
  exact ⟨d', h1, RangePerm.perm h2⟩

/-- The model of `breakPatterns_func` on the 14 elements `0, 1, ..., 13`, with the
generator of package `sort`: the elements at 5, 6 and 7 are swapped with those at 0, 9
and 0. -/
theorem breakPatterns_fourteen :
    breakPatterns_func xorshift_Next [0, 1, 2, 3, 4, 5, 6, 7, 8, 9, 10, 11, 12, 13] 0 14 =
      [7, 1, 2, 3, 4, 0, 9, 5, 8, 6, 10, 11, 12, 13] := by
  decide

end sort
end PriceTracker

namespace PriceTracker

/-- C7 on the code: three products with baseline `€100,00` whose pages show the price
trends `€150,00`, `NaN` and `€200,00` leave the category loop of `main` in their input
order, with `ChangePercent` 50, NaN and 100, whatever the pseudo-random numbers of package
`sort` are: the product with 50 stands before the one with 100, and none of `50 >= NaN`,
`NaN >= 100`, `50 >= 100` holds.  What holds of the sort of `main`: on every list it
returns a permutation of the list, and when no `ChangePercent` of the list is NaN every
product of the result is at least as large in `ChangePercent` as every later one, a
`ChangePercent` of 0 being a number like any other; the values `[5, -2, 10]` come out as
`[10, 5, -2]`, and `[0, 5, -2]` as `[5, 0, -2]`. -/
theorem C7_sort_with_NaN_is_unordered :
    (∀ next : Nat → Nat,
      (mainCategory
          (scenarioSite (F64.lit 1 1)
            [("a".toList, scenarioPage "A".toList "€150,00".toList []),
             ("b".toList, scenarioPage "B".toList "NaN".toList []),
             ("c".toList, scenarioPage "C".toList "€200,00".toList [])])
          next
          [scenarioProduct "a".toList "€100,00".toList,
           scenarioProduct "b".toList "€100,00".toList,
           scenarioProduct "c".toList "€100,00".toList]).map
        (List.map fun p => (p.URL, p.ChangePercent)) =
      some [("a".toList, F64.lit 50 1), ("b".toList, F64.nan), ("c".toList, F64.lit 100 1)]) ∧
    F64.ge (F64.lit 50 1) F64.nan = false ∧ F64.ge F64.nan (F64.lit 100 1) = false ∧
    F64.ge (F64.lit 50 1) (F64.lit 100 1) = false ∧
    (∀ (next : Nat → Nat) (products : List Product),
      ∃ out, sortProducts next products = some out ∧ out.Perm products ∧
        ((∀ p ∈ products, p.hasNumber) →
          out.Pairwise (fun p q => F64.ge p.ChangePercent q.ChangePercent = true))) ∧
    (∀ next : Nat → Nat,
      (sortProducts next
          [scenarioChanged "a".toList (F64.lit 5 1),
           scenarioChanged "b".toList (F64.neg (F64.lit 2 1)),
           scenarioChanged "c".toList (F64.lit 10 1)]).map
        (List.map fun p => (p.URL, p.ChangePercent)) =
      some [("c".toList, F64.lit 10 1), ("a".toList, F64.lit 5 1),
        ("b".toList, F64.neg (F64.lit 2 1))]) ∧
    (∀ next : Nat → Nat,
      (sortProducts next
          [scenarioChanged "a".toList F64.zero,
           scenarioChanged "b".toList (F64.lit 5 1),
           scenarioChanged "c".toList (F64.neg (F64.lit 2 1))]).map
        (List.map fun p => (p.URL, p.ChangePercent)) =
      some [("b".toList, F64.lit 5 1), ("a".toList, F64.zero),
        ("c".toList, F64.neg (F64.lit 2 1))]) := by
  refine ⟨?_, by decide, by decide, by decide, ?_, ?_, ?_⟩
  · intro next
    rw [mainCategory_short _ next (fun r => r) _ (by decide)]
    decide
  · intro next products
    obtain ⟨out, h1, h2⟩ := sort.Slice_perm next lessChangePercent products
    refine ⟨out, h1, h2, fun hN => ?_⟩
    obtain ⟨out', h1', -, h3⟩ := sort.Slice_spec next lessChangePercent Product.hasNumber
      lessChangePercent_strictWeak products hN
    rw [h1] at h1'
    cases h1'
    have hN' : ∀ p ∈ out, p.hasNumber := fun p hp => hN p (h2.subset hp)
    rw [List.pairwise_iff_getElem] at h3 ⊢
    intro i j hi hj hij
    rw [F64.ge_eq_not_gt _ _ (hN' _ (List.getElem_mem _)) (hN' _ (List.getElem_mem _))]
    have := h3 i j hi hj hij
    unfold lessChangePercent at this
    rw [this]
    rfl
  · intro next
    rw [sortProducts_short _ _ (by decide)]
    decide
  · intro next
    rw [sortProducts_short _ _ (by decide)]
    decide

end PriceTracker
